import Mathlib

/-!
# Spreadsheet core (`cell.cpp`, `sheet.cpp`, `formula.cpp`)

A shallow embedding of the spreadsheet engine.

* A `Cell*` is an address (`Ptr`, a natural number); address `0` is `nullptr`.
  The cells owned by the sheet live in `Sheet.heap`; a destroyed cell leaves `none`
  at its address and addresses are never handed out twice, so a pointer to a
  destroyed cell is recognisably dangling.
* An `std::unordered_set<Cell*>` is a duplicate-free list; its iteration order is the
  list order.
* An `std::string` is a `String`, read as its sequence of characters.
* `double` is an arbitrary type `D`; the only number the core itself produces is `0.0`.
* Undefined behaviour (dereferencing a null or dangling pointer, indexing a vector
  out of bounds) is an explicit `Fault`; C++ exceptions are explicit `Exception`s. A
  function that changes the sheet returns an `Outcome`: the new sheet, or the
  exception with the sheet as the exception leaves it, or a fault.
* The recursive functions of the program take a bound on the depth of the recursion
  (fuel); the top-level calls pass a bound that is proved sufficient on the sheets
  considered.
* The formula parser and number parser are parameters (`Env`); a parsed formula is
  given by the positions it lists, its printed text and its run against the lookup
  callback.

The reachable sheets are those obtained from the empty sheet by calls of `SetCell`
and `ClearCell` that return or throw; they satisfy the invariant `WF`.
-/

namespace Spreadsheet

/-! ## Positions and values -/

/-- A cell coordinate (`struct Position`, two `int` fields). -/
structure Position where
  row : Int
  col : Int
deriving DecidableEq, Repr

/-- Modelled from the spec: `common.h` is not among the sources; the spec bounds the
coordinates by an implementation-defined maximum (tens of thousands). -/
def Position.MAX_ROWS : Int := 16384

/-- Modelled from the spec: `common.h` is not among the sources; see `MAX_ROWS`. -/
def Position.MAX_COLS : Int := 16384

/-- Modelled from the spec: `Position::IsValid` (declared in the absent `common.h`):
both coordinates are non-negative and below the maximum. -/
def Position.IsValid (p : Position) : Bool :=
  decide (0 ≤ p.row) && decide (0 ≤ p.col) &&
    decide (p.row < Position.MAX_ROWS) && decide (p.col < Position.MAX_COLS)

/-- Modelled from the spec: the formula marker character of `common.h`. -/
def FORMULA_SIGN : Char := '='

/-- Modelled from the spec: the escape marker character of `common.h`. -/
def ESCAPE_SIGN : Char := '\''

/-- The categories of `FormulaError`. -/
inductive Category where
  | Ref
  | Value
  | Arithmetic
deriving DecidableEq, Repr

/-- A value-level error (`class FormulaError`). -/
structure FormulaError where
  category_ : Category
deriving DecidableEq, Repr

/-- The text of `FormulaError::ToString`. -/
def FormulaError.ToString (e : FormulaError) : String :=
  match e.category_ with
  | .Ref => "#REF!"
  | .Value => "#VALUE!"
  | .Arithmetic => "#ARITHM!"

/-- The result of a formula, `FormulaInterface::Value = variant<double, FormulaError>`. -/
inductive FValue (D : Type) where
  | number (x : D)
  | error (e : FormulaError)
deriving DecidableEq, Repr

/-- The value of a cell, `CellInterface::Value = variant<string, double, FormulaError>`. -/
inductive Value (D : Type) where
  | text (s : String)
  | number (x : D)
  | error (e : FormulaError)
deriving DecidableEq, Repr

/-! ## The formula collaborator -/

/-- Modelled from the spec: `FormulaAST.h` is not among the sources. The run of
`FormulaAST::Execute` against a lookup callback: it finishes with a number, throws a
`FormulaError` of its own, or asks the callback for the number at a position and goes
on with the answer. An error thrown by the callback leaves `Execute` at once (see
`Formula.Evaluate`). -/
inductive Exec (D : Type) where
  | ret (x : D)
  | raise (e : FormulaError)
  | cell (pos : Position) (k : D → Exec D)

/-- Modelled from the spec: `FormulaAST.h` is not among the sources. What the core
uses of a parsed `FormulaAST`: the positions of `GetCells`, the text printed by
`PrintFormula` and the behaviour of `Execute`. -/
structure FormulaAST (D : Type) where
  cells : List Position
  expression : String
  exec : Exec D

/-- The collaborators that are not part of the sources: the number `0.0`, the parser
`ParseFormulaAST` (`none` when it throws) and `std::stod` (`none` when it throws,
else the number and the count of characters it consumed). -/
structure Env (D : Type) where
  zero : D
  ParseFormulaAST : String → Option (FormulaAST D)
  stod : String → Option (D × Nat)

/-! ## Faults, exceptions and results -/

/-- Undefined behaviour of the C++ program, and exhaustion of the fuel of a model
function. -/
inductive Fault where
  | NullDereference
  | UseAfterFree
  | OutOfBounds
  | OutOfFuel
deriving DecidableEq, Repr

/-- The operation-level exceptions. -/
inductive Exception where
  | InvalidPositionException
  | FormulaException
  | CircularDependencyException
deriving DecidableEq, Repr

/-- The result of a function that does not change the sheet. -/
inductive Result (α : Type) where
  | ok (a : α)
  | thrown (e : Exception)
  | undefined (f : Fault)
deriving DecidableEq, Repr

/-- Sequencing of results. -/
def Result.bind {α β : Type} (r : Result α) (f : α → Result β) : Result β :=
  match r with
  | .ok a => f a
  | .thrown e => .thrown e
  | .undefined u => .undefined u

/-- A pointer to a cell; `0` is the null pointer. -/
abbrev Ptr := Nat

/-- The null pointer. -/
def nullptr : Ptr := 0

/-- Insertion into an `unordered_set`. -/
def setInsert (x : Ptr) (l : List Ptr) : List Ptr := if x ∈ l then l else x :: l

/-- Removal from an `unordered_set`. -/
def setErase (x : Ptr) (l : List Ptr) : List Ptr := l.erase x

/-- The element `v[i]` of a vector; reading past the end is undefined. -/
def index {α : Type} (v : List α) (i : Nat) : Result α :=
  match v[i]? with
  | some a => .ok a
  | none => .undefined .OutOfBounds

/-- The vector after `v.resize(n)`, new elements being `d`. The destruction of the
elements cut off by a shrinking resize is not modelled: `SetCell` only ever grows a
rectangular table. -/
def resize {α : Type} (v : List α) (n : Nat) (d : α) : List α :=
  v.take n ++ List.replicate (n - v.length) d

/-! ## Cells -/

/-- The three shapes of cell content (`Cell::Impl` and its subclasses). A formula
carries its parsed AST and the cache slot. -/
inductive Impl (D : Type) where
  | EmptyImpl
  | TextImpl (text_ : String)
  | FormulaImpl (formula_ : FormulaAST D) (cache_ : Option (FValue D))

/-- The function `std::unique` followed by `erase`: every run of equal neighbours is
cut down to its first element. -/
def unique : List Position → List Position
  | [] => []
  | [a] => [a]
  | a :: b :: rest => if a = b then unique (b :: rest) else a :: unique (b :: rest)

/-- The list returned by `Formula::GetReferencedCells`. -/
def FormulaAST.GetReferencedCells {D : Type} (ast : FormulaAST D) : List Position :=
  unique ast.cells

/-- The text returned by `Formula::GetExpression`. -/
def FormulaAST.GetExpression {D : Type} (ast : FormulaAST D) : String :=
  ast.expression

/-- The list returned by `Impl::GetDependencies`. -/
def Impl.GetDependencies {D : Type} : Impl D → List Position
  | .EmptyImpl => []
  | .TextImpl _ => []
  | .FormulaImpl formula_ _ => formula_.GetReferencedCells

/-- The text returned by `Impl::GetText`. -/
def Impl.GetText {D : Type} : Impl D → String
  | .EmptyImpl => ""
  | .TextImpl text_ => text_
  | .FormulaImpl formula_ _ => "=" ++ formula_.GetExpression

/-- The flag returned by `Impl::HasCache`. -/
def Impl.HasCache {D : Type} : Impl D → Bool
  | .EmptyImpl => false
  | .TextImpl _ => false
  | .FormulaImpl _ cache_ => cache_.isSome

/-- The content after `Impl::WipeCache`. -/
def Impl.WipeCache {D : Type} : Impl D → Impl D
  | .EmptyImpl => .EmptyImpl
  | .TextImpl text_ => .TextImpl text_
  | .FormulaImpl formula_ _ => .FormulaImpl formula_ none

/-- The value of a text cell, `TextImpl::GetValue`: the text, without its first
character when that is the escape sign. -/
def TextImpl.GetValue {D : Type} (text_ : String) : Value D :=
  match text_.data with
  | [] => .text text_
  | c :: rest => if c ≠ ESCAPE_SIGN then .text text_ else .text (String.mk rest)

/-- A cell (`class Cell`): its content and its two sets of back-references. -/
structure Cell (D : Type) where
  impl_ : Impl D
  precedent_cells : List Ptr
  dependent_cells : List Ptr

/-- The cell built by the constructor `Cell::Cell`. -/
def Cell.new {D : Type} : Cell D := ⟨.EmptyImpl, [], []⟩

/-- The flag returned by `Cell::HasDependentCells`. -/
def Cell.HasDependentCells {D : Type} (c : Cell D) : Bool := !c.dependent_cells.isEmpty

/-- The text returned by `Cell::GetText`. -/
def Cell.GetText {D : Type} (c : Cell D) : String := c.impl_.GetText

/-- The list returned by `Cell::GetReferencedCells`. -/
def Cell.GetReferencedCells {D : Type} (c : Cell D) : List Position := c.impl_.GetDependencies

/-! ## The sheet -/

/-- The sheet: the table of owning pointers and the cells they own. `heap[a]` is the
cell at address `a`, `none` when no cell lives there (never at address `0`). -/
structure Sheet (D : Type) where
  table_ : List (List Ptr)
  heap : List (Option (Cell D))

/-- The sheet built by `CreateSheet`. -/
def Sheet.empty {D : Type} : Sheet D := ⟨[], [none]⟩

/-- The cell a pointer points to. -/
def Sheet.deref {D : Type} (s : Sheet D) (p : Ptr) : Result (Cell D) :=
  if p = nullptr then .undefined .NullDereference
  else match s.heap[p]? with
    | some (some c) => .ok c
    | _ => .undefined .UseAfterFree

/-- The sheet after a write through a pointer. -/
def Sheet.update {D : Type} (s : Sheet D) (p : Ptr) (f : Cell D → Cell D) : Result (Sheet D) :=
  (s.deref p).bind fun c => .ok { s with heap := s.heap.set p (some (f c)) }

/-- The size `table_[0].size()` of the first row. The program reads it only where
the table has a row. -/
def width (table : List (List Ptr)) : Nat := (table.headD []).length

/-- The pointer returned by `Sheet::GetConcreteCell` (and so by `Sheet::GetCell`). The
second operand of `||` reads `table_[0]`, and only when the first operand is false. -/
def Sheet.GetConcreteCell {D : Type} (s : Sheet D) (pos : Position) : Result Ptr :=
  if !pos.IsValid then .thrown .InvalidPositionException
  else if pos.row.toNat ≥ s.table_.length then .ok nullptr
  else (index s.table_ 0).bind fun row0 =>
    if pos.col.toNat ≥ row0.length then .ok nullptr
    else (index s.table_ pos.row.toNat).bind fun row => index row pos.col.toNat

/-- The pointer returned by `Sheet::GetCell`. -/
def Sheet.GetCell {D : Type} (s : Sheet D) (pos : Position) : Result Ptr :=
  s.GetConcreteCell pos

/-! ## Circular-dependency detection -/

/-- The loop over the precedents in `FindCircularByDFS`; `visit` is the recursive
call. The triple is the returned flag with `path` and `visited` as the call leaves
them. -/
def forChildren (visit : Ptr → List Ptr → List Ptr → Result (Bool × List Ptr × List Ptr)) :
    List Ptr → List Ptr → List Ptr → Result (Bool × List Ptr × List Ptr)
  | [], path, visited => .ok (false, path, visited)
  | child_ptr :: rest, path, visited =>
    (visit child_ptr path visited).bind fun r =>
      if r.1 then .ok r else forChildren visit rest r.2.1 r.2.2

/-- The search `FindCircularByDFS`. The first argument bounds the depth of the
recursion. -/
def FindCircularByDFS {D : Type} (s : Sheet D) :
    Nat → Ptr → List Ptr → List Ptr → Result (Bool × List Ptr × List Ptr)
  | 0, _, _, _ => .undefined .OutOfFuel
  | fuel + 1, cell_ptr, path, visited =>
    if cell_ptr ∈ path then .ok (true, path, visited)
    else if cell_ptr ∈ visited then .ok (false, path, visited)
    else
      (s.deref cell_ptr).bind fun c =>
        (forChildren (FindCircularByDFS s fuel) c.precedent_cells
            (setInsert cell_ptr path) (setInsert cell_ptr visited)).bind fun r =>
          if r.1 then .ok r else .ok (false, setErase cell_ptr r.2.1, r.2.2)

/-- The loop over the prospective references in `Cell::WillCauseCircularDependency`. -/
def willCauseLoop {D : Type} (s : Sheet D) (fuel : Nat) :
    List Position → List Ptr → List Ptr → Result Bool
  | [], _, _ => .ok false
  | pos :: rest, path, visited =>
    (s.GetConcreteCell pos).bind fun cell_ptr =>
      (FindCircularByDFS s fuel cell_ptr path visited).bind fun r =>
        if r.1 then .ok true else willCauseLoop s fuel rest r.2.1 r.2.2

/-- The check `Cell::WillCauseCircularDependency` of the cell at `this`. A search
is never deeper than the number of cells, which is below `heap.length`. -/
def Cell.WillCauseCircularDependency {D : Type} (s : Sheet D) (this : Ptr)
    (impl_temp : Impl D) : Result Bool :=
  willCauseLoop s (s.heap.length + 1) impl_temp.GetDependencies (setInsert this []) []

/-! ## Cache invalidation -/

/-- The loop over the dependents in `Cell::InvalidateCache`; `recur` is the
recursive call. -/
def invalidateLoop {D : Type} (recur : Sheet D → Ptr → Result (Sheet D)) :
    List Ptr → Sheet D → Result (Sheet D)
  | [], s => .ok s
  | child_ptr :: rest, s =>
    (s.deref child_ptr).bind fun child =>
      if child.impl_.HasCache then
        (s.update child_ptr fun c => { c with impl_ := c.impl_.WipeCache }).bind fun s1 =>
          (recur s1 child_ptr).bind fun s2 => invalidateLoop recur rest s2
      else invalidateLoop recur rest s

/-- The walk `Cell::InvalidateCache` from the cell at `this`. The first argument
bounds the depth of the recursion. -/
def Cell.InvalidateCacheFuel {D : Type} : Nat → Sheet D → Ptr → Result (Sheet D)
  | 0, _, _ => .undefined .OutOfFuel
  | fuel + 1, s, this =>
    (s.deref this).bind fun c =>
      if c.dependent_cells.isEmpty then .ok s
      else invalidateLoop (Cell.InvalidateCacheFuel fuel) c.dependent_cells s

/-- The walk `Cell::InvalidateCache`. Every recursive call follows the wiping of a
cache, so the walk is never deeper than the number of cells. -/
def Cell.InvalidateCache {D : Type} (s : Sheet D) (this : Ptr) : Result (Sheet D) :=
  Cell.InvalidateCacheFuel (s.heap.length + 1) s this

/-! ## Writing a cell -/

/-- The result of a function that changes the sheet: the new sheet, or an exception
together with the sheet as the exception leaves it, or undefined behaviour. -/
inductive Outcome (D : Type) where
  | ok (s : Sheet D)
  | thrown (e : Exception) (s : Sheet D)
  | undefined (f : Fault)

/-- The first loop of `Cell::Set`: the cell at `this` is erased from the dependents
of each of its precedents. -/
def unhookLoop {D : Type} (this : Ptr) : List Ptr → Sheet D → Result (Sheet D)
  | [], s => .ok s
  | cell_ptr :: rest, s =>
    (s.update cell_ptr fun c =>
        { c with dependent_cells := setErase this c.dependent_cells }).bind fun s1 =>
      unhookLoop this rest s1

/-- The two insertions at the end of the body of the second loop of `Cell::Set`. -/
def Sheet.link {D : Type} (s : Sheet D) (this cell_ptr : Ptr) : Result (Sheet D) :=
  (s.update this fun c =>
      { c with precedent_cells := setInsert cell_ptr c.precedent_cells }).bind fun s1 =>
    s1.update cell_ptr fun c => { c with dependent_cells := setInsert this c.dependent_cells }

/-- The second loop of `Cell::Set`: every referenced position is resolved to a cell,
created through `SetCell` when there is none, and linked with the cell at `this`. -/
def hookLoop {D : Type} (SetCell : Sheet D → Position → String → Outcome D) (this : Ptr) :
    List Position → Sheet D → Outcome D
  | [], s => .ok s
  | pos :: rest, s =>
    match s.GetConcreteCell pos with
    | .thrown e => .thrown e s
    | .undefined f => .undefined f
    | .ok cell_ptr =>
      if cell_ptr = nullptr then
        match SetCell s pos "" with
        | .thrown e s1 => .thrown e s1
        | .undefined f => .undefined f
        | .ok s1 =>
          match s1.GetConcreteCell pos with
          | .thrown e => .thrown e s1
          | .undefined f => .undefined f
          | .ok cell_ptr1 =>
            match s1.link this cell_ptr1 with
            | .thrown e => .thrown e s1
            | .undefined f => .undefined f
            | .ok s2 => hookLoop SetCell this rest s2
      else
        match s.link this cell_ptr with
        | .thrown e => .thrown e s
        | .undefined f => .undefined f
        | .ok s2 => hookLoop SetCell this rest s2

/-- The content chosen by the first statement of `Cell::Set`, before it is stored:
empty text gives `EmptyImpl`, the formula sign followed by more gives the parsed
formula once the circularity check has passed, anything else gives `TextImpl`. -/
def Cell.chooseImpl {D : Type} (env : Env D) (s : Sheet D) (this : Ptr) (text : String) :
    Result (Impl D) :=
  match text.data with
  | [] => .ok .EmptyImpl
  | c :: rest =>
    if c = FORMULA_SIGN ∧ text.length > 1 then
      match env.ParseFormulaAST (String.mk rest) with
      | none => .thrown .FormulaException
      | some ast =>
        (Cell.WillCauseCircularDependency s this (.FormulaImpl ast none)).bind fun b =>
          if b then .thrown .CircularDependencyException else .ok (.FormulaImpl ast none)
    else .ok (.TextImpl text)

/-- The method `Cell::Set` on the cell at `this`; `SetCell` is `Sheet::SetCell`, which
the second loop calls for a referenced position without a cell. -/
def Cell.Set {D : Type} (env : Env D) (SetCell : Sheet D → Position → String → Outcome D)
    (s : Sheet D) (this : Ptr) (text : String) : Outcome D :=
  match Cell.chooseImpl env s this text with
  | .thrown e => .thrown e s
  | .undefined f => .undefined f
  | .ok impl =>
    match (s.deref this).bind fun old =>
        (s.update this fun c => { c with impl_ := impl }).bind fun s1 =>
          (unhookLoop this old.precedent_cells s1).bind fun s2 =>
            s2.update this fun c => { c with precedent_cells := [] } with
    | .thrown e => .thrown e s
    | .undefined f => .undefined f
    | .ok s3 =>
      match hookLoop SetCell this impl.GetDependencies s3 with
      | .thrown e s4 => .thrown e s4
      | .undefined f => .undefined f
      | .ok s4 =>
        match Cell.InvalidateCache s4 this with
        | .thrown e => .thrown e s4
        | .undefined f => .undefined f
        | .ok s5 => .ok s5

/-- The table after the assignment `table_[r][c] = x`. -/
def setSlot (table : List (List Ptr)) (r c : Nat) (x : Ptr) : List (List Ptr) :=
  table.set r ((table.getD r []).set c x)

/-- The loop of `Sheet::SetCell` that gives the rows added by `table_.resize` the
width of the first row: from row `i` backwards, until a row has that width. Row `0`
always has it. -/
def fixRows : Nat → List (List Ptr) → List (List Ptr)
  | 0, table => table
  | i + 1, table =>
    if (table.getD (i + 1) []).length ≠ width table then
      fixRows i (table.set (i + 1) (resize (table.getD (i + 1) []) (width table) nullptr))
    else table

/-- The table after the two growth steps of `Sheet::SetCell` for a valid position. -/
def growTable (table : List (List Ptr)) (pos : Position) : List (List Ptr) :=
  let table1 :=
    if table.length ≤ pos.row.toNat then
      let t := resize table (pos.row.toNat + 1) []
      if width t > pos.col.toNat then fixRows (t.length - 1) t else t
    else table
  if width table1 ≤ pos.col.toNat then
    table1.map fun row_vec => resize row_vec (pos.col.toNat + 1) nullptr
  else table1

/-- The steps of `Sheet::SetCell` between the validity check and the call of
`Cell::Set`: the table grows to cover `pos`, and an empty slot at `pos` receives a
new cell. The result is the sheet with the pointer `table_[pos.row][pos.col]`. -/
def Sheet.materialize {D : Type} (s : Sheet D) (pos : Position) : Result (Sheet D × Ptr) :=
  let table1 := growTable s.table_ pos
  ((index table1 pos.row.toNat).bind fun row => index row pos.col.toNat).bind fun p =>
    if p = nullptr then
      .ok ({ table_ := setSlot table1 pos.row.toNat pos.col.toNat s.heap.length,
             heap := s.heap ++ [some Cell.new] }, s.heap.length)
    else .ok ({ s with table_ := table1 }, p)

/-- The method `Sheet::SetCell`. The first argument bounds the nesting of `SetCell`
inside `Cell::Set`. -/
def Sheet.SetCellFuel {D : Type} (env : Env D) : Nat → Sheet D → Position → String → Outcome D
  | 0, _, _, _ => .undefined .OutOfFuel
  | fuel + 1, s, pos, text =>
    if !pos.IsValid then .thrown .InvalidPositionException s
    else
      match s.materialize pos with
      | .thrown e => .thrown e s
      | .undefined f => .undefined f
      | .ok (s1, this) => Cell.Set env (Sheet.SetCellFuel env fuel) s1 this text

/-- The method `Sheet::SetCell`. The call nested in `Cell::Set` passes the empty
text, which has no references, so the nesting is never deeper than two. -/
def Sheet.SetCell {D : Type} (env : Env D) (s : Sheet D) (pos : Position) (text : String) :
    Outcome D :=
  Sheet.SetCellFuel env 2 s pos text

/-! ## Clearing a cell -/

/-- The method `Sheet::ClearCell`: a cell with dependents is emptied in place
(`Cell::Clear`), a cell without is destroyed and its slot set to null. -/
def Sheet.ClearCell {D : Type} (s : Sheet D) (pos : Position) : Outcome D :=
  match s.GetConcreteCell pos with
  | .thrown e => .thrown e s
  | .undefined f => .undefined f
  | .ok cell_ptr =>
    if cell_ptr = nullptr then .ok s
    else
      match s.deref cell_ptr with
      | .thrown e => .thrown e s
      | .undefined f => .undefined f
      | .ok c =>
        if c.HasDependentCells then
          .ok { s with heap := s.heap.set cell_ptr (some { c with impl_ := .EmptyImpl }) }
        else
          .ok { table_ := setSlot s.table_ pos.row.toNat pos.col.toNat nullptr,
                heap := s.heap.set cell_ptr none }

/-! ## The printable size -/

/-- The test of the two scans of `GetPrintableSize`: the slot holds a cell with
non-empty text. -/
def Sheet.hasText {D : Type} (s : Sheet D) (ptr_cell : Ptr) : Result Bool :=
  if ptr_cell = nullptr then .ok false
  else (s.deref ptr_cell).bind fun c => .ok (decide (c.GetText ≠ ""))

/-- The call of `std::find_if` on a row: some slot of the row has text. -/
def Sheet.rowHasText {D : Type} (s : Sheet D) : List Ptr → Result Bool
  | [] => .ok false
  | p :: rest => (s.hasText p).bind fun b => if b then .ok true else s.rowHasText rest

/-- The first loop of `GetPrintableSize` with `n` rows still to scan, from row
`n - 1` backwards: the row count found, `0` when the loop returns the zero size. -/
def Sheet.findRowCount {D : Type} (s : Sheet D) : Nat → Result Nat
  | 0 => .ok 0
  | i + 1 =>
    (index s.table_ i).bind fun row =>
      (s.rowHasText row).bind fun b => if b then .ok (i + 1) else s.findRowCount i

/-- The inner loop of the second loop of `GetPrintableSize`: some row has text in
column `i`. -/
def Sheet.colHasText {D : Type} (s : Sheet D) (i : Nat) : List (List Ptr) → Result Bool
  | [] => .ok false
  | row :: rest =>
    (index row i).bind fun p =>
      (s.hasText p).bind fun b => if b then .ok true else s.colHasText i rest

/-- The second loop of `GetPrintableSize` with `n` columns still to scan. -/
def Sheet.findColCount {D : Type} (s : Sheet D) : Nat → Result Nat
  | 0 => .ok 0
  | i + 1 =>
    (s.colHasText i s.table_).bind fun b => if b then .ok (i + 1) else s.findColCount i

/-- The method `Sheet::GetPrintableSize`: the pair of `rows` and `cols`. -/
def Sheet.GetPrintableSize {D : Type} (s : Sheet D) : Result (Nat × Nat) :=
  if s.table_.isEmpty then .ok (0, 0)
  else
    (s.findRowCount s.table_.length).bind fun row_count =>
      if row_count = 0 then .ok (0, 0)
      else (s.findColCount (width s.table_)).bind fun col_count => .ok (row_count, col_count)

/-! ## Reading a value -/

/-- The method `Formula::Evaluate` given the lookup callback. The callback answers
with a number or throws a `FormulaError` (here `.ok (.error e)`), which `Evaluate`
catches and returns. -/
def Formula.Evaluate {D : Type} (lookup : Position → Result (FValue D)) :
    Exec D → Result (FValue D)
  | .ret x => .ok (.number x)
  | .raise e => .ok (.error e)
  | .cell pos k =>
    (lookup pos).bind fun v =>
      match v with
      | .number x => Formula.Evaluate lookup (k x)
      | .error e => .ok (.error e)

/-- The callback `get_cells_value_by_pos` of `Formula::Evaluate`; `GetValue` is
`Cell::GetValue` of the cell found. A thrown `FormulaError` is `.ok (.error e)`. -/
def Formula.lookup {D : Type} (env : Env D) (GetValue : Ptr → Result (Value D))
    (s : Sheet D) (pos : Position) : Result (FValue D) :=
  if !pos.IsValid then .ok (.error ⟨.Ref⟩)
  else
    (s.GetCell pos).bind fun cell_ptr =>
      if cell_ptr = nullptr then .ok (.number env.zero)
      else
        (GetValue cell_ptr).bind fun cell_value =>
          match cell_value with
          | .number x => .ok (.number x)
          | .text str_to_check =>
            match env.stod str_to_check with
            | none => .ok (.error ⟨.Value⟩)
            | some (number, processed_chars_count) =>
              if processed_chars_count ≠ str_to_check.length then .ok (.error ⟨.Value⟩)
              else .ok (.number number)
          | .error e => .ok (.error e)

/-- The conversion at the end of `FormulaImpl::GetValue`, from the value of a formula
to the value of a cell. -/
def FValue.toValue {D : Type} : FValue D → Value D
  | .number x => .number x
  | .error e => .error e

/-- The method `Cell::GetValue` of the cell at a pointer. The first argument bounds
the nesting of formula evaluations. -/
def Cell.GetValue {D : Type} (env : Env D) (s : Sheet D) : Nat → Ptr → Result (Value D)
  | 0, _ => .undefined .OutOfFuel
  | fuel + 1, p =>
    (s.deref p).bind fun c =>
      match c.impl_ with
      | .EmptyImpl => .ok (.number env.zero)
      | .TextImpl text_ => .ok (TextImpl.GetValue text_)
      | .FormulaImpl formula_ _ =>
        (Formula.Evaluate (Formula.lookup env (Cell.GetValue env s fuel) s) formula_.exec).bind
          fun formula_value => .ok formula_value.toValue

/-! ## States, invariants and examples -/

/-- The cell living at an address, if any. -/
def Sheet.cell {D : Type} (s : Sheet D) (a : Ptr) : Option (Cell D) := s.heap.getD a none

/-- The precedent graph: `a` has an edge to `b` when the cell at `a` has `b` among
its precedents. -/
def Edge {D : Type} (s : Sheet D) (a b : Ptr) : Prop :=
  ∃ c, s.cell a = some c ∧ b ∈ c.precedent_cells

/-- Every row of the table has the width of the first row. -/
def Rect (table : List (List Ptr)) : Prop := ∀ row ∈ table, row.length = width table

/-- The pointer in a slot of the table, null outside the table. -/
def slot (table : List (List Ptr)) (r c : Nat) : Ptr := (table.getD r []).getD c nullptr

/-- The table padded with null slots to at least `rows` rows, of width `cols`. -/
def padTable (table : List (List Ptr)) (rows cols : Nat) : List (List Ptr) :=
  table.map (fun row => row ++ List.replicate (cols - row.length) nullptr) ++
    List.replicate (rows - table.length) (List.replicate cols nullptr)

/-- The invariant of the search: a cell that is finished (visited and no longer on
the path) has precedents that are finished too. -/
def Closed {D : Type} (s : Sheet D) (path visited : List Ptr) : Prop :=
  ∀ v ∈ visited, v ∉ path → ∀ w, Edge s v w → w ∈ visited ∧ w ∉ path

/-- What a call of the search that returns `false` guarantees: the path is as it was,
the start is finished, and the invariant of the search is kept. -/
def VisitOk {D : Type} (s : Sheet D)
    (visit : Ptr → List Ptr → List Ptr → Result (Bool × List Ptr × List Ptr)) : Prop :=
  ∀ p path visited r, visit p path visited = .ok r → r.1 = false →
    Closed s path visited → (∀ v ∈ visited, s.cell v ≠ none) →
    r.2.1 = path ∧ p ∉ path ∧ p ∈ r.2.2 ∧ (∀ v ∈ visited, v ∈ r.2.2) ∧
      Closed s path r.2.2 ∧ (∀ v ∈ r.2.2, s.cell v ≠ none)

/-- The sheet `s'` differs from `s` only by the rewiring that `Cell::Set` does for the
cell at `this`: the table and the addresses in use are the same, the content and the
precedents of every other cell are the same, and the dependents of a cell differ at
most by `this`. -/
structure Rewired {D : Type} (this : Ptr) (s s' : Sheet D) : Prop where
  table_eq : s'.table_ = s.table_
  length_eq : s'.heap.length = s.heap.length
  dead : ∀ a, s.cell a = none → s'.cell a = none
  live : ∀ a c, s.cell a = some c → ∃ c', s'.cell a = some c' ∧
    (a ≠ this → c'.impl_ = c.impl_ ∧ c'.precedent_cells = c.precedent_cells) ∧
    (∀ d ∈ c.dependent_cells, d ≠ this → d ∈ c'.dependent_cells) ∧
    (∀ d ∈ c'.dependent_cells, d = this ∨ d ∈ c.dependent_cells)

/-- The sheets reachable from the empty sheet by calls of `SetCell` and `ClearCell`
that return or throw. A call with undefined behaviour has no state after it. -/
inductive Reachable {D : Type} (env : Env D) : Sheet D → Prop where
  | empty : Reachable env Sheet.empty
  | setCell_ok {s s' : Sheet D} (pos : Position) (text : String) :
      Reachable env s → Sheet.SetCell env s pos text = .ok s' → Reachable env s'
  | setCell_thrown {s s' : Sheet D} (pos : Position) (text : String) (e : Exception) :
      Reachable env s → Sheet.SetCell env s pos text = .thrown e s' → Reachable env s'
  | clearCell_ok {s s' : Sheet D} (pos : Position) :
      Reachable env s → Sheet.ClearCell s pos = .ok s' → Reachable env s'
  | clearCell_thrown {s s' : Sheet D} (pos : Position) (e : Exception) :
      Reachable env s → Sheet.ClearCell s pos = .thrown e s' → Reachable env s'

/-- The invariant of the reachable sheets. -/
structure WF {D : Type} (s : Sheet D) : Prop where
  null_free : s.heap[0]? = some none
  rect : Rect s.table_
  owned : ∀ r c, slot s.table_ r c ≠ nullptr → ∃ cell, s.cell (slot s.table_ r c) = some cell
  unique : ∀ r c r' c', slot s.table_ r c ≠ nullptr →
    slot s.table_ r c = slot s.table_ r' c' → r = r' ∧ c = c'
  prec_live : ∀ a ca b, s.cell a = some ca → b ∈ ca.precedent_cells →
    ∃ cb, s.cell b = some cb ∧ a ∈ cb.dependent_cells
  no_cache : ∀ a ca, s.cell a = some ca → ca.impl_.HasCache = false
  acyclic : ∀ a, ¬ Relation.TransGen (Edge s) a a
  bounded : (s.table_.length : Int) ≤ Position.MAX_ROWS ∧ (width s.table_ : Int) ≤ Position.MAX_COLS

/-- The position of a cell name: a capital letter for the column and a digit from
`1` to `9` for the row. -/
def Example.cellOf (c d : Char) : Option Position :=
  if 'A' ≤ c ∧ c ≤ 'Z' ∧ '1' ≤ d ∧ d ≤ '9' then
    some ⟨((d.toNat - 49 : Nat) : Int), ((c.toNat - 65 : Nat) : Int)⟩
  else none

/-- A parser for the examples: a cell name such as `B1`, or the sum of two names
such as `A1+B2`; everything else is a syntax error. -/
def Example.parse (src : String) : Option (FormulaAST Int) :=
  match src.data with
  | [c, d] => (Example.cellOf c d).map fun p => ⟨[p], src, .cell p fun x => .ret x⟩
  | [c, d, '+', c', d'] =>
    (Example.cellOf c d).bind fun p =>
      (Example.cellOf c' d').map fun q =>
        ⟨[p, q], src, .cell p fun x => .cell q fun y => .ret (x + y)⟩
  | _ => none

/-- The number parser of the examples: the text of one digit is that digit, read in
full; no other text is a number. -/
def Example.stod (str : String) : Option (Int × Nat) :=
  match str.data with
  | [d] => if '0' ≤ d ∧ d ≤ '9' then some (((d.toNat - 48 : Nat) : Int), 1) else none
  | _ => none

/-- The environment of the examples: integers for numbers. -/
def Example.env : Env Int := ⟨0, Example.parse, Example.stod⟩

/-- The position `A1`. -/
def Example.A1 : Position := ⟨0, 0⟩

/-- The position `B1`. -/
def Example.B1 : Position := ⟨0, 1⟩

/-- The position `C5`. -/
def Example.C5 : Position := ⟨4, 2⟩

/-- The sheet after `SetCell(A1, "1")` on the empty sheet. -/
def Example.sheetA : Sheet Int :=
  ⟨[[1]], [none, some ⟨.TextImpl "1", [], []⟩]⟩

/-- The sheet after `SetCell(A1, "1")` and `SetCell(B1, "=A1")`. -/
def Example.sheetAB : Sheet Int :=
  ⟨[[1, 2]], [none, some ⟨.TextImpl "1", [], [2]⟩,
    some ⟨.FormulaImpl ⟨[Example.A1], "A1", .cell Example.A1 fun x => .ret x⟩ none, [1], []⟩]⟩

/-- The sheet after `SetCell(A1, "1")`, `SetCell(B1, "=A1")` and `SetCell(A1, "2")`. -/
def Example.sheetAB2 : Sheet Int :=
  ⟨[[1, 2]], [none, some ⟨.TextImpl "2", [], [2]⟩,
    some ⟨.FormulaImpl ⟨[Example.A1], "A1", .cell Example.A1 fun x => .ret x⟩ none, [1], []⟩]⟩

/-- The sheet after `SetCell(A1, "1")`, `SetCell(B1, "=A1")` and `ClearCell(B1)`: the
cell of `B1`, at address `2`, is destroyed, and `2` is still a dependent of the cell
of `A1`. -/
def Example.sheetDangling : Sheet Int :=
  ⟨[[1, 0]], [none, some ⟨.TextImpl "1", [], [2]⟩, none]⟩

/-- What a failed `SetCell(pos, _)` leaves of the sheet `s` in the sheet `s'`: every
cell is kept with its content and both its sets, every slot with a cell keeps it, and
every slot other than `pos` is as before; the sheet is exactly `s` when `pos` is
invalid or had a cell, and otherwise slot `pos` holds a new cell, empty and without
precedents or dependents. -/
def FailureFrame {D : Type} (s : Sheet D) (pos : Position) (s' : Sheet D) : Prop :=
  (∀ a c, s.cell a = some c → s'.cell a = some c) ∧
  (∀ q p, s.GetCell q = .ok p → p ≠ nullptr → s'.GetCell q = .ok p) ∧
  (∀ q, q ≠ pos → s'.GetCell q = s.GetCell q) ∧
  (pos.IsValid = false → s' = s) ∧
  (∀ p, s.GetCell pos = .ok p → p ≠ nullptr → s' = s) ∧
  (s.GetCell pos = .ok nullptr →
    ∃ p, s'.GetCell pos = .ok p ∧ p ≠ nullptr ∧ s.cell p = none ∧ s'.cell p = some Cell.new)

/-- The pointer points to a living cell whose text is not empty. -/
def Sheet.PtrHasText {D : Type} (s : Sheet D) (p : Ptr) : Prop :=
  p ≠ nullptr ∧ ∃ cell, s.cell p = some cell ∧ cell.GetText ≠ ""

/-- The position holds a cell (`GetCell` returns it) whose `GetText` is not empty. -/
def Sheet.HasTextAt {D : Type} (s : Sheet D) (pos : Position) : Prop :=
  ∃ p cell, s.GetCell pos = .ok p ∧ s.deref p = .ok cell ∧ cell.GetText ≠ ""

/-- The sheet after `SetCell(C5, "x")` and `ClearCell(C5)` on the empty sheet: five
rows of three vacant slots. -/
def Example.sheetE : Sheet Int :=
  ⟨List.replicate 5 [0, 0, 0], [none, none]⟩

/-- The sheet with every cache slot emptied. -/
def Sheet.wipeCaches {D : Type} (s : Sheet D) : Sheet D :=
  ⟨s.table_, s.heap.map (Option.map fun c => { c with impl_ := c.impl_.WipeCache })⟩

/-- The position `C1`. -/
def Example.C1 : Position := ⟨0, 2⟩

/-- The sheet after `SetCell(A1, "1")`, `SetCell(B1, "=A1")` and `SetCell(C1, "=B1")`. -/
def Example.sheetABC : Sheet Int :=
  ⟨[[1, 2, 3]], [none, some ⟨.TextImpl "1", [], [2]⟩,
    some ⟨.FormulaImpl ⟨[Example.A1], "A1", .cell Example.A1 fun x => .ret x⟩ none, [1], [3]⟩,
    some ⟨.FormulaImpl ⟨[Example.B1], "B1", .cell Example.B1 fun x => .ret x⟩ none, [2], []⟩]⟩

/-- The sheet after `ClearCell(B1)` on `sheetABC`: the cell of `B1` (address `2`) is
empty and still has the cell of `A1` (address `1`) as precedent. -/
def Example.sheetStale : Sheet Int :=
  ⟨[[1, 2, 3]], [none, some ⟨.TextImpl "1", [], [2]⟩, some ⟨.EmptyImpl, [1], [3]⟩,
    some ⟨.FormulaImpl ⟨[Example.B1], "B1", .cell Example.B1 fun x => .ret x⟩ none, [2], []⟩]⟩

/-- The sheets reachable from the empty sheet by calls of `SetCell`, `ClearCell`,
`GetValue` and `GetText` that return or throw. `GetValue` and `GetText` are `const` and
the source has no assignment to `cache_`, so such a call leaves the sheet as it is. -/
inductive ReachableWithReads {D : Type} (env : Env D) : Sheet D → Prop where
  | empty : ReachableWithReads env Sheet.empty
  | setCell {s s' : Sheet D} (pos : Position) (text : String) :
      ReachableWithReads env s →
      (Sheet.SetCell env s pos text = .ok s' ∨
        ∃ e, Sheet.SetCell env s pos text = .thrown e s') →
      ReachableWithReads env s'
  | clearCell {s s' : Sheet D} (pos : Position) :
      ReachableWithReads env s →
      (Sheet.ClearCell s pos = .ok s' ∨ ∃ e, Sheet.ClearCell s pos = .thrown e s') →
      ReachableWithReads env s'
  | getValue {s : Sheet D} (fuel : Nat) (p : Ptr) (v : Value D) :
      ReachableWithReads env s → Cell.GetValue env s fuel p = .ok v →
      ReachableWithReads env s
  | getText {s : Sheet D} (p : Ptr) (c : Cell D) :
      ReachableWithReads env s → s.deref p = .ok c → ReachableWithReads env s

/-- The run of `exec` against the callback `lookup` reaches a call of the callback for
the position `pos`: it is the first call, or the calls before it returned numbers. -/
inductive Exec.Asks {D : Type} (lookup : Position → Result (FValue D)) :
    Exec D → Position → Prop where
  | here (pos : Position) (k : D → Exec D) : Exec.Asks lookup (.cell pos k) pos
  | later (first : Position) (k : D → Exec D) (x : D) (pos : Position) :
      lookup first = .ok (.number x) → Exec.Asks lookup (k x) pos →
      Exec.Asks lookup (.cell first k) pos

/-- The behaviour of the lookup callback of `Formula::Evaluate` at the position `pos`,
case by case, and the propagation of an error it throws. `GetValue` is `Cell::GetValue`
of the cell found. -/
def LookupContract {D : Type} (env : Env D) (GetValue : Ptr → Result (Value D))
    (s : Sheet D) (pos : Position) : Prop :=
  (pos.IsValid = false → Formula.lookup env GetValue s pos = .ok (.error ⟨.Ref⟩)) ∧
  (pos.IsValid = true → s.GetCell pos = .ok nullptr →
    Formula.lookup env GetValue s pos = .ok (.number env.zero)) ∧
  (∀ p, pos.IsValid = true → s.GetCell pos = .ok p → p ≠ nullptr →
    (∀ x, GetValue p = .ok (.number x) →
      Formula.lookup env GetValue s pos = .ok (.number x)) ∧
    (∀ str x, GetValue p = .ok (.text str) → env.stod str = some (x, str.length) →
      Formula.lookup env GetValue s pos = .ok (.number x)) ∧
    (∀ str, GetValue p = .ok (.text str) →
      (env.stod str = none ∨ ∃ x n, env.stod str = some (x, n) ∧ n ≠ str.length) →
      Formula.lookup env GetValue s pos = .ok (.error ⟨.Value⟩)) ∧
    (env.stod "" = none → GetValue p = .ok (.text "") →
      Formula.lookup env GetValue s pos = .ok (.error ⟨.Value⟩)) ∧
    (∀ e, GetValue p = .ok (.error e) →
      Formula.lookup env GetValue s pos = .ok (.error e))) ∧
  (∀ exec e, Exec.Asks (Formula.lookup env GetValue s) exec pos →
    Formula.lookup env GetValue s pos = .ok (.error e) →
    Formula.Evaluate (Formula.lookup env GetValue s) exec = .ok (.error e))

/-- The sheet after `SetCell(A1, "'")` on the empty sheet: the value of `A1` is the
empty text. -/
def Example.sheetQuote : Sheet Int :=
  ⟨[[1]], [none, some ⟨.TextImpl "'", [], []⟩]⟩

/-! ## The cycle search with a record of its expansions -/

/-- The loop of `forChildren` for a search that also carries `log`, the record of the
cells whose precedents the search has gone through so far, latest first. The record is
a ghost value: the program does not keep it. -/
def forChildrenLog
    (visit : Ptr → List Ptr → List Ptr → List Ptr → Result (Bool × List Ptr × List Ptr × List Ptr)) :
    List Ptr → List Ptr → List Ptr → List Ptr → Result (Bool × List Ptr × List Ptr × List Ptr)
  | [], path, visited, log => .ok (false, path, visited, log)
  | child_ptr :: rest, path, visited, log =>
    (visit child_ptr path visited log).bind fun r =>
      if r.1 then .ok r else forChildrenLog visit rest r.2.1 r.2.2.1 r.2.2.2

/-- The search `FindCircularByDFS` with the ghost record: a cell is put on the record
when the search enters the loop over its precedents. -/
def FindCircularByDFSLog {D : Type} (s : Sheet D) :
    Nat → Ptr → List Ptr → List Ptr → List Ptr → Result (Bool × List Ptr × List Ptr × List Ptr)
  | 0, _, _, _, _ => .undefined .OutOfFuel
  | fuel + 1, cell_ptr, path, visited, log =>
    if cell_ptr ∈ path then .ok (true, path, visited, log)
    else if cell_ptr ∈ visited then .ok (false, path, visited, log)
    else
      (s.deref cell_ptr).bind fun c =>
        (forChildrenLog (FindCircularByDFSLog s fuel) c.precedent_cells
            (setInsert cell_ptr path) (setInsert cell_ptr visited) (cell_ptr :: log)).bind fun r =>
          if r.1 then .ok r else .ok (false, setErase cell_ptr r.2.1, r.2.2.1, r.2.2.2)

/-- The loop of `Cell::WillCauseCircularDependency` with the ghost record; the result
is the flag and the record of the whole check. -/
def willCauseLoopLog {D : Type} (s : Sheet D) (fuel : Nat) :
    List Position → List Ptr → List Ptr → List Ptr → Result (Bool × List Ptr)
  | [], _, _, log => .ok (false, log)
  | pos :: rest, path, visited, log =>
    (s.GetConcreteCell pos).bind fun cell_ptr =>
      (FindCircularByDFSLog s fuel cell_ptr path visited log).bind fun r =>
        if r.1 then .ok (true, r.2.2.2) else willCauseLoopLog s fuel rest r.2.1 r.2.2.1 r.2.2.2

/-- The result of a search without the ghost record. -/
def dropLog (r : Bool × List Ptr × List Ptr × List Ptr) : Bool × List Ptr × List Ptr :=
  (r.1, r.2.1, r.2.2.1)

/-- What a search entered with `visited` and `log` has done when it returns `r`:
`visited` has only grown, and the record has grown by cells that are pairwise
different, were not visited at entry and are visited at exit. -/
def LogSpec (visited log : List Ptr) (visitedOut logOut : List Ptr) : Prop :=
  (∀ v ∈ visited, v ∈ visitedOut) ∧
  ∃ new, logOut = new ++ log ∧ new.Nodup ∧ ∀ x ∈ new, x ∉ visited ∧ x ∈ visitedOut

/-- Two cells that are precedents of each other, and a third cell with the first as
its precedent: a graph with a cycle, which no run of the sheet produces. -/
def Example.sheetCycle : Sheet Int :=
  ⟨[[1, 2, 3]], [none, some ⟨.EmptyImpl, [2], [2, 3]⟩, some ⟨.EmptyImpl, [1], [1]⟩,
    some ⟨.EmptyImpl, [1], []⟩]⟩

/-- The text at a position as a caller reads it: `GetCell(pos)` and then `GetText()` of
the cell, the empty text when `GetCell` returns the null pointer. -/
def Sheet.textAt {D : Type} (s : Sheet D) (pos : Position) : Result String :=
  (s.GetCell pos).bind fun p =>
    if p = nullptr then .ok "" else (s.deref p).bind fun c => .ok c.GetText

/-- What `SetCell(pos, text)`, having returned or thrown with the sheet `s'`, has left
alone: at every other position `GetCell` and the text are as before, so a slot that
went from vacant to occupied is the slot of `pos`. After a return the positions that the
new content references are other positions, which had a cell before the call; after
an exception a slot of `pos` that was vacant holds a new empty cell. -/
def SetCellFrame {D : Type} (env : Env D) (s : Sheet D) (pos : Position) (text : String)
    (s' : Sheet D) : Prop :=
  (∀ q, q ≠ pos → s'.GetCell q = s.GetCell q ∧ s'.textAt q = s.textAt q) ∧
  (∀ q p, s.GetCell q = .ok nullptr → s'.GetCell q = .ok p → p ≠ nullptr → q = pos) ∧
  (Sheet.SetCell env s pos text = .ok s' →
    ∃ this c, s'.GetCell pos = .ok this ∧ s'.cell this = some c ∧
      ∀ q ∈ c.GetReferencedCells, q ≠ pos ∧ ∃ p, s.GetCell q = .ok p ∧ p ≠ nullptr) ∧
  ((∃ e, Sheet.SetCell env s pos text = .thrown e s') → s.GetCell pos = .ok nullptr →
    ∃ this, s'.GetCell pos = .ok this ∧ this ≠ nullptr ∧ s'.cell this = some Cell.new)

/-- What the growth steps of `SetCell(pos, _)` do on the sheet `s`: they return a
sheet `s1` whose table is rectangular and has a row `pos.row` with a column `pos.col`,
where the slot of `pos` holds a cell; every sheet that the call returns or throws with
has the table of `s1`; and the call returns when the slot of `pos` was vacant and the
text is not empty and not a formula. -/
def GrowthContract {D : Type} (env : Env D) (s : Sheet D) (pos : Position) : Prop :=
  ∃ s1 this, s.materialize pos = .ok (s1, this) ∧
    pos.row.toNat < s1.table_.length ∧
    (∀ row ∈ s1.table_, row.length = width s1.table_) ∧
    (∀ row ∈ s1.table_, pos.col.toNat < row.length) ∧
    slot s1.table_ pos.row.toNat pos.col.toNat = this ∧ this ≠ nullptr ∧
    (∀ (text : String) (s' : Sheet D),
      (Sheet.SetCell env s pos text = .ok s' ∨
        ∃ e, Sheet.SetCell env s pos text = .thrown e s') → s'.table_ = s1.table_) ∧
    (∀ text : String, s.GetCell pos = .ok nullptr → text.data ≠ [] →
      (text.data.head? ≠ some FORMULA_SIGN ∨ text.length = 1) →
      ∃ s', Sheet.SetCell env s pos text = .ok s')

/-- The position `A3`. -/
def Example.A3 : Position := ⟨2, 0⟩

/-- The sheet after `SetCell(A3, "x")` on `sheetAB`: the table has grown to three rows
of two slots. -/
def Example.sheetABA3 : Sheet Int :=
  ⟨[[1, 2], [0, 0], [3, 0]],
    [none, some ⟨.TextImpl "1", [], [2]⟩,
      some ⟨.FormulaImpl ⟨[Example.A1], "A1", .cell Example.A1 fun x => .ret x⟩ none, [1], []⟩,
      some ⟨.TextImpl "x", [], []⟩]⟩

/-! ## The value of a cell in the words of the spec -/

/-- Modelled from the spec: `FormulaAST` is not among the sources. The run `exec` asks
the callback only for positions of the list `cells`: the spec has an AST report all
positions that it reads. -/
def Exec.ReadsOnly {D : Type} (cells : List Position) : Exec D → Prop
  | .ret _ => True
  | .raise _ => True
  | .cell pos k => pos ∈ cells ∧ ∀ x, Exec.ReadsOnly cells (k x)

/-- The displayed value of a text cell in the words of the spec: the text, with the
escape character stripped when the text begins with it. -/
def Spec.textValue (text : String) : String :=
  if text.data.head? = some ESCAPE_SIGN then String.mk (text.data.drop 1) else text

/-- The operand of a formula at a position in the words of the spec, `value` being
the value of the cell behind a pointer: an invalid position is a `Ref` error, a
position with no cell is zero, a number is that number, a text is its number when the
numeric parse consumes it whole and a `Value` error otherwise, and an error is that
same error. -/
def Spec.operand {D : Type} (env : Env D) (s : Sheet D) (value : Ptr → Value D)
    (pos : Position) : FValue D :=
  if pos.IsValid = false then .error ⟨.Ref⟩
  else if slot s.table_ pos.row.toNat pos.col.toNat = nullptr then .number env.zero
  else
    match value (slot s.table_ pos.row.toNat pos.col.toNat) with
    | .number x => .number x
    | .text str =>
      match env.stod str with
      | some (x, n) => if n = str.length then .number x else .error ⟨.Value⟩
      | none => .error ⟨.Value⟩
    | .error e => .error e

/-- The result of an AST given its operands, in the words of the spec: an operand that
is an error ends the evaluation with that error. -/
def Spec.evaluate {D : Type} (operand : Position → FValue D) : Exec D → FValue D
  | .ret x => .number x
  | .raise e => .error e
  | .cell pos k =>
    match operand pos with
    | .number x => Spec.evaluate operand (k x)
    | .error e => .error e

/-- The assignment `value` of values to the cells of the sheet is the one the spec
describes: an empty cell has the zero number, a text cell its displayed text, and a
formula cell the result of its AST on the operands that `value` gives. -/
def Spec.IsValuation {D : Type} (env : Env D) (s : Sheet D) (value : Ptr → Value D) : Prop :=
  ∀ p c, s.cell p = some c →
    (c.impl_ = .EmptyImpl → value p = .number env.zero) ∧
    (∀ text_, c.impl_ = .TextImpl text_ → value p = .text (Spec.textValue text_)) ∧
    (∀ formula_ cache_, c.impl_ = .FormulaImpl formula_ cache_ →
      (∀ x, Spec.evaluate (Spec.operand env s value) formula_.exec = .number x →
        value p = .number x) ∧
      (∀ e, Spec.evaluate (Spec.operand env s value) formula_.exec = .error e →
        value p = .error e))

/-- Cache coherence of the sheet: the spec's description of the values has exactly one
solution on the cells of the sheet, and `GetValue` of every cell returns it, with
every bound on the nesting above the number of addresses. -/
def CacheCoherent {D : Type} (env : Env D) (s : Sheet D) : Prop :=
  ∃ value : Ptr → Value D, Spec.IsValuation env s value ∧
    (∀ value', Spec.IsValuation env s value' → ∀ p c, s.cell p = some c →
      value' p = value p) ∧
    (∀ p c, s.cell p = some c → ∀ fuel, s.heap.length < fuel →
      Cell.GetValue env s fuel p = .ok (value p))

/-- The formula cells of the sheet read what they are hooked to: the AST of a formula
cell asks only for its reported positions, and each reported position is valid and its
slot holds a precedent of the cell. -/
structure RefsOk {D : Type} (s : Sheet D) : Prop where
  reads : ∀ a c formula_ cache_, s.cell a = some c → c.impl_ = .FormulaImpl formula_ cache_ →
    formula_.exec.ReadsOnly formula_.cells
  hooked : ∀ a c formula_ cache_, s.cell a = some c → c.impl_ = .FormulaImpl formula_ cache_ →
    ∀ pos ∈ formula_.cells, pos.IsValid = true ∧
      slot s.table_ pos.row.toNat pos.col.toNat ∈ c.precedent_cells

/-! ## Facts on results, vectors and the heap -/

theorem Result.bind_eq_ok {α β : Type} {r : Result α} {f : α → Result β} {b : β}
    (h : r.bind f = .ok b) : ∃ a, r = .ok a ∧ f a = .ok b := by
  cases r with
  | ok a => exact ⟨a, rfl, h⟩
  | thrown e => simp [Result.bind] at h
  | undefined u => simp [Result.bind] at h

@[simp] theorem Result.bind_ok {α β : Type} (a : α) (f : α → Result β) :
    (Result.ok a).bind f = f a := rfl

theorem Result.bind_eq_thrown {α β : Type} {r : Result α} {f : α → Result β} {e : Exception}
    (h : r.bind f = .thrown e) : r = .thrown e ∨ ∃ a, r = .ok a ∧ f a = .thrown e := by
  cases r with
  | ok a => exact Or.inr ⟨a, rfl, h⟩
  | thrown e' => left; simpa [Result.bind] using h
  | undefined u => simp [Result.bind] at h

theorem index_eq_ok {α : Type} {v : List α} {i : Nat} {a : α} :
    index v i = .ok a ↔ v[i]? = some a := by
  unfold index
  cases h : v[i]? <;> simp

theorem index_ne_thrown {α : Type} (v : List α) (i : Nat) (e : Exception) :
    index v i ≠ .thrown e := by
  unfold index
  cases h : v[i]? <;> simp

theorem index_of_lt {α : Type} {v : List α} {i : Nat} (h : i < v.length) :
    index v i = .ok (v.get ⟨i, h⟩) := by
  rw [index_eq_ok]; simp [List.getElem?_eq_getElem h]

theorem resize_of_le {α : Type} (v : List α) (n : Nat) (d : α) (h : v.length ≤ n) :
    resize v n d = v ++ List.replicate (n - v.length) d := by
  unfold resize
  rw [List.take_of_length_le h]

theorem mem_setInsert {x y : Ptr} {l : List Ptr} : y ∈ setInsert x l ↔ y = x ∨ y ∈ l := by
  unfold setInsert
  split
  · constructor
    · intro h; exact Or.inr h
    · rintro (rfl | h)
      · assumption
      · exact h
  · simp

theorem setInsert_of_not_mem {x : Ptr} {l : List Ptr} (h : x ∉ l) : setInsert x l = x :: l := by
  simp [setInsert, h]

theorem setErase_setInsert {x : Ptr} {l : List Ptr} (h : x ∉ l) :
    setErase x (setInsert x l) = l := by
  simp [setErase, setInsert_of_not_mem h]

theorem mem_setErase_of_ne {x y : Ptr} {l : List Ptr} (h : y ≠ x) :
    y ∈ setErase x l ↔ y ∈ l := by
  unfold setErase
  exact List.mem_erase_of_ne h

theorem mem_of_mem_setErase {x y : Ptr} {l : List Ptr} (h : y ∈ setErase x l) : y ∈ l :=
  List.mem_of_mem_erase h

theorem Sheet.cell_eq_some {D : Type} {s : Sheet D} {a : Ptr} {c : Cell D} :
    s.cell a = some c ↔ s.heap[a]? = some (some c) := by
  unfold Sheet.cell
  rw [List.getD_eq_getElem?_getD]
  cases h : s.heap[a]? with
  | none => simp
  | some x => simp

theorem Sheet.lt_of_cell {D : Type} {s : Sheet D} {a : Ptr} {c : Cell D}
    (h : s.cell a = some c) : a < s.heap.length := by
  rw [Sheet.cell_eq_some] at h
  obtain ⟨hlt, _⟩ := List.getElem?_eq_some.mp h
  exact hlt

theorem Sheet.cell_length {D : Type} (s : Sheet D) : s.cell s.heap.length = none := by
  unfold Sheet.cell
  rw [List.getD_eq_getElem?_getD, List.getElem?_eq_none (Nat.le_refl _)]
  rfl

theorem Sheet.deref_eq_ok {D : Type} {s : Sheet D} {p : Ptr} {c : Cell D} :
    s.deref p = .ok c ↔ p ≠ nullptr ∧ s.cell p = some c := by
  unfold Sheet.deref
  by_cases hp : p = nullptr
  · simp [hp]
  · rw [if_neg hp, Sheet.cell_eq_some]
    cases h : s.heap[p]? with
    | none => simp [hp]
    | some x =>
      cases x with
      | none => simp [hp]
      | some c' => simp [hp]

theorem Sheet.deref_ne_thrown {D : Type} (s : Sheet D) (p : Ptr) (e : Exception) :
    s.deref p ≠ .thrown e := by
  unfold Sheet.deref
  split
  · simp
  · split <;> simp

theorem Sheet.update_eq_ok {D : Type} {s s' : Sheet D} {p : Ptr} {f : Cell D → Cell D} :
    s.update p f = .ok s' ↔
      ∃ c, p ≠ nullptr ∧ s.cell p = some c ∧
        s' = { s with heap := s.heap.set p (some (f c)) } := by
  unfold Sheet.update
  constructor
  · intro h
    obtain ⟨c, hc, hs⟩ := Result.bind_eq_ok h
    obtain ⟨hp, hcell⟩ := Sheet.deref_eq_ok.mp hc
    exact ⟨c, hp, hcell, by simpa using hs.symm⟩
  · rintro ⟨c, hp, hcell, rfl⟩
    rw [Sheet.deref_eq_ok.mpr ⟨hp, hcell⟩]
    rfl

theorem Sheet.update_ne_thrown {D : Type} (s : Sheet D) (p : Ptr) (f : Cell D → Cell D)
    (e : Exception) : s.update p f ≠ .thrown e := by
  unfold Sheet.update
  intro h
  rcases Result.bind_eq_thrown h with h | ⟨a, _, h⟩
  · exact Sheet.deref_ne_thrown _ _ _ h
  · simp at h

theorem Sheet.cell_set {D : Type} (s : Sheet D) (p a : Ptr) (x : Option (Cell D))
    (hp : p < s.heap.length) :
    ({ s with heap := s.heap.set p x } : Sheet D).cell a = if a = p then x else s.cell a := by
  unfold Sheet.cell
  simp only [List.getD_eq_getElem?_getD, List.getElem?_set]
  by_cases h : p = a
  · subst h; simp [hp]
  · rw [if_neg h, if_neg (Ne.symm h)]

theorem Sheet.cell_push {D : Type} (t : List (List Ptr)) (s : Sheet D) (c : Cell D) (a : Ptr) :
    ({ table_ := t, heap := s.heap ++ [some c] } : Sheet D).cell a =
      if a = s.heap.length then some c else s.cell a := by
  unfold Sheet.cell
  simp only [List.getD_eq_getElem?_getD]
  by_cases h : a = s.heap.length
  · subst h; simp
  · rw [if_neg h]
    rcases Nat.lt_or_gt_of_ne h with hlt | hgt
    · rw [List.getElem?_append_left hlt]
    · rw [List.getElem?_eq_none (by simp; omega), List.getElem?_eq_none (by omega)]

/-! ## The table -/

theorem width_append_of_ne_nil {t : List (List Ptr)} (h : t ≠ []) (u : List (List Ptr)) :
    width (t ++ u) = width t := by
  cases t with
  | nil => exact absurd rfl h
  | cons a t => rfl

theorem fixRows_spec (t : List (List Ptr)) (W : Nat) (hW : 0 < W) (ht : t ≠ [])
    (hrect : ∀ row ∈ t, row.length = W) :
    ∀ k m, fixRows (t.length + k - 1)
        (t ++ List.replicate k [] ++ List.replicate m (List.replicate W nullptr))
      = t ++ List.replicate (k + m) (List.replicate W nullptr) := by
  have hlen : 0 < t.length := List.length_pos.mpr ht
  have hwidth : ∀ u, width (t ++ u) = W := by
    intro u
    rw [width_append_of_ne_nil ht]
    cases t with
    | nil => exact absurd rfl ht
    | cons a t => exact hrect a (List.mem_cons_self _ _)
  intro k
  induction k with
  | zero =>
    intro m
    simp only [List.replicate_zero, List.append_nil, Nat.add_zero, Nat.zero_add]
    obtain ⟨n, hn⟩ : ∃ n, t.length = n + 1 := ⟨t.length - 1, by omega⟩
    rw [hn, Nat.add_sub_cancel]
    cases n with
    | zero => rfl
    | succ n =>
      unfold fixRows
      have h1 : ((t ++ List.replicate m (List.replicate W nullptr)).getD (n + 1) []).length = W := by
        have hlt : n + 1 < t.length := by omega
        rw [List.getD_eq_getElem?_getD, List.getElem?_append_left hlt,
          List.getElem?_eq_getElem hlt]
        exact hrect _ (List.getElem_mem _)
      rw [hwidth, h1]; simp
  | succ k ih =>
    intro m
    have e1 : t.length + (k + 1) - 1 = (t.length + k - 1) + 1 := by omega
    rw [e1]
    unfold fixRows
    have e2 : t.length + k - 1 + 1 = t.length + k := by omega
    rw [e2, List.append_assoc, hwidth]
    have hget : (t ++ (List.replicate (k + 1) [] ++
        List.replicate m (List.replicate W nullptr))).getD (t.length + k) [] = [] := by
      rw [List.getD_eq_getElem?_getD, List.getElem?_append_right (by omega)]
      have : t.length + k - t.length = k := by omega
      rw [this, List.getElem?_append_left (by simp)]
      simp
    rw [hget]
    have hne : ([] : List Ptr).length ≠ W := by simp; omega
    rw [if_pos hne]
    have hset : (t ++ (List.replicate (k + 1) [] ++
        List.replicate m (List.replicate W nullptr))).set (t.length + k)
          (resize [] W nullptr)
        = t ++ List.replicate k [] ++ List.replicate (m + 1) (List.replicate W nullptr) := by
      rw [List.set_append_right _ _ (by omega)]
      have : t.length + k - t.length = k := by omega
      rw [this, List.replicate_succ', List.append_assoc, List.append_assoc]
      congr 1
      rw [List.set_append_right _ _ (by simp)]
      simp [resize, List.replicate_succ]
    rw [hset, ih (m + 1)]
    congr 2; omega

theorem map_pad_id (t : List (List Ptr)) (W : Nat) (h : ∀ row ∈ t, row.length = W) :
    t.map (fun row => row ++ List.replicate (W - row.length) nullptr) = t := by
  conv_rhs => rw [← List.map_id t]
  apply List.map_congr_left
  intro row hrow
  simp [h row hrow]

theorem padTable_self (t : List (List Ptr)) (ht : Rect t) :
    padTable t t.length (width t) = t := by
  unfold padTable
  rw [map_pad_id t _ ht]; simp

theorem growTable_eq_pad (t : List (List Ptr)) (pos : Position) (ht : Rect t) :
    growTable t pos =
      padTable t (max t.length (pos.row.toNat + 1)) (max (width t) (pos.col.toNat + 1)) := by
  unfold growTable
  by_cases hrow : t.length ≤ pos.row.toNat
  · have hmax : max t.length (pos.row.toNat + 1) = pos.row.toNat + 1 := by omega
    rw [if_pos hrow, hmax]
    have ht1 : resize t (pos.row.toNat + 1) [] =
        t ++ List.replicate (pos.row.toNat + 1 - t.length) [] :=
      resize_of_le _ _ _ (by omega)
    simp only [ht1]
    obtain ⟨k, hk⟩ : ∃ k, pos.row.toNat + 1 - t.length = k + 1 :=
      ⟨pos.row.toNat - t.length, by omega⟩
    have hw1 : width (t ++ List.replicate (pos.row.toNat + 1 - t.length) []) = width t := by
      cases t with
      | nil => rw [hk]; rfl
      | cons a t => rfl
    rw [hw1]
    by_cases hcol : width t > pos.col.toNat
    · have hne : t ≠ [] := by
        intro h; subst h; simp [width] at hcol
      have hmaxw : max (width t) (pos.col.toNat + 1) = width t := by omega
      rw [if_pos hcol, hmaxw]
      have hfix := fixRows_spec t (width t) (by omega) hne ht (pos.row.toNat + 1 - t.length) 0
      simp only [List.replicate_zero, List.append_nil, Nat.add_zero] at hfix
      have hlen : (t ++ List.replicate (pos.row.toNat + 1 - t.length) ([] : List Ptr)).length - 1
          = t.length + (pos.row.toNat + 1 - t.length) - 1 := by simp
      rw [hlen, hfix]
      have hw2 : width (t ++ List.replicate (pos.row.toNat + 1 - t.length)
          (List.replicate (width t) nullptr)) = width t := width_append_of_ne_nil hne _
      rw [hw2, if_neg (by omega)]
      unfold padTable
      rw [map_pad_id t _ ht]
    · have hmaxw : max (width t) (pos.col.toNat + 1) = pos.col.toNat + 1 := by omega
      rw [if_neg hcol, hw1, if_pos (by omega), hmaxw]
      unfold padTable
      rw [List.map_append, List.map_replicate]
      congr 1
      apply List.map_congr_left
      intro row hr
      exact resize_of_le _ _ _ (by rw [ht row hr]; omega)
  · have hmax : max t.length (pos.row.toNat + 1) = t.length := by omega
    rw [if_neg hrow, hmax]
    by_cases hcol : width t ≤ pos.col.toNat
    · have hmaxw : max (width t) (pos.col.toNat + 1) = pos.col.toNat + 1 := by omega
      rw [if_pos hcol, hmaxw]
      unfold padTable
      simp only [Nat.sub_self, List.replicate_zero, List.append_nil]
      apply List.map_congr_left
      intro row hr
      exact resize_of_le _ _ _ (by rw [ht row hr]; omega)
    · have hmaxw : max (width t) (pos.col.toNat + 1) = width t := by omega
      rw [if_neg hcol, hmaxw, padTable_self t ht]

theorem padTable_length (t : List (List Ptr)) (R W : Nat) :
    (padTable t R W).length = max t.length R := by
  unfold padTable; simp; omega

theorem padTable_row_length (t : List (List Ptr)) (R W : Nat) (ht : Rect t) (hW : width t ≤ W) :
    ∀ row ∈ padTable t R W, row.length = W := by
  intro row hrow
  unfold padTable at hrow
  rcases List.mem_append.mp hrow with h | h
  · obtain ⟨r0, hr0, rfl⟩ := List.mem_map.mp h
    have := ht r0 hr0
    simp; omega
  · rw [List.eq_of_mem_replicate h]; simp

theorem padTable_width (t : List (List Ptr)) (R W : Nat) (ht : Rect t) (hW : width t ≤ W)
    (hR : 0 < R) : width (padTable t R W) = W := by
  have hlen : 0 < (padTable t R W).length := by rw [padTable_length]; omega
  cases h : padTable t R W with
  | nil => rw [h] at hlen; simp at hlen
  | cons a rest =>
    have := padTable_row_length t R W ht hW a (by rw [h]; exact List.mem_cons_self _ _)
    simpa [width] using this

theorem padTable_rect (t : List (List Ptr)) (R W : Nat) (ht : Rect t) (hW : width t ≤ W)
    (hR : 0 < R) : Rect (padTable t R W) := by
  intro row hrow
  rw [padTable_width t R W ht hW hR]
  exact padTable_row_length t R W ht hW row hrow

theorem padTable_slot (t : List (List Ptr)) (R W r c : Nat) :
    slot (padTable t R W) r c = slot t r c := by
  unfold slot padTable
  simp only [List.getD_eq_getElem?_getD]
  by_cases hr : r < t.length
  · rw [List.getElem?_append_left (by simpa using hr)]
    rw [List.getElem?_map, List.getElem?_eq_getElem hr]
    simp only [Option.map_some', Option.getD_some]
    by_cases hc : c < t[r].length
    · rw [List.getElem?_append_left hc]
    · rw [List.getElem?_append_right (by omega)]
      rw [List.getElem?_eq_none (l := t[r]) (by omega)]
      rw [List.getElem?_replicate]
      split <;> rfl
  · rw [List.getElem?_append_right (by simpa using hr)]
    rw [List.getElem?_eq_none (l := t) (by omega)]
    simp only [List.length_map, Option.getD_none]
    rw [List.getElem?_replicate]
    split
    · simp only [Option.getD_some]
      rw [List.getElem?_replicate]
      split <;> rfl
    · simp


theorem slot_of_getElem? {t : List (List Ptr)} {r c : Nat} {row : List Ptr} {p : Ptr}
    (hr : t[r]? = some row) (hc : row[c]? = some p) : slot t r c = p := by
  unfold slot
  simp [List.getD_eq_getElem?_getD, hr, hc]

theorem slot_eq_null_of_row {t : List (List Ptr)} {r c : Nat} (h : t.length ≤ r) :
    slot t r c = nullptr := by
  unfold slot
  simp [List.getD_eq_getElem?_getD, List.getElem?_eq_none h]

theorem slot_eq_null_of_col {t : List (List Ptr)} {r c : Nat} (ht : Rect t)
    (h : width t ≤ c) : slot t r c = nullptr := by
  unfold slot
  simp only [List.getD_eq_getElem?_getD]
  cases hr : t[r]? with
  | none => simp
  | some row =>
    have hmem : row ∈ t := List.mem_iff_getElem?.mpr ⟨r, hr⟩
    have := ht row hmem
    simp [List.getElem?_eq_none (show row.length ≤ c by omega)]

theorem index2_of_rect {t : List (List Ptr)} {r c : Nat} (ht : Rect t) (hr : r < t.length)
    (hc : c < width t) :
    ((index t r).bind fun row => index row c) = .ok (slot t r c) := by
  have hrow : t[r]? = some t[r] := List.getElem?_eq_getElem hr
  have hlen : t[r].length = width t := ht _ (List.getElem_mem _)
  have hcol : t[r][c]? = some (t[r][c]) := List.getElem?_eq_getElem (by omega)
  rw [index_eq_ok.mpr hrow, Result.bind_ok, index_eq_ok.mpr hcol, slot_of_getElem? hrow hcol]

theorem Sheet.GetConcreteCell_of_rect {D : Type} {s : Sheet D} {pos : Position}
    (ht : Rect s.table_) (hv : pos.IsValid = true) :
    s.GetConcreteCell pos = .ok (slot s.table_ pos.row.toNat pos.col.toNat) := by
  unfold Sheet.GetConcreteCell
  simp only [hv, Bool.not_true, Bool.false_eq_true, if_false]
  by_cases h : pos.row.toNat ≥ s.table_.length
  · rw [if_pos h, slot_eq_null_of_row h]
  · rw [if_neg h]
    have h0 : 0 < s.table_.length := by omega
    have hw : s.table_[0].length = width s.table_ := ht _ (List.getElem_mem _)
    rw [index_eq_ok.mpr (List.getElem?_eq_getElem h0), Result.bind_ok, hw]
    by_cases hc : pos.col.toNat ≥ width s.table_
    · rw [if_pos hc, slot_eq_null_of_col ht hc]
    · rw [if_neg hc]
      exact index2_of_rect ht (by omega) (by omega)

theorem Sheet.GetConcreteCell_invalid {D : Type} {s : Sheet D} {pos : Position}
    (hv : pos.IsValid = false) : s.GetConcreteCell pos = .thrown .InvalidPositionException := by
  unfold Sheet.GetConcreteCell
  simp [hv]

theorem setSlot_width (t : List (List Ptr)) (r c : Nat) (x : Ptr) :
    width (setSlot t r c x) = width t := by
  unfold setSlot width
  cases t with
  | nil => rfl
  | cons a t =>
    cases r with
    | zero => simp [List.getD_eq_getElem?_getD]
    | succ r => simp

theorem setSlot_length (t : List (List Ptr)) (r c : Nat) (x : Ptr) :
    (setSlot t r c x).length = t.length := by
  unfold setSlot; simp

theorem Position.isValid_iff (p : Position) :
    p.IsValid = true ↔ 0 ≤ p.row ∧ 0 ≤ p.col ∧ p.row < Position.MAX_ROWS ∧
      p.col < Position.MAX_COLS := by
  unfold Position.IsValid
  simp only [Bool.and_eq_true, decide_eq_true_eq]
  tauto

theorem setSlot_rect {t : List (List Ptr)} (ht : Rect t) (r c : Nat) (x : Ptr) :
    Rect (setSlot t r c x) := by
  have hw : width (setSlot t r c x) = width t := setSlot_width t r c x
  intro row hrow
  rw [hw]
  unfold setSlot at hrow
  rcases List.mem_or_eq_of_mem_set hrow with h | h
  · exact ht row h
  · subst h
    rw [List.length_set]
    simp only [List.getD_eq_getElem?_getD]
    cases hr : t[r]? with
    | none =>
      have : t.length ≤ r := List.getElem?_eq_none_iff.mp hr
      rw [List.set_eq_of_length_le this] at hrow
      simpa [hr] using ht _ hrow
    | some row0 => simpa using ht row0 (List.mem_iff_getElem?.mpr ⟨r, hr⟩)

theorem setSlot_slot {t : List (List Ptr)} {r c : Nat} (x : Ptr) (hr : r < t.length)
    (hc : c < (t.getD r []).length) (r' c' : Nat) :
    slot (setSlot t r c x) r' c' = if r' = r ∧ c' = c then x else slot t r' c' := by
  unfold slot setSlot
  simp only [List.getD_eq_getElem?_getD, List.getElem?_set]
  simp only [List.getD_eq_getElem?_getD] at hc
  by_cases h1 : r = r'
  · subst h1
    simp only [hr, if_true, Option.getD_some, true_and]
    by_cases h2 : c = c'
    · subst h2; simp [hc]
    · rw [List.getElem?_set_ne h2, if_neg (Ne.symm h2)]
  · rw [if_neg h1, if_neg (fun h => h1 h.1.symm)]

/-! ## The invariant: the empty sheet and the creation of a cell -/

theorem WF.cell_null {D : Type} {s : Sheet D} (h : WF s) : s.cell nullptr = none := by
  unfold Sheet.cell nullptr
  rw [List.getD_eq_getElem?_getD, h.null_free]; rfl

theorem WF.heap_pos {D : Type} {s : Sheet D} (h : WF s) : 0 < s.heap.length := by
  obtain ⟨hlt, _⟩ := List.getElem?_eq_some.mp h.null_free
  exact hlt

theorem WF.ne_null {D : Type} {s : Sheet D} (h : WF s) {a : Ptr} {c : Cell D}
    (hc : s.cell a = some c) : a ≠ nullptr := by
  intro ha
  rw [ha, h.cell_null] at hc
  exact Option.noConfusion hc

theorem WF.deref_ok_iff {D : Type} {s : Sheet D} (h : WF s) {p : Ptr} {c : Cell D} :
    s.deref p = .ok c ↔ s.cell p = some c := by
  rw [Sheet.deref_eq_ok]
  exact ⟨fun hh => hh.2, fun hh => ⟨h.ne_null hh, hh⟩⟩

theorem WF.GetConcreteCell {D : Type} {s : Sheet D} (h : WF s) {pos : Position}
    (hv : pos.IsValid = true) :
    s.GetConcreteCell pos = .ok (slot s.table_ pos.row.toNat pos.col.toNat) :=
  Sheet.GetConcreteCell_of_rect h.rect hv

theorem acyclic_mono {α : Type} {R R' : α → α → Prop} (hsub : ∀ a b, R' a b → R a b)
    (h : ∀ a, ¬ Relation.TransGen R a a) : ∀ a, ¬ Relation.TransGen R' a a :=
  fun a ha => h a (Relation.TransGen.mono hsub ha)

theorem Sheet.cell_empty {D : Type} (a : Ptr) : (Sheet.empty : Sheet D).cell a = none := by
  unfold Sheet.cell Sheet.empty
  cases a with
  | zero => rfl
  | succ a => rfl

theorem slot_nil (r c : Nat) : slot [] r c = nullptr := by
  unfold slot; simp

theorem WF_empty {D : Type} : WF (Sheet.empty : Sheet D) where
  null_free := rfl
  rect := fun row hrow => by simp [Sheet.empty] at hrow
  owned := fun r c h => absurd (slot_nil r c) h
  unique := fun r c r' c' h => absurd (slot_nil r c) h
  prec_live := fun a ca b h => by rw [Sheet.cell_empty] at h; exact Option.noConfusion h
  no_cache := fun a ca h => by rw [Sheet.cell_empty] at h; exact Option.noConfusion h
  acyclic := fun a ha => by
    obtain ⟨b, hab, _⟩ : ∃ b, Edge (Sheet.empty : Sheet D) a b ∧ True := by
      cases Relation.TransGen.head'_iff.mp ha with
      | intro b hb => exact ⟨b, hb.1, trivial⟩
    obtain ⟨c, hc, _⟩ := hab
    rw [Sheet.cell_empty] at hc
    exact Option.noConfusion hc
  bounded := by
    constructor <;> simp [Sheet.empty, width, Position.MAX_ROWS, Position.MAX_COLS]

/-- What the creation step of `SetCell` does to a sheet that satisfies the invariant:
either the slot had a cell and only the table was (possibly) padded, or the slot was
empty and a new empty cell at the fresh address `heap.length` was put there. -/
theorem Sheet.materialize_spec {D : Type} {s : Sheet D} (hwf : WF s) {pos : Position}
    (hv : pos.IsValid = true) :
    ∃ s1 this, s.materialize pos = .ok (s1, this) ∧ WF s1 ∧
      s1.cell this ≠ none ∧
      slot s1.table_ pos.row.toNat pos.col.toNat = this ∧
      (∀ r c, ¬ (r = pos.row.toNat ∧ c = pos.col.toNat) →
        slot s1.table_ r c = slot s.table_ r c) ∧
      ((slot s.table_ pos.row.toNat pos.col.toNat = this ∧ s1.heap = s.heap ∧
          s1.table_ = growTable s.table_ pos) ∨
       (slot s.table_ pos.row.toNat pos.col.toNat = nullptr ∧ this = s.heap.length ∧
          s1.heap = s.heap ++ [some Cell.new] ∧
          s1.table_ = setSlot (growTable s.table_ pos) pos.row.toNat pos.col.toNat
            s.heap.length)) := by
  have hpad := growTable_eq_pad s.table_ pos hwf.rect
  have hrect1 : Rect (growTable s.table_ pos) := by
    rw [hpad]; exact padTable_rect _ _ _ hwf.rect (by omega) (by omega)
  have hlen1 : pos.row.toNat < (growTable s.table_ pos).length := by
    rw [hpad, padTable_length]; omega
  have hwid1 : pos.col.toNat < width (growTable s.table_ pos) := by
    rw [hpad, padTable_width _ _ _ hwf.rect (by omega) (by omega)]; omega
  have hslot1 : ∀ r c, slot (growTable s.table_ pos) r c = slot s.table_ r c := by
    intro r c; rw [hpad, padTable_slot]
  have hbound1 : ((growTable s.table_ pos).length : Int) ≤ Position.MAX_ROWS ∧
      (width (growTable s.table_ pos) : Int) ≤ Position.MAX_COLS := by
    obtain ⟨h1, h2, h3, h4⟩ := (Position.isValid_iff pos).mp hv
    obtain ⟨b1, b2⟩ := hwf.bounded
    rw [hpad, padTable_length, padTable_width _ _ _ hwf.rect (by omega) (by omega)]
    unfold Position.MAX_ROWS at h3 b1 ⊢
    unfold Position.MAX_COLS at h4 b2 ⊢
    have e1 : max s.table_.length (max s.table_.length (pos.row.toNat + 1)) ≤ 16384 :=
      max_le (by omega) (max_le (by omega) (by omega))
    have e2 : max (width s.table_) (pos.col.toNat + 1) ≤ 16384 :=
      max_le (by omega) (by omega)
    exact ⟨by exact_mod_cast e1, by exact_mod_cast e2⟩
  have hidx := index2_of_rect hrect1 hlen1 hwid1
  rw [hslot1] at hidx
  by_cases hp : slot s.table_ pos.row.toNat pos.col.toNat = nullptr
  · -- a new cell
    have hrowlen : pos.col.toNat < ((growTable s.table_ pos).getD pos.row.toNat []).length := by
      rw [List.getD_eq_getElem?_getD, List.getElem?_eq_getElem hlen1]
      simp only [Option.getD_some]
      rw [hrect1 _ (List.getElem_mem _)]; exact hwid1
    have hslot2 : ∀ r c, slot (setSlot (growTable s.table_ pos) pos.row.toNat pos.col.toNat
        s.heap.length) r c =
        if r = pos.row.toNat ∧ c = pos.col.toNat then s.heap.length else slot s.table_ r c := by
      intro r c
      rw [setSlot_slot _ hlen1 hrowlen, hslot1]
    have hlt_of_slot : ∀ r c, slot s.table_ r c ≠ nullptr → slot s.table_ r c < s.heap.length := by
      intro r c h
      obtain ⟨cell, hcell⟩ := hwf.owned r c h
      exact Sheet.lt_of_cell hcell
    refine ⟨Sheet.mk (setSlot (growTable s.table_ pos) pos.row.toNat pos.col.toNat s.heap.length)
        (s.heap ++ [some Cell.new]), s.heap.length,
      ?_, ?_, ?_, ?_, ?_, Or.inr ⟨hp, rfl, rfl, rfl⟩⟩
    · unfold Sheet.materialize
      simp only [hidx, Result.bind_ok, hp, if_true]
    · refine ⟨?_, setSlot_rect hrect1 _ _ _, ?_, ?_, ?_, ?_, ?_, ?_⟩
      · show (s.heap ++ [some Cell.new])[0]? = some none
        rw [List.getElem?_append_left hwf.heap_pos]; exact hwf.null_free
      · intro r c h
        show ∃ cell, Sheet.cell _ (slot (setSlot _ _ _ _) r c) = some cell
        rw [hslot2] at h ⊢
        rw [Sheet.cell_push]
        by_cases hrc : r = pos.row.toNat ∧ c = pos.col.toNat
        · rw [if_pos hrc, if_pos rfl]
          exact ⟨_, rfl⟩
        · rw [if_neg hrc] at h ⊢
          rw [if_neg (Nat.ne_of_lt (hlt_of_slot r c h))]
          exact hwf.owned r c h
      · intro r c r' c' h heq
        show r = r' ∧ c = c'
        have h' : slot (setSlot (growTable s.table_ pos) pos.row.toNat pos.col.toNat
            s.heap.length) r c ≠ nullptr := h
        have heq' : slot (setSlot (growTable s.table_ pos) pos.row.toNat pos.col.toNat
            s.heap.length) r c = slot (setSlot (growTable s.table_ pos) pos.row.toNat
              pos.col.toNat s.heap.length) r' c' := heq
        rw [hslot2] at h'
        rw [hslot2, hslot2] at heq'
        by_cases h1 : r = pos.row.toNat ∧ c = pos.col.toNat
        · by_cases h2 : r' = pos.row.toNat ∧ c' = pos.col.toNat
          · exact ⟨h1.1.trans h2.1.symm, h1.2.trans h2.2.symm⟩
          · rw [if_pos h1, if_neg h2] at heq'
            have hne : slot s.table_ r' c' ≠ nullptr := by
              rw [← heq']; exact Nat.ne_of_gt hwf.heap_pos
            exact absurd heq'.symm (Nat.ne_of_lt (hlt_of_slot r' c' hne))
        · rw [if_neg h1] at h' heq'
          by_cases h2 : r' = pos.row.toNat ∧ c' = pos.col.toNat
          · rw [if_pos h2] at heq'
            exact absurd heq' (Nat.ne_of_lt (hlt_of_slot r c h'))
          · rw [if_neg h2] at heq'
            exact hwf.unique r c r' c' h' heq'
      · intro a ca b hca hb
        rw [Sheet.cell_push] at hca
        split at hca
        · cases hca; simp [Cell.new] at hb
        · obtain ⟨cb, hcb, hmem⟩ := hwf.prec_live a ca b hca hb
          refine ⟨cb, ?_, hmem⟩
          rw [Sheet.cell_push, if_neg (Nat.ne_of_lt (Sheet.lt_of_cell hcb))]
          exact hcb
      · intro a ca hca
        rw [Sheet.cell_push] at hca
        split at hca
        · cases hca; rfl
        · exact hwf.no_cache a ca hca
      · apply acyclic_mono _ hwf.acyclic
        rintro a b ⟨c, hc, hb⟩
        rw [Sheet.cell_push] at hc
        split at hc
        · cases hc; simp [Cell.new] at hb
        · exact ⟨c, hc, hb⟩
      · show ((setSlot _ _ _ _).length : Int) ≤ _ ∧ (width (setSlot _ _ _ _) : Int) ≤ _
        rw [setSlot_length, setSlot_width]
        exact hbound1
    · rw [Sheet.cell_push, if_pos rfl]; simp
    · show slot (setSlot _ _ _ _) _ _ = _
      rw [hslot2, if_pos ⟨rfl, rfl⟩]
    · intro r c hne
      show slot (setSlot _ _ _ _) _ _ = _
      rw [hslot2, if_neg hne]
  · -- the slot has a cell
    refine ⟨{ s with table_ := growTable s.table_ pos }, _, ?_, ?_, ?_, ?_, ?_,
      Or.inl ⟨rfl, rfl, rfl⟩⟩
    · unfold Sheet.materialize
      simp only [hidx, Result.bind_ok, hp, if_false]
    · refine ⟨hwf.null_free, hrect1, ?_, ?_, hwf.prec_live, hwf.no_cache, hwf.acyclic, hbound1⟩
      · intro r c h
        show ∃ cell, s.cell (slot (growTable s.table_ pos) r c) = some cell
        rw [hslot1] at h ⊢
        exact hwf.owned r c h
      · intro r c r' c' h heq
        have h' : slot (growTable s.table_ pos) r c ≠ nullptr := h
        have heq' : slot (growTable s.table_ pos) r c = slot (growTable s.table_ pos) r' c' := heq
        rw [hslot1] at h'
        rw [hslot1, hslot1] at heq'
        exact hwf.unique r c r' c' h' heq'
    · obtain ⟨cell, hcell⟩ := hwf.owned _ _ hp
      show s.cell _ ≠ none
      rw [hcell]; simp
    · exact hslot1 _ _
    · intro r c _
      exact hslot1 _ _

/-! ## The search: what a `false` answer means -/

theorem forChildren_false {D : Type} {s : Sheet D}
    {visit : Ptr → List Ptr → List Ptr → Result (Bool × List Ptr × List Ptr)}
    (hvisit : VisitOk s visit) :
    ∀ (children path visited : List Ptr) (r : Bool × List Ptr × List Ptr),
      forChildren visit children path visited = .ok r → r.1 = false →
      Closed s path visited → (∀ v ∈ visited, s.cell v ≠ none) →
      r.2.1 = path ∧ (∀ w ∈ children, w ∉ path ∧ w ∈ r.2.2) ∧ (∀ v ∈ visited, v ∈ r.2.2) ∧
        Closed s path r.2.2 ∧ (∀ v ∈ r.2.2, s.cell v ≠ none) := by
  intro children
  induction children with
  | nil =>
    intro path visited r h _ hcl hlive
    simp only [forChildren, Result.ok.injEq] at h
    subst h
    exact ⟨rfl, by simp, fun v hv => hv, hcl, hlive⟩
  | cons child rest ih =>
    intro path visited r h hr hcl hlive
    simp only [forChildren] at h
    obtain ⟨r1, h1, h2⟩ := Result.bind_eq_ok h
    by_cases hr1 : r1.1 = true
    · rw [if_pos hr1] at h2
      simp only [Result.ok.injEq] at h2
      subst h2
      rw [hr1] at hr; exact absurd hr (by simp)
    · rw [if_neg hr1] at h2
      have hr1' : r1.1 = false := by simpa using hr1
      obtain ⟨e1, e2, e3, e4, e5, e6⟩ := hvisit child path visited r1 h1 hr1' hcl hlive
      rw [e1] at h2
      obtain ⟨f1, f2, f3, f4, f5⟩ := ih path r1.2.2 r h2 hr e5 e6
      refine ⟨f1, ?_, fun v hv => f3 v (e4 v hv), f4, f5⟩
      intro w hw
      rcases List.mem_cons.mp hw with rfl | hw
      · exact ⟨e2, f3 _ e3⟩
      · exact f2 w hw

theorem Closed.cons {D : Type} {s : Sheet D} {path visited : List Ptr} {p : Ptr}
    (hcl : Closed s path visited) (hp : p ∉ visited) :
    Closed s (p :: path) (p :: visited) := by
  intro v hv hvp w hw
  have hvne : v ≠ p := fun h => hvp (h ▸ List.mem_cons_self _ _)
  have hv' : v ∈ visited := by
    rcases List.mem_cons.mp hv with h | h
    · exact absurd h hvne
    · exact h
  have hvpath : v ∉ path := fun h => hvp (List.mem_cons_of_mem _ h)
  obtain ⟨h1, h2⟩ := hcl v hv' hvpath w hw
  refine ⟨List.mem_cons_of_mem _ h1, ?_⟩
  intro h
  rcases List.mem_cons.mp h with h | h
  · exact hp (h ▸ h1)
  · exact h2 h

theorem FindCircularByDFS_visitOk {D : Type} (s : Sheet D) :
    ∀ fuel, VisitOk s (FindCircularByDFS s fuel) := by
  intro fuel
  induction fuel with
  | zero =>
    intro p path visited r h
    simp [FindCircularByDFS] at h
  | succ fuel ih =>
    intro p path visited r h hr hcl hlive
    simp only [FindCircularByDFS] at h
    by_cases hp : p ∈ path
    · rw [if_pos hp] at h
      simp only [Result.ok.injEq] at h
      subst h
      exact absurd hr (by simp)
    · rw [if_neg hp] at h
      by_cases hv : p ∈ visited
      · rw [if_pos hv] at h
        simp only [Result.ok.injEq] at h
        subst h
        exact ⟨rfl, hp, hv, fun v hv => hv, hcl, hlive⟩
      · rw [if_neg hv] at h
        obtain ⟨c, hc, h⟩ := Result.bind_eq_ok h
        obtain ⟨r1, h1, h2⟩ := Result.bind_eq_ok h
        obtain ⟨_, hcell⟩ := Sheet.deref_eq_ok.mp hc
        by_cases hr1 : r1.1 = true
        · rw [if_pos hr1] at h2
          simp only [Result.ok.injEq] at h2
          subst h2
          rw [hr1] at hr; exact absurd hr (by simp)
        · rw [if_neg hr1] at h2
          have hr1' : r1.1 = false := by simpa using hr1
          simp only [Result.ok.injEq] at h2
          subst h2
          rw [setInsert_of_not_mem hp, setInsert_of_not_mem hv] at h1
          have hlive1 : ∀ v ∈ p :: visited, s.cell v ≠ none := by
            intro v hv
            rcases List.mem_cons.mp hv with rfl | hv
            · rw [hcell]; simp
            · exact hlive v hv
          obtain ⟨f1, f2, f3, f4, f5⟩ :=
            forChildren_false ih c.precedent_cells (p :: path) (p :: visited) r1 h1 hr1'
              (hcl.cons hv) hlive1
          refine ⟨?_, hp, f3 p (List.mem_cons_self _ _),
            fun v hv => f3 v (List.mem_cons_of_mem _ hv), ?_, f5⟩
          · show setErase p r1.2.1 = path
            rw [f1]; simp [setErase]
          · intro v hv1 hvpath w hw
            by_cases hvp : v = p
            · subst hvp
              obtain ⟨c', hc', hw'⟩ := hw
              rw [hcell] at hc'
              cases hc'
              obtain ⟨g1, g2⟩ := f2 w hw'
              exact ⟨g2, fun h => g1 (List.mem_cons_of_mem _ h)⟩
            · have hvp1 : v ∉ p :: path := by
                intro h
                rcases List.mem_cons.mp h with h | h
                · exact hvp h
                · exact hvpath h
              obtain ⟨g1, g2⟩ := f4 v hv1 hvp1 w hw
              exact ⟨g1, fun h => g2 (List.mem_cons_of_mem _ h)⟩

theorem Closed.reach {D : Type} {s : Sheet D} {path visited : List Ptr} (hcl : Closed s path visited)
    {v w : Ptr} (hv : v ∈ visited) (hvp : v ∉ path) (h : Relation.ReflTransGen (Edge s) v w) :
    w ∈ visited ∧ w ∉ path := by
  induction h with
  | refl => exact ⟨hv, hvp⟩
  | tail _ hbc ih => exact hcl _ ih.1 ih.2 _ hbc

theorem willCauseLoop_false {D : Type} {s : Sheet D} (fuel : Nat) :
    ∀ (deps : List Position) (path visited : List Ptr),
      willCauseLoop s fuel deps path visited = .ok false →
      Closed s path visited → (∀ v ∈ visited, s.cell v ≠ none) →
      ∃ visited', Closed s path visited' ∧ (∀ v ∈ visited', s.cell v ≠ none) ∧
        (∀ v ∈ visited, v ∈ visited') ∧
        ∀ pos ∈ deps, ∃ p, s.GetConcreteCell pos = .ok p ∧ p ∈ visited' ∧ p ∉ path := by
  intro deps
  induction deps with
  | nil =>
    intro path visited _ hcl hlive
    exact ⟨visited, hcl, hlive, fun v hv => hv, by simp⟩
  | cons pos rest ih =>
    intro path visited h hcl hlive
    simp only [willCauseLoop] at h
    obtain ⟨p, hp, h⟩ := Result.bind_eq_ok h
    obtain ⟨r, hr, h⟩ := Result.bind_eq_ok h
    by_cases hr1 : r.1 = true
    · rw [if_pos hr1] at h; simp at h
    · rw [if_neg hr1] at h
      have hr1' : r.1 = false := by simpa using hr1
      obtain ⟨e1, e2, e3, e4, e5, e6⟩ :=
        FindCircularByDFS_visitOk s fuel p path visited r hr hr1' hcl hlive
      rw [e1] at h
      obtain ⟨visited', g1, g2, g3, g4⟩ := ih path r.2.2 h e5 e6
      refine ⟨visited', g1, g2, fun v hv => g3 v (e4 v hv), ?_⟩
      intro q hq
      rcases List.mem_cons.mp hq with rfl | hq
      · exact ⟨p, hp, g3 p e3, e2⟩
      · exact g4 q hq

/-- A `false` answer of the circularity check: every prospective reference resolves to
a living cell other than the checked one, from which the checked cell cannot be
reached along precedent edges. -/
theorem WillCauseCircularDependency_false {D : Type} {s : Sheet D} {this : Ptr} {impl : Impl D}
    (h : Cell.WillCauseCircularDependency s this impl = .ok false) :
    ∀ pos ∈ impl.GetDependencies, ∃ p, s.GetConcreteCell pos = .ok p ∧ s.cell p ≠ none ∧
      p ≠ this ∧ ¬ Relation.ReflTransGen (Edge s) p this := by
  unfold Cell.WillCauseCircularDependency at h
  have hpath : setInsert this [] = [this] := rfl
  rw [hpath] at h
  obtain ⟨visited', g1, g2, _, g4⟩ :=
    willCauseLoop_false _ _ _ _ h (fun v hv => by simp at hv) (fun v hv => by simp at hv)
  intro pos hpos
  obtain ⟨p, hp, hpv, hpp⟩ := g4 pos hpos
  refine ⟨p, hp, g2 p hpv, fun h => hpp (by simp [h]), ?_⟩
  intro hreach
  exact (g1.reach hpv hpp hreach).2 (List.mem_singleton_self _)

/-! ## The rewiring done by `Cell::Set` -/

theorem Rewired.refl {D : Type} (this : Ptr) (s : Sheet D) : Rewired this s s where
  table_eq := rfl
  length_eq := rfl
  dead := fun _ h => h
  live := fun _ c h => ⟨c, h, fun _ => ⟨rfl, rfl⟩, fun _ hd _ => hd, fun _ hd => Or.inr hd⟩

theorem Rewired.trans {D : Type} {this : Ptr} {s1 s2 s3 : Sheet D}
    (h12 : Rewired this s1 s2) (h23 : Rewired this s2 s3) : Rewired this s1 s3 where
  table_eq := h23.table_eq.trans h12.table_eq
  length_eq := h23.length_eq.trans h12.length_eq
  dead := fun a h => h23.dead a (h12.dead a h)
  live := by
    intro a c h
    obtain ⟨c2, hc2, e1, e2, e3⟩ := h12.live a c h
    obtain ⟨c3, hc3, f1, f2, f3⟩ := h23.live a c2 hc2
    refine ⟨c3, hc3, ?_, ?_, ?_⟩
    · intro hne
      exact ⟨(f1 hne).1.trans (e1 hne).1, (f1 hne).2.trans (e1 hne).2⟩
    · intro d hd hne
      exact f2 d (e2 d hd hne) hne
    · intro d hd
      rcases f3 d hd with h | h
      · exact Or.inl h
      · exact e3 d h

theorem Sheet.GetConcreteCell_congr {D : Type} {s s' : Sheet D} (h : s'.table_ = s.table_)
    (pos : Position) : s'.GetConcreteCell pos = s.GetConcreteCell pos := by
  unfold Sheet.GetConcreteCell
  rw [h]

theorem Rewired.of_update {D : Type} {this p : Ptr} {s s' : Sheet D} {f : Cell D → Cell D}
    (h : s.update p f = .ok s')
    (h1 : p ≠ this → ∀ c, (f c).impl_ = c.impl_ ∧ (f c).precedent_cells = c.precedent_cells)
    (h2 : ∀ c, ∀ d ∈ c.dependent_cells, d ≠ this → d ∈ (f c).dependent_cells)
    (h3 : ∀ c, ∀ d ∈ (f c).dependent_cells, d = this ∨ d ∈ c.dependent_cells) :
    Rewired this s s' := by
  obtain ⟨c, _, hc, rfl⟩ := Sheet.update_eq_ok.mp h
  have hlt := Sheet.lt_of_cell hc
  refine ⟨rfl, by simp, ?_, ?_⟩
  · intro a ha
    rw [Sheet.cell_set _ _ _ _ hlt]
    split
    · rename_i hap; subst hap; rw [hc] at ha; exact Option.noConfusion ha
    · exact ha
  · intro a ca ha
    rw [Sheet.cell_set _ _ _ _ hlt]
    by_cases hap : a = p
    · subst hap
      rw [hc] at ha; cases ha
      rw [if_pos rfl]
      exact ⟨f c, rfl, fun hne => h1 hne c, h2 c, h3 c⟩
    · rw [if_neg hap]
      exact ⟨ca, ha, fun _ => ⟨rfl, rfl⟩, fun _ hd _ => hd, fun _ hd => Or.inr hd⟩

theorem Sheet.update_cell {D : Type} {p : Ptr} {s s' : Sheet D} {f : Cell D → Cell D}
    (h : s.update p f = .ok s') :
    ∃ c, s.cell p = some c ∧ s'.cell p = some (f c) ∧ ∀ a, a ≠ p → s'.cell a = s.cell a := by
  obtain ⟨c, _, hc, rfl⟩ := Sheet.update_eq_ok.mp h
  have hlt := Sheet.lt_of_cell hc
  refine ⟨c, hc, ?_, ?_⟩
  · rw [Sheet.cell_set _ _ _ _ hlt, if_pos rfl]
  · intro a ha
    rw [Sheet.cell_set _ _ _ _ hlt, if_neg ha]

theorem Sheet.update_ok_of_cell {D : Type} {p : Ptr} {s : Sheet D} {c : Cell D}
    (f : Cell D → Cell D) (hnull : s.cell nullptr = none) (hc : s.cell p = some c) :
    ∃ s', s.update p f = .ok s' := by
  have hp : p ≠ nullptr := by
    intro h; rw [h, hnull] at hc; exact Option.noConfusion hc
  exact ⟨_, Sheet.update_eq_ok.mpr ⟨c, hp, hc, rfl⟩⟩

theorem unhookLoop_spec {D : Type} (this : Ptr) :
    ∀ (ps : List Ptr) (s : Sheet D), s.cell nullptr = none → (∀ p ∈ ps, s.cell p ≠ none) →
      ∃ s', unhookLoop this ps s = .ok s' ∧ Rewired this s s' ∧
        ∀ a, a ∉ ps → s'.cell a = s.cell a := by
  intro ps
  induction ps with
  | nil =>
    intro s _ _
    exact ⟨s, rfl, Rewired.refl _ _, fun _ _ => rfl⟩
  | cons p rest ih =>
    intro s hnull hlive
    obtain ⟨cp, hcp⟩ := Option.ne_none_iff_exists'.mp (hlive p (List.mem_cons_self _ _))
    obtain ⟨s1, hs1⟩ := Sheet.update_ok_of_cell
      (fun c => { c with dependent_cells := setErase this c.dependent_cells }) hnull hcp
    have hrw : Rewired this s s1 := by
      refine Rewired.of_update hs1 (fun _ c => ⟨rfl, rfl⟩) ?_ ?_
      · intro c d hd hne
        exact (mem_setErase_of_ne hne).mpr hd
      · intro c d hd
        exact Or.inr (mem_of_mem_setErase hd)
    obtain ⟨_, _, _, hother⟩ := Sheet.update_cell hs1
    have hlive1 : ∀ q ∈ rest, s1.cell q ≠ none := by
      intro q hq
      obtain ⟨cq, hcq⟩ := Option.ne_none_iff_exists'.mp (hlive q (List.mem_cons_of_mem _ hq))
      obtain ⟨c', hc', _⟩ := hrw.live q cq hcq
      rw [hc']; simp
    obtain ⟨s', hs', hrw', hsame⟩ := ih s1 (hrw.dead _ hnull) hlive1
    refine ⟨s', ?_, hrw.trans hrw', ?_⟩
    · simp only [unhookLoop, hs1, Result.bind_ok]
      exact hs'
    · intro a ha
      have h1 : a ≠ p := fun h => ha (h ▸ List.mem_cons_self _ _)
      have h2 : a ∉ rest := fun h => ha (List.mem_cons_of_mem _ h)
      rw [hsame a h2, hother a h1]

theorem Sheet.link_spec {D : Type} {s : Sheet D} {this p : Ptr} {c cp : Cell D}
    (hnull : s.cell nullptr = none) (hc : s.cell this = some c) (hcp : s.cell p = some cp)
    (hne : p ≠ this) :
    ∃ s', s.link this p = .ok s' ∧ Rewired this s s' ∧
      s'.cell this = some { c with precedent_cells := setInsert p c.precedent_cells } ∧
      s'.cell p = some { cp with dependent_cells := setInsert this cp.dependent_cells } ∧
      ∀ a, a ≠ this → a ≠ p → s'.cell a = s.cell a := by
  obtain ⟨s1, hs1⟩ := Sheet.update_ok_of_cell
    (fun c => { c with precedent_cells := setInsert p c.precedent_cells }) hnull hc
  have hrw1 : Rewired this s s1 :=
    Rewired.of_update hs1 (fun h => absurd rfl h) (fun _ _ hd _ => hd) (fun _ _ hd => Or.inr hd)
  obtain ⟨c0, hc0, hthis1, hother1⟩ := Sheet.update_cell hs1
  rw [hc] at hc0; cases hc0
  have hcp1 : s1.cell p = some cp := by rw [hother1 p hne]; exact hcp
  obtain ⟨s2, hs2⟩ := Sheet.update_ok_of_cell
    (fun c => { c with dependent_cells := setInsert this c.dependent_cells })
    (hrw1.dead _ hnull) hcp1
  have hrw2 : Rewired this s1 s2 := by
    refine Rewired.of_update hs2 (fun _ c => ⟨rfl, rfl⟩) ?_ ?_
    · intro c d hd _
      exact mem_setInsert.mpr (Or.inr hd)
    · intro c d hd
      exact mem_setInsert.mp hd
  obtain ⟨c1, hc1, hp2, hother2⟩ := Sheet.update_cell hs2
  rw [hcp1] at hc1; cases hc1
  refine ⟨s2, ?_, hrw1.trans hrw2, ?_, hp2, ?_⟩
  · simp only [Sheet.link, hs1, Result.bind_ok]
    exact hs2
  · rw [hother2 this (Ne.symm hne)]; exact hthis1
  · intro a h1 h2
    rw [hother2 a h2, hother1 a h1]

theorem hookLoop_spec {D : Type} (nested : Sheet D → Position → String → Outcome D)
    (this : Ptr) :
    ∀ (deps : List Position) (s : Sheet D) (c : Cell D), s.cell nullptr = none →
      s.cell this = some c →
      (∀ pos ∈ deps, ∃ p, s.GetConcreteCell pos = .ok p ∧ s.cell p ≠ none ∧ p ≠ this) →
      ∃ s' c', hookLoop nested this deps s = .ok s' ∧ Rewired this s s' ∧
        s'.cell this = some c' ∧ c'.impl_ = c.impl_ ∧
        c'.dependent_cells = c.dependent_cells ∧
        (∀ b, b ∈ c'.precedent_cells ↔
          b ∈ c.precedent_cells ∨ ∃ pos ∈ deps, s.GetConcreteCell pos = .ok b) ∧
        (∀ a ca, s.cell a = some ca → ∃ ca', s'.cell a = some ca' ∧
          ∀ d ∈ ca.dependent_cells, d ∈ ca'.dependent_cells) ∧
        (∀ pos ∈ deps, ∀ b, s.GetConcreteCell pos = .ok b →
          ∃ cb, s'.cell b = some cb ∧ this ∈ cb.dependent_cells) := by
  intro deps
  induction deps with
  | nil =>
    intro s c _ hc _
    exact ⟨s, c, rfl, Rewired.refl _ _, hc, rfl, rfl, by simp,
      fun a ca ha => ⟨ca, ha, fun _ hd => hd⟩, by simp⟩
  | cons pos rest ih =>
    intro s c hnull hc hres
    obtain ⟨p, hp, hplive, hpne⟩ := hres pos (List.mem_cons_self _ _)
    obtain ⟨cp, hcp⟩ := Option.ne_none_iff_exists'.mp hplive
    have hpnull : p ≠ nullptr := by
      intro h; rw [h, hnull] at hcp; exact Option.noConfusion hcp
    obtain ⟨s2, hlink, hrw, hthis2, hp2, hother2⟩ := Sheet.link_spec hnull hc hcp hpne
    have hgcc : ∀ q, s2.GetConcreteCell q = s.GetConcreteCell q :=
      Sheet.GetConcreteCell_congr hrw.table_eq
    have hres2 : ∀ q ∈ rest, ∃ p, s2.GetConcreteCell q = .ok p ∧ s2.cell p ≠ none ∧ p ≠ this := by
      intro q hq
      obtain ⟨b, hb, hblive, hbne⟩ := hres q (List.mem_cons_of_mem _ hq)
      obtain ⟨cb, hcb⟩ := Option.ne_none_iff_exists'.mp hblive
      obtain ⟨cb', hcb', _⟩ := hrw.live b cb hcb
      exact ⟨b, by rw [hgcc]; exact hb, by rw [hcb']; simp, hbne⟩
    obtain ⟨s', c', hs', hrw', hthis', himpl, hdep, hprec, hgrow, htarget⟩ :=
      ih s2 _ (hrw.dead _ hnull) hthis2 hres2
    have hgrow2 : ∀ a ca, s.cell a = some ca → ∃ ca', s2.cell a = some ca' ∧
        ∀ d ∈ ca.dependent_cells, d ∈ ca'.dependent_cells := by
      intro a ca ha
      by_cases h1 : a = this
      · subst h1
        rw [hc] at ha; cases ha
        exact ⟨_, hthis2, fun _ hd => hd⟩
      · by_cases h2 : a = p
        · subst h2
          rw [hcp] at ha; cases ha
          exact ⟨_, hp2, fun d hd => mem_setInsert.mpr (Or.inr hd)⟩
        · exact ⟨ca, by rw [hother2 a h1 h2]; exact ha, fun _ hd => hd⟩
    refine ⟨s', c', ?_, hrw.trans hrw', hthis', himpl, hdep, ?_, ?_, ?_⟩
    · simp only [hookLoop, hp, if_neg hpnull, hlink]
      exact hs'
    · intro b
      rw [hprec b]
      simp only [mem_setInsert, List.mem_cons, exists_eq_or_imp, hgcc]
      constructor
      · rintro ((rfl | h) | h)
        · exact Or.inr (Or.inl hp)
        · exact Or.inl h
        · exact Or.inr (Or.inr h)
      · rintro (h | h | h)
        · exact Or.inl (Or.inr h)
        · rw [hp] at h; cases h; exact Or.inl (Or.inl rfl)
        · exact Or.inr h
    · intro a ca ha
      obtain ⟨ca2, hca2, hsub2⟩ := hgrow2 a ca ha
      obtain ⟨ca', hca', hsub'⟩ := hgrow a ca2 hca2
      exact ⟨ca', hca', fun d hd => hsub' d (hsub2 d hd)⟩
    · intro q hq b hb
      rcases List.mem_cons.mp hq with rfl | hq
      · rw [hp] at hb; cases hb
        obtain ⟨cb', hcb', hsub⟩ := hgrow p _ hp2
        exact ⟨cb', hcb', hsub this (mem_setInsert.mpr (Or.inl rfl))⟩
      · exact htarget q hq b (by rw [hgcc]; exact hb)

/-! ## `Cell::Set` and `Sheet::SetCell` on a sheet that satisfies the invariant -/

theorem Rewired.live_inv {D : Type} {this : Ptr} {s s' : Sheet D} (h : Rewired this s s')
    {a : Ptr} {c' : Cell D} (hc' : s'.cell a = some c') :
    ∃ c, s.cell a = some c ∧
      (a ≠ this → c'.impl_ = c.impl_ ∧ c'.precedent_cells = c.precedent_cells) ∧
      (∀ d ∈ c.dependent_cells, d ≠ this → d ∈ c'.dependent_cells) ∧
      (∀ d ∈ c'.dependent_cells, d = this ∨ d ∈ c.dependent_cells) := by
  cases hc : s.cell a with
  | none => rw [h.dead a hc] at hc'; exact Option.noConfusion hc'
  | some c =>
    obtain ⟨c'', hc'', e⟩ := h.live a c hc
    rw [hc'] at hc''; cases hc''
    exact ⟨c, rfl, e⟩

theorem Rewired.live_iff {D : Type} {this : Ptr} {s s' : Sheet D} (h : Rewired this s s')
    (a : Ptr) : s'.cell a = none ↔ s.cell a = none := by
  constructor
  · intro h'
    cases hc : s.cell a with
    | none => rfl
    | some c =>
      obtain ⟨c', hc', _⟩ := h.live a c hc
      rw [h'] at hc'; exact Option.noConfusion hc'
  · exact h.dead a

theorem heap_zero_of_cell {D : Type} {s : Sheet D} (hlen : 0 < s.heap.length)
    (h : s.cell nullptr = none) : s.heap[0]? = some none := by
  unfold Sheet.cell nullptr at h
  rw [List.getD_eq_getElem?_getD, List.getElem?_eq_getElem hlen] at h
  rw [List.getElem?_eq_getElem hlen]
  simpa using h

theorem invalidateLoop_noCache {D : Type} (recur : Sheet D → Ptr → Result (Sheet D))
    (s : Sheet D) (hnull : s.cell nullptr = none)
    (hnc : ∀ a c, s.cell a = some c → c.impl_.HasCache = false) :
    ∀ l : List Ptr,
      ((∀ d ∈ l, s.cell d ≠ none) → invalidateLoop recur l s = .ok s) ∧
      ((∃ d ∈ l, s.cell d = none) → ∃ f, invalidateLoop recur l s = .undefined f) := by
  intro l
  induction l with
  | nil => exact ⟨fun _ => rfl, fun ⟨d, hd, _⟩ => by simp at hd⟩
  | cons d rest ih =>
    cases hd : s.cell d with
    | none =>
      have hfault : ∃ f, s.deref d = .undefined f := by
        unfold Sheet.deref
        by_cases h0 : d = nullptr
        · exact ⟨_, by rw [if_pos h0]⟩
        · rw [if_neg h0]
          have := hd
          unfold Sheet.cell at this
          rw [List.getD_eq_getElem?_getD] at this
          cases hh : s.heap[d]? with
          | none => exact ⟨_, rfl⟩
          | some x =>
            rw [hh] at this
            simp only [Option.getD_some] at this
            subst this
            exact ⟨_, rfl⟩
      obtain ⟨f, hf⟩ := hfault
      constructor
      · intro h
        exact absurd hd (h d (List.mem_cons_self _ _))
      · intro _
        exact ⟨f, by simp only [invalidateLoop, hf, Result.bind]⟩
    | some c =>
      have hp : d ≠ nullptr := by
        intro h; rw [h, hnull] at hd; exact Option.noConfusion hd
      have hderef : s.deref d = .ok c := Sheet.deref_eq_ok.mpr ⟨hp, hd⟩
      have hcache : c.impl_.HasCache = false := hnc d c hd
      have hstep : invalidateLoop recur (d :: rest) s = invalidateLoop recur rest s := by
        simp only [invalidateLoop, hderef, Result.bind_ok, hcache, Bool.false_eq_true, if_false]
      rw [hstep]
      constructor
      · intro h
        exact ih.1 (fun d' hd' => h d' (List.mem_cons_of_mem _ hd'))
      · rintro ⟨d', hd', hnone⟩
        rcases List.mem_cons.mp hd' with rfl | hd'
        · rw [hd] at hnone; exact Option.noConfusion hnone
        · exact ih.2 ⟨d', hd', hnone⟩

theorem InvalidateCache_noCache {D : Type} {s : Sheet D} {this : Ptr} {c : Cell D}
    (hnull : s.cell nullptr = none)
    (hnc : ∀ a c, s.cell a = some c → c.impl_.HasCache = false)
    (hc : s.cell this = some c) :
    ((∀ d ∈ c.dependent_cells, s.cell d ≠ none) → Cell.InvalidateCache s this = .ok s) ∧
    ((∃ d ∈ c.dependent_cells, s.cell d = none) →
      ∃ f, Cell.InvalidateCache s this = .undefined f) := by
  have hp : this ≠ nullptr := by
    intro h; rw [h, hnull] at hc; exact Option.noConfusion hc
  have hderef : s.deref this = .ok c := Sheet.deref_eq_ok.mpr ⟨hp, hc⟩
  have hloop := invalidateLoop_noCache (Cell.InvalidateCacheFuel s.heap.length) s hnull hnc
    c.dependent_cells
  unfold Cell.InvalidateCache
  simp only [Cell.InvalidateCacheFuel, hderef, Result.bind_ok]
  cases hdep : c.dependent_cells with
  | nil =>
    constructor
    · intro _; rfl
    · rintro ⟨d, hd, _⟩; simp at hd
  | cons d rest =>
    rw [hdep] at hloop
    simpa using hloop

theorem acyclic_add_edges {α : Type} {R R' : α → α → Prop} {x : α} {P : α → Prop}
    (hR : ∀ a, ¬ Relation.TransGen R a a)
    (hP : ∀ p, P p → ¬ Relation.ReflTransGen R p x)
    (hsub : ∀ a b, R' a b → R a b ∨ (a = x ∧ P b)) :
    ∀ a, ¬ Relation.TransGen R' a a := by
  have key : ∀ a b, Relation.TransGen R' a b →
      Relation.TransGen R a b ∨
        (Relation.ReflTransGen R a x ∧ ∃ p, P p ∧ Relation.ReflTransGen R p b) := by
    intro a b h
    induction h with
    | single hab =>
      rcases hsub _ _ hab with h | ⟨rfl, hp⟩
      · exact Or.inl (Relation.TransGen.single h)
      · exact Or.inr ⟨Relation.ReflTransGen.refl, _, hp, Relation.ReflTransGen.refl⟩
    | tail _ hbc ih =>
      rcases hsub _ _ hbc with h | ⟨rfl, hp⟩
      · rcases ih with ih | ⟨h1, p, hp, h2⟩
        · exact Or.inl (Relation.TransGen.tail ih h)
        · exact Or.inr ⟨h1, p, hp, Relation.ReflTransGen.tail h2 h⟩
      · rcases ih with ih | ⟨h1, _⟩
        · exact Or.inr ⟨ih.to_reflTransGen, _, hp, Relation.ReflTransGen.refl⟩
        · exact Or.inr ⟨h1, _, hp, Relation.ReflTransGen.refl⟩
  intro a ha
  rcases key a a ha with h | ⟨h1, p, hp, h2⟩
  · exact hR a h
  · exact hP p hp (h2.trans h1)

/-- The content that `Cell::Set` is about to store has no cached value, and its
references passed the circularity check. -/
theorem Cell.chooseImpl_ok {D : Type} {env : Env D} {s : Sheet D} {this : Ptr} {text : String}
    {impl : Impl D} (h : Cell.chooseImpl env s this text = .ok impl) :
    impl.HasCache = false ∧
    ∀ pos ∈ impl.GetDependencies, ∃ p, s.GetConcreteCell pos = .ok p ∧ s.cell p ≠ none ∧
      p ≠ this ∧ ¬ Relation.ReflTransGen (Edge s) p this := by
  unfold Cell.chooseImpl at h
  split at h
  · cases h
    exact ⟨rfl, by simp [Impl.GetDependencies]⟩
  · split at h
    · split at h
      · cases h
      · rename_i ast _
        obtain ⟨b, hb, h⟩ := Result.bind_eq_ok h
        cases b with
        | true => simp at h
        | false =>
          simp only [Bool.false_eq_true, if_false, Result.ok.injEq] at h
          subst h
          exact ⟨rfl, WillCauseCircularDependency_false hb⟩
    · cases h
      exact ⟨rfl, by simp [Impl.GetDependencies]⟩

/-- The complete behaviour of `Cell::Set` on a sheet that satisfies the invariant. An
exception comes from the choice of the content alone and leaves the sheet as it is.
Otherwise the sheet `s4` is built, in which the cell at `this` has the new content, its
old dependents and the referenced cells as precedents; the call returns `s4` when all
dependents of the cell are alive and is undefined when one has been destroyed. -/
theorem Cell.Set_spec {D : Type} (env : Env D) (nested : Sheet D → Position → String → Outcome D)
    {s : Sheet D} (hwf : WF s) {this : Ptr} {c0 : Cell D} (hc0 : s.cell this = some c0)
    (text : String) :
    (∃ e, Cell.chooseImpl env s this text = .thrown e ∧
      Cell.Set env nested s this text = .thrown e s) ∨
    (∃ f, Cell.chooseImpl env s this text = .undefined f ∧
      Cell.Set env nested s this text = .undefined f) ∨
    (∃ impl s4 c4, Cell.chooseImpl env s this text = .ok impl ∧ WF s4 ∧ Rewired this s s4 ∧
      s4.cell this = some c4 ∧ c4.impl_ = impl ∧
      c4.dependent_cells = c0.dependent_cells ∧
      (∀ b, b ∈ c4.precedent_cells ↔
        ∃ pos ∈ impl.GetDependencies, s.GetConcreteCell pos = .ok b) ∧
      ((∀ d ∈ c0.dependent_cells, s.cell d ≠ none) →
        Cell.Set env nested s this text = .ok s4) ∧
      ((∃ d ∈ c0.dependent_cells, s.cell d = none) →
        ∃ f, Cell.Set env nested s this text = .undefined f)) := by
  cases hch : Cell.chooseImpl env s this text with
  | thrown e =>
    left
    exact ⟨e, rfl, by simp only [Cell.Set, hch]⟩
  | undefined f =>
    right; left
    exact ⟨f, rfl, by simp only [Cell.Set, hch]⟩
  | ok impl =>
    right; right
    obtain ⟨hcache, hdeps⟩ := Cell.chooseImpl_ok hch
    have hnull := hwf.cell_null
    have hderef : s.deref this = .ok c0 := hwf.deref_ok_iff.mpr hc0
    -- the content is stored
    obtain ⟨s1, hs1⟩ := Sheet.update_ok_of_cell (fun c => { c with impl_ := impl }) hnull hc0
    have hrw1 : Rewired this s s1 :=
      Rewired.of_update hs1 (fun h => absurd rfl h) (fun _ _ hd _ => hd) (fun _ _ hd => Or.inr hd)
    obtain ⟨c0', hc0', hthis1, hother1⟩ := Sheet.update_cell hs1
    rw [hc0] at hc0'; cases hc0'
    -- the old precedents forget the cell
    have hnotself : this ∉ c0.precedent_cells := fun h =>
      hwf.acyclic this (Relation.TransGen.single ⟨c0, hc0, h⟩)
    have hlive1 : ∀ p ∈ c0.precedent_cells, s1.cell p ≠ none := by
      intro p hp
      obtain ⟨cp, hcp, _⟩ := hwf.prec_live this c0 p hc0 hp
      rw [Ne, hrw1.live_iff, hcp]; simp
    obtain ⟨s2, hs2, hrw2, hsame2⟩ := unhookLoop_spec this c0.precedent_cells s1
      (hrw1.dead _ hnull) hlive1
    have hthis2 : s2.cell this = some { c0 with impl_ := impl } := by
      rw [hsame2 this hnotself]; exact hthis1
    -- the precedents are cleared
    obtain ⟨s3, hs3⟩ := Sheet.update_ok_of_cell (fun c => { c with precedent_cells := [] })
      ((hrw1.trans hrw2).dead _ hnull) hthis2
    have hrw3 : Rewired this s2 s3 :=
      Rewired.of_update hs3 (fun h => absurd rfl h) (fun _ _ hd _ => hd) (fun _ _ hd => Or.inr hd)
    obtain ⟨c2', hc2', hthis3, _⟩ := Sheet.update_cell hs3
    rw [hthis2] at hc2'; cases hc2'
    have hrw03 : Rewired this s s3 := (hrw1.trans hrw2).trans hrw3
    have hgcc3 : ∀ q, s3.GetConcreteCell q = s.GetConcreteCell q :=
      Sheet.GetConcreteCell_congr hrw03.table_eq
    -- the referenced cells are linked
    have hres3 : ∀ pos ∈ impl.GetDependencies,
        ∃ p, s3.GetConcreteCell pos = .ok p ∧ s3.cell p ≠ none ∧ p ≠ this := by
      intro pos hpos
      obtain ⟨p, hp, hplive, hpne, _⟩ := hdeps pos hpos
      exact ⟨p, by rw [hgcc3]; exact hp, by rw [Ne, hrw03.live_iff]; exact hplive, hpne⟩
    obtain ⟨s4, c4, hs4, hrw4, hthis4, himpl4, hdep4, hprec4, _, htarget4⟩ :=
      hookLoop_spec nested this impl.GetDependencies s3 _ (hrw03.dead _ hnull) hthis3 hres3
    have hrw : Rewired this s s4 := hrw03.trans hrw4
    have hprec : ∀ b, b ∈ c4.precedent_cells ↔
        ∃ pos ∈ impl.GetDependencies, s.GetConcreteCell pos = .ok b := by
      intro b
      rw [hprec4 b]
      simp only [List.not_mem_nil, false_or, hgcc3]
    have hnull4 : s4.cell nullptr = none := hrw.dead _ hnull
    have hwf4 : WF s4 := by
      refine ⟨?_, ?_, ?_, ?_, ?_, ?_, ?_, by rw [hrw.table_eq]; exact hwf.bounded⟩
      · exact heap_zero_of_cell (by rw [hrw.length_eq]; exact hwf.heap_pos) hnull4
      · rw [hrw.table_eq]; exact hwf.rect
      · intro r c h
        rw [hrw.table_eq] at h ⊢
        obtain ⟨cell, hcell⟩ := hwf.owned r c h
        obtain ⟨c', hc', _⟩ := hrw.live _ cell hcell
        exact ⟨c', hc'⟩
      · intro r c r' c' h heq
        rw [hrw.table_eq] at h heq
        exact hwf.unique r c r' c' h heq
      · intro a ca b hca hb
        by_cases ha : a = this
        · subst ha
          rw [hthis4] at hca; cases hca
          obtain ⟨pos, hpos, hgb⟩ := (hprec b).mp hb
          exact htarget4 pos hpos b (by rw [hgcc3]; exact hgb)
        · obtain ⟨ca0, hca0, e1, _, _⟩ := hrw.live_inv hca
          rw [(e1 ha).2] at hb
          obtain ⟨cb0, hcb0, hmem⟩ := hwf.prec_live a ca0 b hca0 hb
          obtain ⟨cb, hcb, _, e2, _⟩ := hrw.live b cb0 hcb0
          exact ⟨cb, hcb, e2 a hmem ha⟩
      · intro a ca hca
        by_cases ha : a = this
        · subst ha
          rw [hthis4] at hca; cases hca
          rw [himpl4]; exact hcache
        · obtain ⟨ca0, hca0, e1, _, _⟩ := hrw.live_inv hca
          rw [(e1 ha).1]
          exact hwf.no_cache a ca0 hca0
      · apply acyclic_add_edges (x := this)
          (P := fun b => ∃ pos ∈ impl.GetDependencies, s.GetConcreteCell pos = .ok b)
          hwf.acyclic
        · rintro p ⟨pos, hpos, hgp⟩
          obtain ⟨p', hp', _, _, hnr⟩ := hdeps pos hpos
          rw [hgp] at hp'; cases hp'
          exact hnr
        · rintro a b ⟨ca, hca, hb⟩
          by_cases ha : a = this
          · subst ha
            rw [hthis4] at hca; cases hca
            exact Or.inr ⟨rfl, (hprec b).mp hb⟩
          · obtain ⟨ca0, hca0, e1, _, _⟩ := hrw.live_inv hca
            rw [(e1 ha).2] at hb
            exact Or.inl ⟨ca0, hca0, hb⟩
    have hstage : Cell.Set env nested s this text =
        match Cell.InvalidateCache s4 this with
        | .thrown e => .thrown e s4
        | .undefined f => .undefined f
        | .ok s5 => .ok s5 := by
      simp only [Cell.Set, hch, hderef, Result.bind_ok, hs1, hs2, hs3, hs4]
    have hinv := InvalidateCache_noCache hnull4 hwf4.no_cache hthis4
    have hdep0 : c4.dependent_cells = c0.dependent_cells := hdep4
    refine ⟨impl, s4, c4, rfl, hwf4, hrw, hthis4, himpl4, hdep0, hprec, ?_, ?_⟩
    · intro hlive
      rw [hstage, hinv.1 (by
        intro d hd
        rw [hdep0] at hd
        rw [Ne, hrw.live_iff]; exact hlive d hd)]
    · rintro ⟨d, hd, hnone⟩
      obtain ⟨f, hf⟩ := hinv.2 ⟨d, by rw [hdep0]; exact hd, (hrw.live_iff d).mpr hnone⟩
      exact ⟨f, by rw [hstage, hf]⟩

/-! ## `SetCell` and `ClearCell` keep the invariant -/

/-- On a sheet that satisfies the invariant, `SetCell` at an invalid position throws and
changes nothing; at a valid position it creates the cell if needed and then is
`Cell::Set` on that cell. -/
theorem Sheet.SetCell_eq {D : Type} (env : Env D) {s : Sheet D} (hwf : WF s) (pos : Position)
    (text : String) :
    (pos.IsValid = false ∧
      Sheet.SetCell env s pos text = .thrown .InvalidPositionException s) ∨
    (pos.IsValid = true ∧ ∃ s1 this c0, s.materialize pos = .ok (s1, this) ∧
      s1.cell this = some c0 ∧
      Sheet.SetCell env s pos text = Cell.Set env (Sheet.SetCellFuel env 1) s1 this text) := by
  cases hv : pos.IsValid with
  | false =>
    left
    exact ⟨rfl, by simp [Sheet.SetCell, Sheet.SetCellFuel, hv]⟩
  | true =>
    right
    obtain ⟨s1, this, hm, _, hlive, _⟩ := Sheet.materialize_spec hwf hv
    obtain ⟨c0, hc0⟩ := Option.ne_none_iff_exists'.mp hlive
    refine ⟨rfl, s1, this, c0, hm, hc0, ?_⟩
    simp [Sheet.SetCell, Sheet.SetCellFuel, hv, hm]

theorem WF.materialize {D : Type} {s s1 : Sheet D} (hwf : WF s) {pos : Position} {this : Ptr}
    (hv : pos.IsValid = true) (h : s.materialize pos = .ok (s1, this)) : WF s1 := by
  obtain ⟨s1', this', hm, hwf1, _⟩ := Sheet.materialize_spec hwf hv
  rw [h] at hm
  cases hm
  exact hwf1

theorem WF.setCell_ok {D : Type} {env : Env D} {s s' : Sheet D} (hwf : WF s) {pos : Position}
    {text : String} (h : Sheet.SetCell env s pos text = .ok s') : WF s' := by
  rcases Sheet.SetCell_eq env hwf pos text with ⟨_, h1⟩ | ⟨hv, s1, this, c0, hm, hc0, h1⟩
  · rw [h1] at h; cases h
  · rw [h1] at h
    rcases Cell.Set_spec env (Sheet.SetCellFuel env 1) (hwf.materialize hv hm) hc0 text with
      ⟨e, _, h2⟩ | ⟨f, _, h2⟩ | ⟨impl, s4, c4, _, hwf4, _, _, _, _, _, hok, hub⟩
    · rw [h2] at h; cases h
    · rw [h2] at h; cases h
    · by_cases hlive : ∀ d ∈ c0.dependent_cells, s1.cell d ≠ none
      · rw [hok hlive] at h; cases h; exact hwf4
      · have : ∃ d ∈ c0.dependent_cells, s1.cell d = none := by
          by_contra hcon
          exact hlive fun d hd hnone => hcon ⟨d, hd, hnone⟩
        obtain ⟨f, hf⟩ := hub this
        rw [hf] at h; cases h

theorem Sheet.SetCell_thrown {D : Type} {env : Env D} {s s' : Sheet D} (hwf : WF s)
    {pos : Position} {text : String} {e : Exception}
    (h : Sheet.SetCell env s pos text = .thrown e s') :
    (pos.IsValid = false ∧ e = .InvalidPositionException ∧ s' = s) ∨
    (pos.IsValid = true ∧ ∃ this, s.materialize pos = .ok (s', this) ∧
      Cell.chooseImpl env s' this text = .thrown e) := by
  rcases Sheet.SetCell_eq env hwf pos text with ⟨hv, h1⟩ | ⟨hv, s1, this, c0, hm, hc0, h1⟩
  · rw [h1] at h; cases h
    exact Or.inl ⟨hv, rfl, rfl⟩
  · rw [h1] at h
    right
    rcases Cell.Set_spec env (Sheet.SetCellFuel env 1) (hwf.materialize hv hm) hc0 text with
      ⟨e', hch, h2⟩ | ⟨f, _, h2⟩ | ⟨impl, s4, c4, _, hwf4, _, _, _, _, _, hok, hub⟩
    · rw [h2] at h; cases h
      exact ⟨hv, this, hm, hch⟩
    · rw [h2] at h; cases h
    · by_cases hlive : ∀ d ∈ c0.dependent_cells, s1.cell d ≠ none
      · rw [hok hlive] at h; cases h
      · have : ∃ d ∈ c0.dependent_cells, s1.cell d = none := by
          by_contra hcon
          exact hlive fun d hd hnone => hcon ⟨d, hd, hnone⟩
        obtain ⟨f, hf⟩ := hub this
        rw [hf] at h; cases h

theorem WF.setCell_thrown {D : Type} {env : Env D} {s s' : Sheet D} (hwf : WF s)
    {pos : Position} {text : String} {e : Exception}
    (h : Sheet.SetCell env s pos text = .thrown e s') : WF s' := by
  rcases Sheet.SetCell_thrown hwf h with ⟨_, _, rfl⟩ | ⟨hv, this, hm, _⟩
  · exact hwf
  · exact hwf.materialize hv hm

theorem slot_ne_null_bounds {t : List (List Ptr)} {r c : Nat} (h : slot t r c ≠ nullptr) :
    r < t.length ∧ c < (t.getD r []).length := by
  unfold slot at h
  simp only [List.getD_eq_getElem?_getD] at h ⊢
  by_cases hr : r < t.length
  · refine ⟨hr, ?_⟩
    by_contra hc
    apply h
    rw [List.getElem?_eq_none (l := t[r]?.getD []) (by omega)]
    rfl
  · exfalso
    apply h
    rw [List.getElem?_eq_none (l := t) (by omega)]
    rfl

/-- The four cases of `ClearCell` on a sheet that satisfies the invariant. -/
theorem Sheet.ClearCell_spec {D : Type} {s : Sheet D} (hwf : WF s) (pos : Position) :
    (pos.IsValid = false ∧ s.ClearCell pos = .thrown .InvalidPositionException s) ∨
    (pos.IsValid = true ∧ slot s.table_ pos.row.toNat pos.col.toNat = nullptr ∧
      s.ClearCell pos = .ok s) ∨
    (pos.IsValid = true ∧ ∃ c, slot s.table_ pos.row.toNat pos.col.toNat ≠ nullptr ∧
      s.cell (slot s.table_ pos.row.toNat pos.col.toNat) = some c ∧ c.dependent_cells ≠ [] ∧
      s.ClearCell pos = .ok (Sheet.mk s.table_
        (s.heap.set (slot s.table_ pos.row.toNat pos.col.toNat)
          (some { c with impl_ := .EmptyImpl })))) ∨
    (pos.IsValid = true ∧ ∃ c, slot s.table_ pos.row.toNat pos.col.toNat ≠ nullptr ∧
      s.cell (slot s.table_ pos.row.toNat pos.col.toNat) = some c ∧ c.dependent_cells = [] ∧
      s.ClearCell pos = .ok (Sheet.mk (setSlot s.table_ pos.row.toNat pos.col.toNat nullptr)
        (s.heap.set (slot s.table_ pos.row.toNat pos.col.toNat) none))) := by
  cases hv : pos.IsValid with
  | false =>
    left
    exact ⟨rfl, by simp only [Sheet.ClearCell, Sheet.GetConcreteCell_invalid hv]⟩
  | true =>
    right
    have hg := hwf.GetConcreteCell (s := s) hv
    by_cases hp : slot s.table_ pos.row.toNat pos.col.toNat = nullptr
    · left
      refine ⟨rfl, hp, ?_⟩
      simp only [Sheet.ClearCell, hg, hp, if_true]
    · right
      obtain ⟨c, hc⟩ := hwf.owned _ _ hp
      have hderef := hwf.deref_ok_iff.mpr hc
      cases hdep : c.dependent_cells with
      | nil =>
        right
        refine ⟨rfl, c, hp, hc, hdep, ?_⟩
        simp [Sheet.ClearCell, hg, hp, hderef, Cell.HasDependentCells, hdep]
      | cons d rest =>
        left
        refine ⟨rfl, c, hp, hc, by rw [hdep]; simp, ?_⟩
        simp [Sheet.ClearCell, hg, hp, hderef, Cell.HasDependentCells, hdep]

theorem WF.clear_in_place {D : Type} {s : Sheet D} (hwf : WF s) {p : Ptr} {c : Cell D}
    (hc : s.cell p = some c) :
    WF (Sheet.mk s.table_ (s.heap.set p (some { c with impl_ := .EmptyImpl }))) := by
  have hlt := Sheet.lt_of_cell hc
  have hp := hwf.ne_null hc
  have hcell : ∀ a, (Sheet.mk s.table_ (s.heap.set p (some { c with impl_ := .EmptyImpl }))).cell a
      = if a = p then some { c with impl_ := .EmptyImpl } else s.cell a :=
    fun a => Sheet.cell_set s p a _ hlt
  refine ⟨?_, hwf.rect, ?_, hwf.unique, ?_, ?_, ?_, hwf.bounded⟩
  · show (s.heap.set p _)[0]? = some none
    rw [List.getElem?_set_ne (show _ ≠ 0 from hp)]
    exact hwf.null_free
  · intro r cc h
    show ∃ cell, Sheet.cell _ (slot s.table_ r cc) = some cell
    rw [hcell]
    split
    · exact ⟨_, rfl⟩
    · exact hwf.owned r cc h
  · intro a ca b hca hb
    rw [hcell] at hca
    have hab : ∃ ca0, s.cell a = some ca0 ∧ ca.precedent_cells = ca0.precedent_cells := by
      by_cases ha : a = p
      · rw [if_pos ha] at hca; cases hca
        exact ⟨c, ha ▸ hc, rfl⟩
      · rw [if_neg ha] at hca
        exact ⟨ca, hca, rfl⟩
    obtain ⟨ca0, hca0, hprec⟩ := hab
    rw [hprec] at hb
    obtain ⟨cb, hcb, hmem⟩ := hwf.prec_live a ca0 b hca0 hb
    rw [hcell]
    by_cases hbp : b = p
    · rw [if_pos hbp]
      rw [hbp, hc] at hcb; cases hcb
      exact ⟨_, rfl, hmem⟩
    · rw [if_neg hbp]
      exact ⟨cb, hcb, hmem⟩
  · intro a ca hca
    rw [hcell] at hca
    by_cases ha : a = p
    · rw [if_pos ha] at hca; cases hca; rfl
    · rw [if_neg ha] at hca
      exact hwf.no_cache a ca hca
  · apply acyclic_mono _ hwf.acyclic
    rintro a b ⟨ca, hca, hb⟩
    rw [hcell] at hca
    by_cases ha : a = p
    · rw [if_pos ha] at hca; cases hca
      exact ⟨c, ha ▸ hc, hb⟩
    · rw [if_neg ha] at hca
      exact ⟨ca, hca, hb⟩

theorem WF.vacate {D : Type} {s : Sheet D} (hwf : WF s) {r0 c0 : Nat} {c : Cell D}
    (hp : slot s.table_ r0 c0 ≠ nullptr) (hc : s.cell (slot s.table_ r0 c0) = some c)
    (hdep : c.dependent_cells = []) :
    WF (Sheet.mk (setSlot s.table_ r0 c0 nullptr) (s.heap.set (slot s.table_ r0 c0) none)) := by
  have hlt := Sheet.lt_of_cell hc
  obtain ⟨hr, hcol⟩ := slot_ne_null_bounds hp
  have hcell : ∀ a, (Sheet.mk (setSlot s.table_ r0 c0 nullptr)
      (s.heap.set (slot s.table_ r0 c0) none)).cell a =
      if a = slot s.table_ r0 c0 then none else s.cell a :=
    fun a => Sheet.cell_set ⟨setSlot s.table_ r0 c0 nullptr, s.heap⟩ _ a _ hlt
  have hslot : ∀ r cc, slot (setSlot s.table_ r0 c0 nullptr) r cc =
      if r = r0 ∧ cc = c0 then nullptr else slot s.table_ r cc :=
    fun r cc => setSlot_slot _ hr hcol r cc
  refine ⟨?_, setSlot_rect hwf.rect _ _ _, ?_, ?_, ?_, ?_, ?_, ?_⟩
  · show (s.heap.set _ _)[0]? = some none
    rw [List.getElem?_set_ne (show _ ≠ 0 from hp)]
    exact hwf.null_free
  · intro r cc h
    show ∃ cell, Sheet.cell _ (slot (setSlot s.table_ r0 c0 nullptr) r cc) = some cell
    have h' : slot (setSlot s.table_ r0 c0 nullptr) r cc ≠ nullptr := h
    rw [hslot] at h' ⊢
    by_cases hrc : r = r0 ∧ cc = c0
    · rw [if_pos hrc] at h'; exact absurd rfl h'
    · rw [if_neg hrc] at h' ⊢
      rw [hcell]
      have hne : slot s.table_ r cc ≠ slot s.table_ r0 c0 := fun heq =>
        hrc (hwf.unique r cc r0 c0 h' heq)
      rw [if_neg hne]
      exact hwf.owned r cc h'
  · intro r cc r' cc' h heq
    have h' : slot (setSlot s.table_ r0 c0 nullptr) r cc ≠ nullptr := h
    have heq' : slot (setSlot s.table_ r0 c0 nullptr) r cc =
        slot (setSlot s.table_ r0 c0 nullptr) r' cc' := heq
    rw [hslot] at h'
    rw [hslot, hslot] at heq'
    by_cases h1 : r = r0 ∧ cc = c0
    · rw [if_pos h1] at h'; exact absurd rfl h'
    · rw [if_neg h1] at h' heq'
      by_cases h2 : r' = r0 ∧ cc' = c0
      · rw [if_pos h2] at heq'; exact absurd heq' h'
      · rw [if_neg h2] at heq'
        exact hwf.unique r cc r' cc' h' heq'
  · intro a ca b hca hb
    rw [hcell] at hca
    by_cases ha : a = slot s.table_ r0 c0
    · rw [if_pos ha] at hca; cases hca
    · rw [if_neg ha] at hca
      obtain ⟨cb, hcb, hmem⟩ := hwf.prec_live a ca b hca hb
      have hbne : b ≠ slot s.table_ r0 c0 := by
        intro hb'
        rw [hb', hc] at hcb; cases hcb
        rw [hdep] at hmem
        simp at hmem
      exact ⟨cb, by rw [hcell, if_neg hbne]; exact hcb, hmem⟩
  · intro a ca hca
    rw [hcell] at hca
    by_cases ha : a = slot s.table_ r0 c0
    · rw [if_pos ha] at hca; cases hca
    · rw [if_neg ha] at hca
      exact hwf.no_cache a ca hca
  · apply acyclic_mono _ hwf.acyclic
    rintro a b ⟨ca, hca, hb⟩
    rw [hcell] at hca
    by_cases ha : a = slot s.table_ r0 c0
    · rw [if_pos ha] at hca; cases hca
    · rw [if_neg ha] at hca
      exact ⟨ca, hca, hb⟩
  · show ((setSlot _ _ _ _).length : Int) ≤ _ ∧ (width (setSlot _ _ _ _) : Int) ≤ _
    rw [setSlot_length, setSlot_width]
    exact hwf.bounded

theorem WF.clearCell_ok {D : Type} {s s' : Sheet D} (hwf : WF s) {pos : Position}
    (h : s.ClearCell pos = .ok s') : WF s' := by
  rcases Sheet.ClearCell_spec hwf pos with ⟨_, h1⟩ | ⟨_, _, h1⟩ | ⟨_, c, _, hc, _, h1⟩ |
      ⟨_, c, hp, hc, hdep, h1⟩
  · rw [h1] at h; cases h
  · rw [h1] at h; cases h; exact hwf
  · rw [h1] at h; cases h; exact hwf.clear_in_place hc
  · rw [h1] at h; cases h; exact hwf.vacate hp hc hdep

theorem Sheet.ClearCell_thrown {D : Type} {s s' : Sheet D} (hwf : WF s) {pos : Position}
    {e : Exception} (h : s.ClearCell pos = .thrown e s') :
    pos.IsValid = false ∧ e = .InvalidPositionException ∧ s' = s := by
  rcases Sheet.ClearCell_spec hwf pos with ⟨hv, h1⟩ | ⟨_, _, h1⟩ | ⟨_, c, _, hc, _, h1⟩ |
      ⟨_, c, hp, hc, hdep, h1⟩
  · rw [h1] at h; cases h; exact ⟨hv, rfl, rfl⟩
  · rw [h1] at h; cases h
  · rw [h1] at h; cases h
  · rw [h1] at h; cases h

/-- Every reachable sheet satisfies the invariant. -/
theorem Reachable.wf {D : Type} {env : Env D} {s : Sheet D} (h : Reachable env s) : WF s := by
  induction h with
  | empty => exact WF_empty
  | setCell_ok pos text _ hstep ih => exact ih.setCell_ok hstep
  | setCell_thrown pos text e _ hstep ih => exact ih.setCell_thrown hstep
  | clearCell_ok pos _ hstep ih => exact ih.clearCell_ok hstep
  | clearCell_thrown pos e _ hstep ih =>
    obtain ⟨_, _, rfl⟩ := Sheet.ClearCell_thrown ih hstep
    exact ih

/-! ## Example sheets -/

theorem Example.reachable_sheetA : Reachable Example.env Example.sheetA :=
  Reachable.setCell_ok Example.A1 "1" Reachable.empty rfl

theorem Example.reachable_sheetAB : Reachable Example.env Example.sheetAB :=
  Reachable.setCell_ok Example.B1 "=A1" Example.reachable_sheetA rfl

theorem Example.reachable_sheetDangling : Reachable Example.env Example.sheetDangling :=
  Reachable.clearCell_ok Example.B1 Example.reachable_sheetAB rfl

/-! ## Failed writes -/

theorem growTable_eq_self {t : List (List Ptr)} (ht : Rect t) {pos : Position}
    (hr : pos.row.toNat < t.length) (hc : pos.col.toNat < width t) : growTable t pos = t := by
  rw [growTable_eq_pad t pos ht]
  have h1 : max t.length (pos.row.toNat + 1) = t.length := max_eq_left (by omega)
  have h2 : max (width t) (pos.col.toNat + 1) = width t := max_eq_left (by omega)
  rw [h1, h2, padTable_self t ht]

theorem slot_ne_null_width {t : List (List Ptr)} (ht : Rect t) {r c : Nat}
    (h : slot t r c ≠ nullptr) : r < t.length ∧ c < width t := by
  obtain ⟨hr, hc⟩ := slot_ne_null_bounds h
  refine ⟨hr, ?_⟩
  rw [List.getD_eq_getElem?_getD, List.getElem?_eq_getElem hr] at hc
  simp only [Option.getD_some] at hc
  rw [ht _ (List.getElem_mem _)] at hc
  exact hc

theorem Position.toNat_inj {p q : Position} (hp : p.IsValid = true) (hq : q.IsValid = true)
    (h1 : p.row.toNat = q.row.toNat) (h2 : p.col.toNat = q.col.toNat) : p = q := by
  obtain ⟨a1, a2, _, _⟩ := (Position.isValid_iff p).mp hp
  obtain ⟨b1, b2, _, _⟩ := (Position.isValid_iff q).mp hq
  cases p; cases q
  simp only [Position.mk.injEq]
  simp only at a1 a2 b1 b2 h1 h2
  omega

theorem Sheet.materialize_frame {D : Type} {s s' : Sheet D} (hwf : WF s) {pos : Position}
    (hv : pos.IsValid = true) {this : Ptr} (hm : s.materialize pos = .ok (s', this)) :
    FailureFrame s pos s' := by
  obtain ⟨s1, this1, hm1, hwf1, hlive, hslot, hother, hcases⟩ := Sheet.materialize_spec hwf hv
  rw [hm] at hm1
  cases hm1
  have hg : ∀ q, q.IsValid = true →
      s.GetCell q = .ok (slot s.table_ q.row.toNat q.col.toNat) := fun q hq =>
    hwf.GetConcreteCell hq
  have hg' : ∀ q, q.IsValid = true →
      s'.GetCell q = .ok (slot s'.table_ q.row.toNat q.col.toNat) := fun q hq =>
    hwf1.GetConcreteCell hq
  have hginv : ∀ q, q.IsValid = false → s'.GetCell q = s.GetCell q := fun q hq => by
    show s'.GetConcreteCell q = s.GetConcreteCell q
    rw [Sheet.GetConcreteCell_invalid hq, Sheet.GetConcreteCell_invalid hq]
  have hcell : ∀ a c, s.cell a = some c → s'.cell a = some c := by
    intro a c hc
    rcases hcases with ⟨_, hheap, _⟩ | ⟨_, _, hheap, _⟩
    · unfold Sheet.cell at hc ⊢; rw [hheap]; exact hc
    · have e : s' = ⟨s'.table_, s.heap ++ [some Cell.new]⟩ := by
        cases s'; simp only at hheap; subst hheap; rfl
      rw [e, Sheet.cell_push, if_neg (Nat.ne_of_lt (Sheet.lt_of_cell hc))]
      exact hc
  refine ⟨hcell, ?_, ?_, ?_, ?_, ?_⟩
  · intro q p hq hp
    cases hqv : q.IsValid with
    | false =>
      have : s.GetCell q = .thrown .InvalidPositionException := Sheet.GetConcreteCell_invalid hqv
      rw [this] at hq; cases hq
    | true =>
      rw [hg q hqv] at hq
      simp only [Result.ok.injEq] at hq
      rw [hg' q hqv]
      by_cases hrc : q.row.toNat = pos.row.toNat ∧ q.col.toNat = pos.col.toNat
      · rw [hrc.1, hrc.2] at hq ⊢
        rcases hcases with ⟨h1, _⟩ | ⟨h1, _⟩
        · rw [hslot, ← h1, hq]
        · rw [h1] at hq; exact absurd hq.symm hp
      · rw [hother _ _ hrc, hq]
  · intro q hne
    cases hqv : q.IsValid with
    | false => exact hginv q hqv
    | true =>
      rw [hg q hqv, hg' q hqv]
      have hrc : ¬ (q.row.toNat = pos.row.toNat ∧ q.col.toNat = pos.col.toNat) := fun h =>
        hne (Position.toNat_inj hqv hv h.1 h.2)
      rw [hother _ _ hrc]
  · intro h
    rw [hv] at h; cases h
  · intro p hp hpn
    rw [hg pos hv] at hp
    simp only [Result.ok.injEq] at hp
    rcases hcases with ⟨_, hheap, htable⟩ | ⟨h1, _⟩
    · obtain ⟨hr, hc⟩ := slot_ne_null_width hwf.rect (hp ▸ hpn)
      rw [growTable_eq_self hwf.rect hr hc] at htable
      cases s; cases s'
      simp only at hheap htable
      subst hheap htable
      rfl
    · rw [h1] at hp; exact absurd hp.symm hpn
  · intro hp
    rw [hg pos hv] at hp
    simp only [Result.ok.injEq] at hp
    rcases hcases with ⟨h1, _⟩ | ⟨_, hthis, hheap, _⟩
    · obtain ⟨c, hc⟩ := Option.ne_none_iff_exists'.mp hlive
      rw [← h1, hp, hwf1.cell_null] at hc
      cases hc
    · refine ⟨this, ?_, ?_, ?_, ?_⟩
      · rw [hg' pos hv, hslot]
      · rw [hthis]; exact Nat.ne_of_gt hwf.heap_pos
      · rw [hthis]; exact Sheet.cell_length s
      · have e : s' = ⟨s'.table_, s.heap ++ [some Cell.new]⟩ := by
          cases s'; simp only at hheap; subst hheap; rfl
        rw [e, Sheet.cell_push, if_pos hthis]

theorem FailureFrame.of_unchanged {D : Type} (s : Sheet D) (pos : Position)
    (h : s.GetCell pos ≠ .ok nullptr) : FailureFrame s pos s :=
  ⟨fun _ _ h => h, fun _ _ h _ => h, fun _ _ => rfl, fun _ => rfl, fun _ _ _ => rfl,
    fun h' => absurd h' h⟩

/-- C1 (as amended). When `SetCell(pos, text)` fails on a reachable sheet, every cell
keeps its content, precedents and dependents, every present slot keeps its cell and
every slot other than `pos` is unchanged. The sheet is exactly as before when `pos` is
invalid or already had a cell; when `pos` was valid and had no cell, the table has
grown to cover it and the slot holds a new empty cell without precedents or
dependents. -/
theorem setCell_failure_frame {D : Type} {env : Env D} {s s' : Sheet D}
    (hr : Reachable env s) {pos : Position} {text : String} {e : Exception}
    (h : Sheet.SetCell env s pos text = .thrown e s') : FailureFrame s pos s' := by
  rcases Sheet.SetCell_thrown hr.wf h with ⟨hv, _, rfl⟩ | ⟨hv, this, hm, _⟩
  · apply FailureFrame.of_unchanged
    show s'.GetConcreteCell pos ≠ _
    rw [Sheet.GetConcreteCell_invalid hv]
    simp
  · exact Sheet.materialize_frame hr.wf hv hm

/-- C1 (witness of the amended claim): the circular `SetCell(A1, "=A1")` on the empty
sheet. -/
theorem setCell_failure_frame_witness :
    Reachable Example.env Sheet.empty ∧
    Sheet.SetCell Example.env Sheet.empty Example.A1 "=A1" =
      .thrown .CircularDependencyException ⟨[[1]], [none, some Cell.new]⟩ ∧
    FailureFrame (Sheet.empty : Sheet Int) Example.A1 ⟨[[1]], [none, some Cell.new]⟩ :=
  ⟨Reachable.empty, rfl, @setCell_failure_frame Int Example.env Sheet.empty _ Reachable.empty
    Example.A1 "=A1" .CircularDependencyException rfl⟩

/-- C1 (counterexample to the claim as stated). On the empty sheet `SetCell(A1, "=A1")`
fails with circular-dependency, and afterwards the table has a row and `GetCell(A1)`
is a cell, while before the call the table was empty and `GetCell(A1)` was absent. -/
theorem setCell_failure_changes_sheet :
    Sheet.SetCell Example.env Sheet.empty Example.A1 "=A1" =
      .thrown .CircularDependencyException ⟨[[1]], [none, some Cell.new]⟩ ∧
    (Sheet.empty : Sheet Int).GetCell Example.A1 = .ok nullptr ∧
    (⟨[[1]], [none, some Cell.new]⟩ : Sheet Int).GetCell Example.A1 = .ok 1 ∧
    (Sheet.empty : Sheet Int).table_ = [] ∧
    (⟨[[1]], [none, some Cell.new]⟩ : Sheet Int).table_ = [[1]] :=
  ⟨rfl, rfl, rfl, rfl, rfl⟩

/-! ## The dependency graph -/

/-- C2 (the code at the failing input). After `SetCell(A1, "1")`, `SetCell(B1, "=A1")`
and `ClearCell(B1)` the sheet is reachable, slot `B1` is vacant and its cell (address
`2`) is destroyed, yet `2` is still in the dependent set of the cell of `A1`; the
next `SetCell(A1, "2")` dereferences it, which is undefined behaviour. -/
theorem clearCell_leaves_dangling_dependent :
    Sheet.SetCell Example.env Sheet.empty Example.A1 "1" = .ok Example.sheetA ∧
    Sheet.SetCell Example.env Example.sheetA Example.B1 "=A1" = .ok Example.sheetAB ∧
    Sheet.ClearCell Example.sheetAB Example.B1 = .ok Example.sheetDangling ∧
    Example.sheetDangling.GetCell Example.B1 = .ok nullptr ∧
    Example.sheetDangling.GetCell Example.A1 = .ok 1 ∧
    Example.sheetDangling.cell 2 = none ∧
    (Example.sheetDangling.cell 1).map (·.dependent_cells) = some [2] ∧
    Sheet.SetCell Example.env Example.sheetDangling Example.A1 "2" =
      .undefined .UseAfterFree :=
  ⟨rfl, rfl, rfl, rfl, rfl, rfl, rfl, rfl⟩

/-- C3. In every sheet reachable from the empty sheet by calls of `SetCell` and
`ClearCell`, no cell is reachable from itself along one or more precedent edges. -/
theorem reachable_acyclic {D : Type} {env : Env D} {s : Sheet D} (hr : Reachable env s) :
    ∀ a, ¬ Relation.TransGen (Edge s) a a :=
  hr.wf.acyclic

/-- C3 (witness): the sheet with `A1 = "1"` and `B1 = "=A1"`. -/
theorem reachable_acyclic_witness :
    Reachable Example.env Example.sheetAB ∧
    ∀ a, ¬ Relation.TransGen (Edge Example.sheetAB) a a :=
  ⟨Example.reachable_sheetAB, reachable_acyclic Example.reachable_sheetAB⟩

/-- C5 (the code at the failing input). On the empty sheet `SetCell(A1, "=B1")` does not
create the cell of `B1` before the circularity check: the check receives the null
pointer for `B1` and dereferences it. -/
theorem setCell_unset_reference_null_dereference :
    (Sheet.empty : Sheet Int).GetCell Example.B1 = .ok nullptr ∧
    Sheet.SetCell Example.env Sheet.empty Example.A1 "=B1" = .undefined .NullDereference :=
  ⟨rfl, rfl⟩

/-! ## `ClearCell` -/

theorem Cell.GetValue_empty {D : Type} (env : Env D) {s : Sheet D} {p : Ptr} {c : Cell D}
    (hd : s.deref p = .ok c) (hc : c.impl_ = .EmptyImpl) (fuel : Nat) :
    Cell.GetValue env s (fuel + 1) p = .ok (.number env.zero) := by
  simp only [Cell.GetValue, hd, Result.bind_ok, hc]

/-- C7. On a reachable sheet and a valid position, `ClearCell` changes nothing when the
slot is vacant, vacates the slot when its cell has no dependents, and otherwise keeps
the cell in its slot and makes it empty: no text, the number zero as value, no
referenced cells. -/
theorem clearCell_contract {D : Type} {env : Env D} {s : Sheet D} (hr : Reachable env s)
    {pos : Position} (hv : pos.IsValid = true) :
    ∃ p, s.GetCell pos = .ok p ∧
      (p = nullptr → s.ClearCell pos = .ok s) ∧
      (p ≠ nullptr → ∃ c, s.deref p = .ok c ∧
        (c.dependent_cells = [] →
          ∃ s', s.ClearCell pos = .ok s' ∧ s'.GetCell pos = .ok nullptr) ∧
        (c.dependent_cells ≠ [] →
          ∃ s' c', s.ClearCell pos = .ok s' ∧ s'.GetCell pos = .ok p ∧
            s'.deref p = .ok c' ∧ c'.GetText = "" ∧ c'.GetReferencedCells = [] ∧
            ∀ fuel, Cell.GetValue env s' (fuel + 1) p = .ok (.number env.zero))) := by
  have hwf := hr.wf
  refine ⟨slot s.table_ pos.row.toNat pos.col.toNat, hwf.GetConcreteCell hv, ?_, ?_⟩
  · intro hp
    rcases Sheet.ClearCell_spec hwf pos with ⟨h, _⟩ | ⟨_, _, h1⟩ | ⟨_, c, hne, _⟩ | ⟨_, c, hne, _⟩
    · rw [hv] at h; cases h
    · exact h1
    · exact absurd hp hne
    · exact absurd hp hne
  · intro hp
    rcases Sheet.ClearCell_spec hwf pos with ⟨h, _⟩ | ⟨_, h0, _⟩ | ⟨_, c, _, hc, hdep, h1⟩ |
        ⟨_, c, _, hc, hdep, h1⟩
    · rw [hv] at h; cases h
    · exact absurd h0 hp
    · refine ⟨c, hwf.deref_ok_iff.mpr hc, fun h => absurd h hdep, fun _ => ?_⟩
      have hwf' := hwf.clear_in_place hc
      have hcell' : (Sheet.mk s.table_ (s.heap.set (slot s.table_ pos.row.toNat pos.col.toNat)
          (some { c with impl_ := .EmptyImpl }))).cell (slot s.table_ pos.row.toNat pos.col.toNat)
          = some { c with impl_ := .EmptyImpl } := by
        rw [Sheet.cell_set s _ _ _ (Sheet.lt_of_cell hc), if_pos rfl]
      have hd' := hwf'.deref_ok_iff.mpr hcell'
      exact ⟨_, _, h1, hwf'.GetConcreteCell hv, hd', rfl, rfl,
        fun fuel => Cell.GetValue_empty env hd' rfl fuel⟩
    · refine ⟨c, hwf.deref_ok_iff.mpr hc, fun _ => ?_, fun h => absurd hdep h⟩
      have hwf' := hwf.vacate hp hc hdep
      obtain ⟨hrow, hcol⟩ := slot_ne_null_bounds hp
      refine ⟨_, h1, ?_⟩
      have := hwf'.GetConcreteCell hv
      simp only [setSlot_slot _ hrow hcol, and_self, if_true] at this
      exact this

/-- C7 (witness): clearing `A1` in the sheet with `A1 = "1"` and `B1 = "=A1"`. -/
theorem clearCell_contract_witness :
    Reachable Example.env Example.sheetAB ∧ Example.A1.IsValid = true ∧
    ∃ p, Example.sheetAB.GetCell Example.A1 = .ok p ∧
      (p = nullptr → Example.sheetAB.ClearCell Example.A1 = .ok Example.sheetAB) ∧
      (p ≠ nullptr → ∃ c, Example.sheetAB.deref p = .ok c ∧
        (c.dependent_cells = [] →
          ∃ s', Example.sheetAB.ClearCell Example.A1 = .ok s' ∧
            s'.GetCell Example.A1 = .ok nullptr) ∧
        (c.dependent_cells ≠ [] →
          ∃ s' c', Example.sheetAB.ClearCell Example.A1 = .ok s' ∧
            s'.GetCell Example.A1 = .ok p ∧
            s'.deref p = .ok c' ∧ c'.GetText = "" ∧ c'.GetReferencedCells = [] ∧
            ∀ fuel, Cell.GetValue Example.env s' (fuel + 1) p =
              .ok (.number Example.env.zero))) :=
  ⟨Example.reachable_sheetAB, rfl, clearCell_contract Example.reachable_sheetAB rfl⟩

/-- C8. On a reachable sheet a second `ClearCell` at the same position changes nothing:
at a valid position the first call returns a sheet on which the second call returns
that same sheet; at an invalid position the call throws invalid-position and leaves
the sheet as it is, so the second call throws in the same way. -/
theorem clearCell_idempotent {D : Type} {env : Env D} {s : Sheet D} (hr : Reachable env s)
    (pos : Position) :
    (pos.IsValid = false ∧ s.ClearCell pos = .thrown .InvalidPositionException s) ∨
    (pos.IsValid = true ∧ ∃ s1, s.ClearCell pos = .ok s1 ∧ s1.ClearCell pos = .ok s1) := by
  have hwf := hr.wf
  rcases Sheet.ClearCell_spec hwf pos with ⟨hv, h1⟩ | ⟨hv, _, h1⟩ | ⟨hv, c, hp, hc, hdep, h1⟩ |
      ⟨hv, c, hp, hc, hdep, h1⟩
  · exact Or.inl ⟨hv, h1⟩
  · exact Or.inr ⟨hv, s, h1, h1⟩
  · refine Or.inr ⟨hv, _, h1, ?_⟩
    have hwf' := hwf.clear_in_place hc
    have hlt := Sheet.lt_of_cell hc
    have hcell' : (Sheet.mk s.table_ (s.heap.set (slot s.table_ pos.row.toNat pos.col.toNat)
        (some { c with impl_ := .EmptyImpl }))).cell (slot s.table_ pos.row.toNat pos.col.toNat)
        = some { c with impl_ := .EmptyImpl } := by
      rw [Sheet.cell_set s _ _ _ hlt, if_pos rfl]
    rcases Sheet.ClearCell_spec hwf' pos with ⟨hv', _⟩ | ⟨_, h0, _⟩ | ⟨_, c', _, hc', _, h2⟩ |
        ⟨_, c', _, hc', hdep', _⟩
    · rw [hv] at hv'; cases hv'
    · exact absurd h0 hp
    · rw [h2]
      have hc'' : (Sheet.mk s.table_ (s.heap.set (slot s.table_ pos.row.toNat pos.col.toNat)
          (some { c with impl_ := .EmptyImpl }))).cell (slot s.table_ pos.row.toNat pos.col.toNat)
          = some c' := hc'
      rw [hcell'] at hc''
      cases hc''
      simp only [List.set_set]
    · have hc'' : (Sheet.mk s.table_ (s.heap.set (slot s.table_ pos.row.toNat pos.col.toNat)
          (some { c with impl_ := .EmptyImpl }))).cell (slot s.table_ pos.row.toNat pos.col.toNat)
          = some c' := hc'
      rw [hcell'] at hc''
      cases hc''
      exact absurd hdep' hdep
  · refine Or.inr ⟨hv, _, h1, ?_⟩
    have hwf' := hwf.vacate hp hc hdep
    obtain ⟨hrow, hcol⟩ := slot_ne_null_bounds hp
    have hnull : slot (setSlot s.table_ pos.row.toNat pos.col.toNat nullptr) pos.row.toNat
        pos.col.toNat = nullptr := by
      rw [setSlot_slot _ hrow hcol, if_pos ⟨rfl, rfl⟩]
    rcases Sheet.ClearCell_spec hwf' pos with ⟨hv', _⟩ | ⟨_, _, h2⟩ | ⟨_, c', hne, _⟩ |
        ⟨_, c', hne, _⟩
    · rw [hv] at hv'; cases hv'
    · exact h2
    · exact absurd hnull hne
    · exact absurd hnull hne

/-- C8 (witness): clearing `B1` twice in the sheet with `A1 = "1"` and `B1 = "=A1"`. -/
theorem clearCell_idempotent_witness :
    Reachable Example.env Example.sheetAB ∧
    ((Example.B1.IsValid = false ∧
        Example.sheetAB.ClearCell Example.B1 =
          .thrown .InvalidPositionException Example.sheetAB) ∨
      (Example.B1.IsValid = true ∧ ∃ s1, Example.sheetAB.ClearCell Example.B1 = .ok s1 ∧
        s1.ClearCell Example.B1 = .ok s1)) :=
  ⟨Example.reachable_sheetAB, clearCell_idempotent Example.reachable_sheetAB Example.B1⟩

/-! ## The printable size -/

theorem Sheet.hasText_spec {D : Type} {s : Sheet D} (hwf : WF s) {p : Ptr}
    (hp : p = nullptr ∨ s.cell p ≠ none) :
    ∃ b, s.hasText p = .ok b ∧ (b = true ↔ s.PtrHasText p) := by
  unfold Sheet.hasText Sheet.PtrHasText
  by_cases h0 : p = nullptr
  · exact ⟨false, by rw [if_pos h0], by simp [h0]⟩
  · rcases hp with hp | hp
    · exact absurd hp h0
    · obtain ⟨cell, hcell⟩ := Option.ne_none_iff_exists'.mp hp
      refine ⟨decide (cell.GetText ≠ ""), ?_, ?_⟩
      · rw [if_neg h0, hwf.deref_ok_iff.mpr hcell]; rfl
      · simp only [decide_eq_true_eq]
        constructor
        · intro h; exact ⟨h0, cell, hcell, h⟩
        · rintro ⟨_, cell', hcell', h⟩
          rw [hcell] at hcell'; cases hcell'; exact h

theorem WF.table_ptr {D : Type} {s : Sheet D} (hwf : WF s) {row : List Ptr}
    (hrow : row ∈ s.table_) {p : Ptr} (hp : p ∈ row) : p = nullptr ∨ s.cell p ≠ none := by
  obtain ⟨r, hr⟩ := List.mem_iff_getElem?.mp hrow
  obtain ⟨c, hc⟩ := List.mem_iff_getElem?.mp hp
  have hs := slot_of_getElem? hr hc
  by_cases h0 : p = nullptr
  · exact Or.inl h0
  · right
    obtain ⟨cell, hcell⟩ := hwf.owned r c (by rw [hs]; exact h0)
    rw [hs] at hcell
    rw [hcell]; simp

theorem Sheet.rowHasText_spec {D : Type} {s : Sheet D} (hwf : WF s) :
    ∀ l : List Ptr, (∀ p ∈ l, p = nullptr ∨ s.cell p ≠ none) →
      ∃ b, s.rowHasText l = .ok b ∧ (b = true ↔ ∃ p ∈ l, s.PtrHasText p) := by
  intro l
  induction l with
  | nil => intro _; exact ⟨false, rfl, by simp⟩
  | cons p rest ih =>
    intro hl
    obtain ⟨b, hb, hbiff⟩ := Sheet.hasText_spec hwf (hl p (List.mem_cons_self _ _))
    obtain ⟨b', hb', hbiff'⟩ := ih (fun q hq => hl q (List.mem_cons_of_mem _ hq))
    cases b with
    | true =>
      refine ⟨true, by simp only [Sheet.rowHasText, hb, Result.bind_ok, if_true], ?_⟩
      simp only [true_iff]
      exact ⟨p, List.mem_cons_self _ _, hbiff.mp rfl⟩
    | false =>
      refine ⟨b', ?_, ?_⟩
      · simp only [Sheet.rowHasText, hb, Result.bind_ok, Bool.false_eq_true, if_false]
        exact hb'
      · rw [hbiff']
        constructor
        · rintro ⟨q, hq, h⟩; exact ⟨q, List.mem_cons_of_mem _ hq, h⟩
        · rintro ⟨q, hq, h⟩
          rcases List.mem_cons.mp hq with rfl | hq
          · exact absurd (hbiff.mpr h) (by simp)
          · exact ⟨q, hq, h⟩

theorem Sheet.findRowCount_spec {D : Type} {s : Sheet D} (hwf : WF s) :
    ∀ n, n ≤ s.table_.length →
      ∃ m, s.findRowCount n = .ok m ∧ m ≤ n ∧
        (m ≠ 0 → ∃ row, s.table_[m - 1]? = some row ∧ ∃ p ∈ row, s.PtrHasText p) ∧
        (∀ r row, m ≤ r → r < n → s.table_[r]? = some row → ∀ p ∈ row, ¬ s.PtrHasText p) := by
  intro n
  induction n with
  | zero => intro _; exact ⟨0, rfl, le_refl _, fun h => absurd rfl h, fun r _ _ h => by omega⟩
  | succ i ih =>
    intro hn
    have hi : i < s.table_.length := by omega
    have hrow : s.table_[i]? = some s.table_[i] := List.getElem?_eq_getElem hi
    have hmem : s.table_[i] ∈ s.table_ := List.getElem_mem _
    obtain ⟨b, hb, hbiff⟩ := Sheet.rowHasText_spec hwf s.table_[i]
      (fun p hp => hwf.table_ptr hmem hp)
    cases b with
    | true =>
      refine ⟨i + 1, ?_, le_refl _, ?_, ?_⟩
      · simp only [Sheet.findRowCount, index_eq_ok.mpr hrow, Result.bind_ok, hb, if_true]
      · intro _
        exact ⟨s.table_[i], by simp, hbiff.mp rfl⟩
      · intro r _ h1 h2; omega
    | false =>
      obtain ⟨m, hm, hle, h1, h2⟩ := ih (by omega)
      refine ⟨m, ?_, by omega, h1, ?_⟩
      · simp only [Sheet.findRowCount, index_eq_ok.mpr hrow, Result.bind_ok, hb,
          Bool.false_eq_true, if_false]
        exact hm
      · intro r row hmr hr hrr p hp hpt
        by_cases hri : r = i
        · subst hri
          rw [hrow] at hrr; cases hrr
          exact absurd (hbiff.mpr ⟨p, hp, hpt⟩) (by simp)
        · exact h2 r row hmr (by omega) hrr p hp hpt

theorem Sheet.colHasText_spec {D : Type} {s : Sheet D} (hwf : WF s) (i : Nat) :
    ∀ rows : List (List Ptr),
      (∀ row ∈ rows, i < row.length ∧ ∀ p ∈ row, p = nullptr ∨ s.cell p ≠ none) →
      ∃ b, s.colHasText i rows = .ok b ∧
        (b = true ↔ ∃ row ∈ rows, ∃ p, row[i]? = some p ∧ s.PtrHasText p) := by
  intro rows
  induction rows with
  | nil => intro _; exact ⟨false, rfl, by simp⟩
  | cons row rest ih =>
    intro hrows
    obtain ⟨hlen, hptr⟩ := hrows row (List.mem_cons_self _ _)
    have hget : row[i]? = some row[i] := List.getElem?_eq_getElem hlen
    obtain ⟨b, hb, hbiff⟩ := Sheet.hasText_spec hwf (hptr row[i] (List.getElem_mem _))
    obtain ⟨b', hb', hbiff'⟩ := ih (fun q hq => hrows q (List.mem_cons_of_mem _ hq))
    cases b with
    | true =>
      refine ⟨true, ?_, ?_⟩
      · simp only [Sheet.colHasText, index_eq_ok.mpr hget, Result.bind_ok, hb, if_true]
      · simp only [true_iff]
        exact ⟨row, List.mem_cons_self _ _, row[i], hget, hbiff.mp rfl⟩
    | false =>
      refine ⟨b', ?_, ?_⟩
      · simp only [Sheet.colHasText, index_eq_ok.mpr hget, Result.bind_ok, hb,
          Bool.false_eq_true, if_false]
        exact hb'
      · rw [hbiff']
        constructor
        · rintro ⟨q, hq, h⟩; exact ⟨q, List.mem_cons_of_mem _ hq, h⟩
        · rintro ⟨q, hq, p, hp, h⟩
          rcases List.mem_cons.mp hq with rfl | hq
          · rw [hget] at hp; cases hp
            exact absurd (hbiff.mpr h) (by simp)
          · exact ⟨q, hq, p, hp, h⟩

theorem Sheet.findColCount_spec {D : Type} {s : Sheet D} (hwf : WF s) :
    ∀ n, n ≤ width s.table_ →
      ∃ m, s.findColCount n = .ok m ∧ m ≤ n ∧
        (m ≠ 0 → ∃ row ∈ s.table_, ∃ p, row[m - 1]? = some p ∧ s.PtrHasText p) ∧
        (∀ c, m ≤ c → c < n → ∀ row ∈ s.table_, ∀ p, row[c]? = some p → ¬ s.PtrHasText p) := by
  intro n
  induction n with
  | zero => intro _; exact ⟨0, rfl, le_refl _, fun h => absurd rfl h, fun c _ h => by omega⟩
  | succ i ih =>
    intro hn
    obtain ⟨b, hb, hbiff⟩ := Sheet.colHasText_spec hwf i s.table_ (fun row hrow =>
      ⟨by rw [hwf.rect row hrow]; omega, fun p hp => hwf.table_ptr hrow hp⟩)
    cases b with
    | true =>
      refine ⟨i + 1, ?_, le_refl _, ?_, ?_⟩
      · simp only [Sheet.findColCount, hb, Result.bind_ok, if_true]
      · intro _
        simpa using hbiff.mp rfl
      · intro c h1 h2; omega
    | false =>
      obtain ⟨m, hm, hle, h1, h2⟩ := ih (by omega)
      refine ⟨m, ?_, by omega, h1, ?_⟩
      · simp only [Sheet.findColCount, hb, Result.bind_ok, Bool.false_eq_true, if_false]
        exact hm
      · intro c hmc hc row hrow p hp hpt
        by_cases hci : c = i
        · subst hci
          exact absurd (hbiff.mpr ⟨row, hrow, p, hp, hpt⟩) (by simp)
        · exact h2 c hmc (by omega) row hrow p hp hpt

/-- A position with text lies inside the table, and its row holds the pointer of a
cell with text at its column. -/
theorem Sheet.HasTextAt.slot {D : Type} {s : Sheet D} (hwf : WF s) {pos : Position}
    (h : s.HasTextAt pos) :
    pos.IsValid = true ∧ ∃ row p, s.table_[pos.row.toNat]? = some row ∧
      row[pos.col.toNat]? = some p ∧ s.PtrHasText p := by
  obtain ⟨p, cell, hg, hd, ht⟩ := h
  cases hv : pos.IsValid with
  | false =>
    have : s.GetCell pos = .thrown .InvalidPositionException := Sheet.GetConcreteCell_invalid hv
    rw [this] at hg; cases hg
  | true =>
    have hg' : s.GetCell pos = _ := hwf.GetConcreteCell hv
    rw [hg'] at hg
    simp only [Result.ok.injEq] at hg
    obtain ⟨hp0, hcell⟩ := Sheet.deref_eq_ok.mp hd
    obtain ⟨hr, hc⟩ := slot_ne_null_bounds (hg ▸ hp0)
    have hrow : s.table_[pos.row.toNat]? = some s.table_[pos.row.toNat] :=
      List.getElem?_eq_getElem hr
    rw [List.getD_eq_getElem?_getD, hrow] at hc
    simp only [Option.getD_some] at hc
    have hcol : s.table_[pos.row.toNat][pos.col.toNat]? =
        some s.table_[pos.row.toNat][pos.col.toNat] := List.getElem?_eq_getElem hc
    refine ⟨rfl, _, _, hrow, hcol, ?_⟩
    rw [slot_of_getElem? hrow hcol] at hg
    rw [hg]
    exact ⟨hp0, cell, hcell, ht⟩

/-- A pointer of a cell with text in the table is the cell of a valid position. -/
theorem Sheet.HasTextAt.of_slot {D : Type} {s : Sheet D} (hwf : WF s) {r c : Nat}
    {row : List Ptr} {p : Ptr} (hr : s.table_[r]? = some row) (hc : row[c]? = some p)
    (hp : s.PtrHasText p) : s.HasTextAt ⟨(r : Int), (c : Int)⟩ := by
  obtain ⟨hrlt, _⟩ := List.getElem?_eq_some.mp hr
  obtain ⟨hclt, _⟩ := List.getElem?_eq_some.mp hc
  have hw : row.length = width s.table_ := hwf.rect row (List.mem_iff_getElem?.mpr ⟨r, hr⟩)
  obtain ⟨b1, b2⟩ := hwf.bounded
  have hv : (⟨(r : Int), (c : Int)⟩ : Position).IsValid = true := by
    rw [Position.isValid_iff]
    refine ⟨by simp, by simp, ?_, ?_⟩
    · have : (r : Int) < s.table_.length := by exact_mod_cast hrlt
      exact lt_of_lt_of_le this b1
    · have : (c : Int) < width s.table_ := by rw [← hw]; exact_mod_cast hclt
      exact lt_of_lt_of_le this b2
  obtain ⟨hp0, cell, hcell, ht⟩ := hp
  refine ⟨p, cell, ?_, Sheet.deref_eq_ok.mpr ⟨hp0, hcell⟩, ht⟩
  have hg : s.GetCell ⟨(r : Int), (c : Int)⟩ = _ := hwf.GetConcreteCell hv
  rw [hg]
  simp only [Int.toNat_ofNat]
  rw [slot_of_getElem? hr hc]

/-- C9. On a reachable sheet `GetPrintableSize` returns `(rows, cols)` such that every
position holding a cell with non-empty text has its row below `rows` and its column
below `cols`; when `rows` is not zero some such cell lies in row `rows - 1`, and when
`cols` is not zero some such cell lies in column `cols - 1`; when no cell has text the
size is `(0, 0)`. -/
theorem printable_size_minimal {D : Type} {env : Env D} {s : Sheet D}
    (hr : Reachable env s) :
    ∃ rows cols : Nat, s.GetPrintableSize = .ok (rows, cols) ∧
      (∀ pos, s.HasTextAt pos → pos.row < rows ∧ pos.col < cols) ∧
      (rows ≠ 0 → ∃ pos, s.HasTextAt pos ∧ pos.row + 1 = rows) ∧
      (cols ≠ 0 → ∃ pos, s.HasTextAt pos ∧ pos.col + 1 = cols) ∧
      ((∀ pos, ¬ s.HasTextAt pos) → rows = 0 ∧ cols = 0) := by
  have hwf := hr.wf
  -- the facts on the two scans
  obtain ⟨m, hm, _, hm1, hm2⟩ := Sheet.findRowCount_spec hwf s.table_.length (le_refl _)
  obtain ⟨k, hk, _, hk1, hk2⟩ := Sheet.findColCount_spec hwf (width s.table_) (le_refl _)
  have hrowbound : ∀ pos, s.HasTextAt pos → pos.row < m := by
    intro pos h
    obtain ⟨hv, row, p, hrow, hcol, hpt⟩ := Sheet.HasTextAt.slot hwf h
    obtain ⟨hrlt, _⟩ := List.getElem?_eq_some.mp hrow
    obtain ⟨h0, _⟩ := (Position.isValid_iff pos).mp hv
    by_contra hcon
    have hle : m ≤ pos.row.toNat := by omega
    exact hm2 _ row hle hrlt hrow p (List.mem_iff_getElem?.mpr ⟨_, hcol⟩) hpt
  have hcolbound : ∀ pos, s.HasTextAt pos → pos.col < k := by
    intro pos h
    obtain ⟨hv, row, p, hrow, hcol, hpt⟩ := Sheet.HasTextAt.slot hwf h
    obtain ⟨hclt, _⟩ := List.getElem?_eq_some.mp hcol
    have hmem : row ∈ s.table_ := List.mem_iff_getElem?.mpr ⟨_, hrow⟩
    rw [hwf.rect row hmem] at hclt
    obtain ⟨_, h0, _⟩ := (Position.isValid_iff pos).mp hv
    by_contra hcon
    have hle : k ≤ pos.col.toNat := by omega
    exact hk2 _ hle hclt row hmem p hcol hpt
  have hrowex : m ≠ 0 → ∃ pos, s.HasTextAt pos ∧ pos.row + 1 = m := by
    intro hne
    obtain ⟨row, hrow, p, hp, hpt⟩ := hm1 hne
    obtain ⟨c, hc⟩ := List.mem_iff_getElem?.mp hp
    refine ⟨⟨((m - 1 : Nat) : Int), (c : Int)⟩, Sheet.HasTextAt.of_slot hwf hrow hc hpt, ?_⟩
    show ((m - 1 : Nat) : Int) + 1 = m
    omega
  have hcolex : k ≠ 0 → ∃ pos, s.HasTextAt pos ∧ pos.col + 1 = k := by
    intro hne
    obtain ⟨row, hrow, p, hp, hpt⟩ := hk1 hne
    obtain ⟨r, hr⟩ := List.mem_iff_getElem?.mp hrow
    refine ⟨⟨(r : Int), ((k - 1 : Nat) : Int)⟩, Sheet.HasTextAt.of_slot hwf hr hp hpt, ?_⟩
    show ((k - 1 : Nat) : Int) + 1 = k
    omega
  by_cases hempty : s.table_.isEmpty = true
  · -- no row at all
    have hnil : s.table_ = [] := List.isEmpty_iff.mp hempty
    have hno : ∀ pos, ¬ s.HasTextAt pos := by
      intro pos h
      have := hrowbound pos h
      obtain ⟨hv, row, p, hrow, _⟩ := Sheet.HasTextAt.slot hwf h
      rw [hnil] at hrow
      simp at hrow
    refine ⟨0, 0, ?_, fun pos h => absurd h (hno pos), fun h => absurd rfl h,
      fun h => absurd rfl h, fun _ => ⟨rfl, rfl⟩⟩
    unfold Sheet.GetPrintableSize
    rw [if_pos hempty]
  · by_cases hm0 : m = 0
    · -- no row with text
      have hno : ∀ pos, ¬ s.HasTextAt pos := by
        intro pos h
        have := hrowbound pos h
        obtain ⟨hv, _⟩ := Sheet.HasTextAt.slot hwf h
        obtain ⟨h0, _⟩ := (Position.isValid_iff pos).mp hv
        omega
      refine ⟨0, 0, ?_, fun pos h => absurd h (hno pos), fun h => absurd rfl h,
        fun h => absurd rfl h, fun _ => ⟨rfl, rfl⟩⟩
      unfold Sheet.GetPrintableSize
      rw [if_neg hempty, hm, Result.bind_ok, if_pos hm0]
    · refine ⟨m, k, ?_, fun pos h => ⟨hrowbound pos h, hcolbound pos h⟩, hrowex, hcolex, ?_⟩
      · unfold Sheet.GetPrintableSize
        rw [if_neg hempty, hm, Result.bind_ok, if_neg hm0, hk, Result.bind_ok]
      · intro hno
        obtain ⟨pos, h, _⟩ := hrowex hm0
        exact absurd h (hno pos)

theorem Example.reachable_sheetE : Reachable Example.env Example.sheetE :=
  Reachable.clearCell_ok Example.C5
    (Reachable.setCell_ok Example.C5 "x" Reachable.empty rfl) rfl

/-- C9 (witness): after `SetCell(C5, "x")` and `ClearCell(C5)` on the empty sheet the
size is `(0, 0)`. -/
theorem printable_size_minimal_witness :
    Reachable Example.env Example.sheetE ∧
    Example.sheetE.GetPrintableSize = .ok (0, 0) ∧
    ∃ rows cols : Nat, Example.sheetE.GetPrintableSize = .ok (rows, cols) ∧
      (∀ pos, Example.sheetE.HasTextAt pos → pos.row < rows ∧ pos.col < cols) ∧
      (rows ≠ 0 → ∃ pos, Example.sheetE.HasTextAt pos ∧ pos.row + 1 = rows) ∧
      (cols ≠ 0 → ∃ pos, Example.sheetE.HasTextAt pos ∧ pos.col + 1 = cols) ∧
      ((∀ pos, ¬ Example.sheetE.HasTextAt pos) → rows = 0 ∧ cols = 0) :=
  ⟨Example.reachable_sheetE, rfl, printable_size_minimal Example.reachable_sheetE⟩

/-! ## Text cells and values -/

theorem Cell.chooseImpl_text {D : Type} (env : Env D) (s : Sheet D) (this : Ptr)
    {text : String} (hne : text.data ≠ [])
    (hshape : text.data.head? ≠ some FORMULA_SIGN ∨ text.length = 1) :
    Cell.chooseImpl env s this text = .ok (.TextImpl text) := by
  unfold Cell.chooseImpl
  cases hdata : text.data with
  | nil => exact absurd hdata hne
  | cons c rest =>
    simp only
    have hcond : ¬ (c = FORMULA_SIGN ∧ text.length > 1) := by
      rintro ⟨h1, h2⟩
      rcases hshape with h | h
      · rw [hdata] at h; simp [h1] at h
      · omega
    rw [if_neg hcond]

theorem TextImpl.GetValue_eq {D : Type} (text : String) :
    (TextImpl.GetValue text : Value D) =
      .text (if text.data.head? = some ESCAPE_SIGN then String.mk (text.data.drop 1)
        else text) := by
  unfold TextImpl.GetValue
  cases hdata : text.data with
  | nil => simp
  | cons c rest =>
    by_cases hc : c = ESCAPE_SIGN
    · simp [hc]
    · simp [hc]

/-- C10. Let the sheet satisfy the invariant of the reachable sheets and let `text` be
non-empty and not of formula shape (it does not start with the formula sign, or it is
one character long). Then `Cell::Set(text)` returns whenever every dependent of the
cell is alive, and whenever it returns the cell is a text cell: its text is `text`, it
references no cells, and its value is `text` without its first character when that
is the escape sign, and `text` itself otherwise. -/
theorem set_text_cell {D : Type} (env : Env D)
    (nested : Sheet D → Position → String → Outcome D) {s : Sheet D} (hwf : WF s)
    {this : Ptr} {c0 : Cell D} (hc0 : s.cell this = some c0) {text : String}
    (hne : text.data ≠ [])
    (hshape : text.data.head? ≠ some FORMULA_SIGN ∨ text.length = 1) :
    ((∀ d ∈ c0.dependent_cells, s.cell d ≠ none) →
      ∃ s', Cell.Set env nested s this text = .ok s') ∧
    (∀ s', Cell.Set env nested s this text = .ok s' →
      ∃ c', s'.deref this = .ok c' ∧ c'.impl_ = .TextImpl text ∧ c'.GetText = text ∧
        c'.GetReferencedCells = [] ∧
        ∀ fuel, Cell.GetValue env s' (fuel + 1) this =
          .ok (.text (if text.data.head? = some ESCAPE_SIGN then String.mk (text.data.drop 1)
            else text))) := by
  have hch := Cell.chooseImpl_text env s this hne hshape
  rcases Cell.Set_spec env nested hwf hc0 text with
    ⟨e, h1, _⟩ | ⟨f, h1, _⟩ | ⟨impl, s4, c4, h1, hwf4, _, hthis4, himpl, _, _, hok, hub⟩
  · rw [hch] at h1; cases h1
  · rw [hch] at h1; cases h1
  · rw [hch] at h1
    simp only [Result.ok.injEq] at h1
    subst h1
    refine ⟨fun hlive => ⟨s4, hok hlive⟩, ?_⟩
    intro s' hs'
    have hs4 : s' = s4 := by
      by_cases hlive : ∀ d ∈ c0.dependent_cells, s.cell d ≠ none
      · rw [hok hlive] at hs'; cases hs'; rfl
      · have : ∃ d ∈ c0.dependent_cells, s.cell d = none := by
          by_contra hcon
          exact hlive fun d hd hnone => hcon ⟨d, hd, hnone⟩
        obtain ⟨f, hf⟩ := hub this
        rw [hf] at hs'; cases hs'
    subst hs4
    have hd := hwf4.deref_ok_iff.mpr hthis4
    refine ⟨c4, hd, himpl, ?_, ?_, ?_⟩
    · simp only [Cell.GetText, himpl, Impl.GetText]
    · simp only [Cell.GetReferencedCells, himpl, Impl.GetDependencies]
    · intro fuel
      simp only [Cell.GetValue, hd, Result.bind_ok, himpl]
      rw [TextImpl.GetValue_eq]

/-- C10 (witness): `Set("'=2+2")` on the cell of `A1` gives the text `'=2+2` and the
value `=2+2`. -/
theorem set_text_cell_witness :
    WF Example.sheetA ∧ Example.sheetA.cell 1 = some ⟨.TextImpl "1", [], []⟩ ∧
    (∃ s', Cell.Set Example.env (Sheet.SetCellFuel Example.env 1) Example.sheetA 1 "'=2+2"
      = .ok s') ∧
    (∀ s', Cell.Set Example.env (Sheet.SetCellFuel Example.env 1) Example.sheetA 1 "'=2+2"
        = .ok s' →
      ∃ c', s'.deref 1 = .ok c' ∧ c'.impl_ = .TextImpl "'=2+2" ∧ c'.GetText = "'=2+2" ∧
        c'.GetReferencedCells = [] ∧
        ∀ fuel, Cell.GetValue Example.env s' (fuel + 1) 1 = .ok (.text "=2+2")) :=
  ⟨Example.reachable_sheetA.wf, rfl,
    (set_text_cell Example.env (Sheet.SetCellFuel Example.env 1) Example.reachable_sheetA.wf
      (rfl : Example.sheetA.cell 1 = some ⟨.TextImpl "1", [], []⟩) (by decide)
      (Or.inl (by decide))).1 (by simp),
    (set_text_cell Example.env (Sheet.SetCellFuel Example.env 1) Example.reachable_sheetA.wf
      (rfl : Example.sheetA.cell 1 = some ⟨.TextImpl "1", [], []⟩) (by decide)
      (Or.inl (by decide))).2⟩

theorem Sheet.deref_wipeCaches {D : Type} (s : Sheet D) (p : Ptr) :
    s.wipeCaches.deref p =
      match s.deref p with
      | .ok c => .ok { c with impl_ := c.impl_.WipeCache }
      | .thrown e => .thrown e
      | .undefined f => .undefined f := by
  unfold Sheet.deref Sheet.wipeCaches
  by_cases hp : p = nullptr
  · simp [hp]
  · simp only [if_neg hp, List.getElem?_map]
    cases h : s.heap[p]? with
    | none => rfl
    | some x =>
      cases x with
      | none => rfl
      | some c => rfl

theorem Cell.GetValue_wipeCaches {D : Type} (env : Env D) (s : Sheet D) :
    ∀ fuel p, Cell.GetValue env s.wipeCaches fuel p = Cell.GetValue env s fuel p := by
  intro fuel
  induction fuel with
  | zero => intro p; rfl
  | succ fuel ih =>
    intro p
    have hlook : Formula.lookup env (Cell.GetValue env s.wipeCaches fuel) s.wipeCaches =
        Formula.lookup env (Cell.GetValue env s fuel) s := by
      funext pos
      unfold Formula.lookup
      have hg : s.wipeCaches.GetCell pos = s.GetCell pos :=
        Sheet.GetConcreteCell_congr rfl pos
      rw [hg]
      simp only [ih]
    simp only [Cell.GetValue, Sheet.deref_wipeCaches]
    cases hd : s.deref p with
    | thrown e => rfl
    | undefined f => rfl
    | ok c =>
      simp only [Result.bind_ok]
      cases hc : c.impl_ with
      | EmptyImpl => simp [Impl.WipeCache]
      | TextImpl t => simp [Impl.WipeCache]
      | FormulaImpl f cache => simp [Impl.WipeCache, hlook]

theorem Example.getValue_B1 :
    Cell.GetValue Example.env Example.sheetAB 2 2 = .ok (.number 1) := by
  have h : Formula.lookup Example.env (Cell.GetValue Example.env Example.sheetAB 1)
      Example.sheetAB Example.A1 = .ok (.number 1) := rfl
  have hd : Example.sheetAB.deref 2 = .ok ⟨.FormulaImpl ⟨[Example.A1], "A1",
      .cell Example.A1 fun x => .ret x⟩ none, [1], []⟩ := rfl
  simp only [Cell.GetValue, hd, Result.bind_ok, Formula.Evaluate, h]
  rfl

theorem Example.getValue_B1_after :
    Cell.GetValue Example.env Example.sheetAB2 2 2 = .ok (.number 2) := by
  have h : Formula.lookup Example.env (Cell.GetValue Example.env Example.sheetAB2 1)
      Example.sheetAB2 Example.A1 = .ok (.number 2) := rfl
  have hd : Example.sheetAB2.deref 2 = .ok ⟨.FormulaImpl ⟨[Example.A1], "A1",
      .cell Example.A1 fun x => .ret x⟩ none, [1], []⟩ := rfl
  simp only [Cell.GetValue, hd, Result.bind_ok, Formula.Evaluate, h]
  rfl

/-! ## The search: termination and what a `true` answer means -/

theorem forChildren_path
    {visit : Ptr → List Ptr → List Ptr → Result (Bool × List Ptr × List Ptr)}
    (hvisit : ∀ p path visited r, visit p path visited = .ok r → r.1 = false → r.2.1 = path) :
    ∀ (children path visited : List Ptr) (r : Bool × List Ptr × List Ptr),
      forChildren visit children path visited = .ok r → r.1 = false → r.2.1 = path := by
  intro children
  induction children with
  | nil =>
    intro path visited r h _
    simp only [forChildren, Result.ok.injEq] at h
    subst h; rfl
  | cons child rest ih =>
    intro path visited r h hr
    simp only [forChildren] at h
    obtain ⟨r1, h1, h2⟩ := Result.bind_eq_ok h
    by_cases hr1 : r1.1 = true
    · rw [if_pos hr1] at h2
      simp only [Result.ok.injEq] at h2
      subst h2
      rw [hr1] at hr; exact absurd hr (by simp)
    · rw [if_neg hr1] at h2
      have e1 := hvisit child path visited r1 h1 (by simpa using hr1)
      rw [e1] at h2
      exact ih path r1.2.2 r h2 hr

theorem FindCircularByDFS_path {D : Type} (s : Sheet D) :
    ∀ fuel p path visited r, FindCircularByDFS s fuel p path visited = .ok r →
      r.1 = false → r.2.1 = path := by
  intro fuel
  induction fuel with
  | zero =>
    intro p path visited r h
    simp [FindCircularByDFS] at h
  | succ fuel ih =>
    intro p path visited r h hr
    simp only [FindCircularByDFS] at h
    by_cases hp : p ∈ path
    · rw [if_pos hp] at h
      simp only [Result.ok.injEq] at h
      subst h
      exact absurd hr (by simp)
    · rw [if_neg hp] at h
      by_cases hv : p ∈ visited
      · rw [if_pos hv] at h
        simp only [Result.ok.injEq] at h
        subst h; rfl
      · rw [if_neg hv] at h
        obtain ⟨c, _, h⟩ := Result.bind_eq_ok h
        obtain ⟨r1, h1, h2⟩ := Result.bind_eq_ok h
        by_cases hr1 : r1.1 = true
        · rw [if_pos hr1] at h2
          simp only [Result.ok.injEq] at h2
          subst h2
          rw [hr1] at hr; exact absurd hr (by simp)
        · rw [if_neg hr1] at h2
          simp only [Result.ok.injEq] at h2
          subst h2
          have e1 := forChildren_path ih _ _ _ r1 h1 (by simpa using hr1)
          show setErase p r1.2.1 = path
          rw [e1]
          exact setErase_setInsert hp

theorem forChildren_true {D : Type} {s : Sheet D}
    {visit : Ptr → List Ptr → List Ptr → Result (Bool × List Ptr × List Ptr)}
    (hpath : ∀ p path visited r, visit p path visited = .ok r → r.1 = false → r.2.1 = path)
    (htrue : ∀ p path visited r, visit p path visited = .ok r → r.1 = true →
      ∃ g ∈ path, Relation.ReflTransGen (Edge s) p g) :
    ∀ (children path visited : List Ptr) (r : Bool × List Ptr × List Ptr),
      forChildren visit children path visited = .ok r → r.1 = true →
      ∃ w ∈ children, ∃ g ∈ path, Relation.ReflTransGen (Edge s) w g := by
  intro children
  induction children with
  | nil =>
    intro path visited r h hr
    simp only [forChildren, Result.ok.injEq] at h
    subst h
    exact absurd hr (by simp)
  | cons child rest ih =>
    intro path visited r h hr
    simp only [forChildren] at h
    obtain ⟨r1, h1, h2⟩ := Result.bind_eq_ok h
    by_cases hr1 : r1.1 = true
    · obtain ⟨g, hg, hreach⟩ := htrue child path visited r1 h1 hr1
      exact ⟨child, List.mem_cons_self _ _, g, hg, hreach⟩
    · rw [if_neg hr1] at h2
      have e1 := hpath child path visited r1 h1 (by simpa using hr1)
      rw [e1] at h2
      obtain ⟨w, hw, g, hg, hreach⟩ := ih path r1.2.2 r h2 hr
      exact ⟨w, List.mem_cons_of_mem _ hw, g, hg, hreach⟩

theorem FindCircularByDFS_true {D : Type} {s : Sheet D}
    (hacyc : ∀ a, ¬ Relation.TransGen (Edge s) a a) :
    ∀ fuel p path visited r, FindCircularByDFS s fuel p path visited = .ok r →
      r.1 = true → ∃ g ∈ path, Relation.ReflTransGen (Edge s) p g := by
  intro fuel
  induction fuel with
  | zero =>
    intro p path visited r h
    simp [FindCircularByDFS] at h
  | succ fuel ih =>
    intro p path visited r h hr
    simp only [FindCircularByDFS] at h
    by_cases hp : p ∈ path
    · exact ⟨p, hp, Relation.ReflTransGen.refl⟩
    · rw [if_neg hp] at h
      by_cases hv : p ∈ visited
      · rw [if_pos hv] at h
        simp only [Result.ok.injEq] at h
        subst h
        exact absurd hr (by simp)
      · rw [if_neg hv] at h
        obtain ⟨c, hc, h⟩ := Result.bind_eq_ok h
        obtain ⟨r1, h1, h2⟩ := Result.bind_eq_ok h
        obtain ⟨_, hcell⟩ := Sheet.deref_eq_ok.mp hc
        by_cases hr1 : r1.1 = true
        · rw [setInsert_of_not_mem hp] at h1
          obtain ⟨w, hw, g, hg, hreach⟩ :=
            forChildren_true (FindCircularByDFS_path s fuel) ih _ _ _ r1 h1 hr1
          have hedge : Edge s p w := ⟨c, hcell, hw⟩
          rcases List.mem_cons.mp hg with rfl | hg
          · exact absurd (Relation.TransGen.head' hedge hreach) (hacyc _)
          · exact ⟨g, hg, Relation.ReflTransGen.head hedge hreach⟩
        · rw [if_neg hr1] at h2
          simp only [Result.ok.injEq] at h2
          subst h2
          exact absurd hr (by simp)

theorem length_le_of_nodup_lt {l : List Nat} {n : Nat} (hnd : l.Nodup) (hlt : ∀ x ∈ l, x < n) :
    l.length ≤ n := by
  have hsub : l.toFinset ⊆ Finset.range n := by
    intro x hx
    rw [List.mem_toFinset] at hx
    exact Finset.mem_range.mpr (hlt x hx)
  have := Finset.card_le_card hsub
  rwa [List.toFinset_card_of_nodup hnd, Finset.card_range] at this

theorem forChildren_total
    {visit : Ptr → List Ptr → List Ptr → Result (Bool × List Ptr × List Ptr)}
    (path : List Ptr) (ok : Ptr → Prop)
    (hpath : ∀ p visited r, visit p path visited = .ok r → r.1 = false → r.2.1 = path)
    (htotal : ∀ p visited, ok p → ∃ r, visit p path visited = .ok r) :
    ∀ (children visited : List Ptr), (∀ w ∈ children, ok w) →
      ∃ r, forChildren visit children path visited = .ok r := by
  intro children
  induction children with
  | nil => intro visited _; exact ⟨_, rfl⟩
  | cons child rest ih =>
    intro visited hch
    obtain ⟨r1, h1⟩ := htotal child visited (hch child (List.mem_cons_self _ _))
    by_cases hr1 : r1.1 = true
    · exact ⟨r1, by simp only [forChildren, h1, Result.bind_ok, if_pos hr1]⟩
    · have e1 := hpath child visited r1 h1 (by simpa using hr1)
      obtain ⟨r, hr⟩ := ih r1.2.2 (fun w hw => hch w (List.mem_cons_of_mem _ hw))
      refine ⟨r, ?_⟩
      simp only [forChildren, h1, Result.bind_ok, if_neg hr1, e1]
      exact hr

theorem FindCircularByDFS_total {D : Type} {s : Sheet D} (hnull : s.cell nullptr = none)
    (hlive : ∀ a ca b, s.cell a = some ca → b ∈ ca.precedent_cells → s.cell b ≠ none) :
    ∀ fuel p path visited, s.cell p ≠ none → path.Nodup → (∀ q ∈ path, s.cell q ≠ none) →
      s.heap.length < fuel + path.length →
      ∃ r, FindCircularByDFS s fuel p path visited = .ok r := by
  have hbound : ∀ path : List Ptr, path.Nodup → (∀ q ∈ path, s.cell q ≠ none) →
      path.length ≤ s.heap.length := by
    intro path hnd hl
    apply length_le_of_nodup_lt hnd
    intro q hq
    obtain ⟨c, hc⟩ := Option.ne_none_iff_exists'.mp (hl q hq)
    exact Sheet.lt_of_cell hc
  intro fuel
  induction fuel with
  | zero =>
    intro p path visited _ hnd hl hfuel
    have := hbound path hnd hl
    omega
  | succ fuel ih =>
    intro p path visited hp hnd hl hfuel
    simp only [FindCircularByDFS]
    by_cases hpp : p ∈ path
    · exact ⟨_, by rw [if_pos hpp]⟩
    · rw [if_neg hpp]
      by_cases hpv : p ∈ visited
      · exact ⟨_, by rw [if_pos hpv]⟩
      · rw [if_neg hpv]
        obtain ⟨c, hc⟩ := Option.ne_none_iff_exists'.mp hp
        have hp0 : p ≠ nullptr := by
          intro h; rw [h, hnull] at hc; exact Option.noConfusion hc
        rw [Sheet.deref_eq_ok.mpr ⟨hp0, hc⟩, Result.bind_ok, setInsert_of_not_mem hpp]
        have hnd' : (p :: path).Nodup := List.nodup_cons.mpr ⟨hpp, hnd⟩
        have hl' : ∀ q ∈ p :: path, s.cell q ≠ none := by
          intro q hq
          rcases List.mem_cons.mp hq with rfl | hq
          · exact hp
          · exact hl q hq
        obtain ⟨r1, h1⟩ := forChildren_total (p :: path) (fun w => s.cell w ≠ none)
          (fun w visited r => FindCircularByDFS_path s fuel w (p :: path) visited r)
          (fun w visited hw => ih w (p :: path) visited hw hnd' hl'
            (by simp only [List.length_cons]; omega))
          c.precedent_cells (setInsert p visited) (fun w hw => hlive p c w hc hw)
        rw [h1, Result.bind_ok]
        by_cases hr1 : r1.1 = true
        · exact ⟨_, by rw [if_pos hr1]⟩
        · exact ⟨_, by rw [if_neg hr1]⟩

theorem willCauseLoop_total {D : Type} {s : Sheet D} {fuel : Nat} {path : List Ptr}
    (htotal : ∀ p visited, s.cell p ≠ none →
      ∃ r, FindCircularByDFS s fuel p path visited = .ok r) :
    ∀ (deps : List Position) (visited : List Ptr),
      (∀ pos ∈ deps, ∃ p, s.GetConcreteCell pos = .ok p ∧ s.cell p ≠ none) →
      ∃ b, willCauseLoop s fuel deps path visited = .ok b := by
  intro deps
  induction deps with
  | nil => intro visited _; exact ⟨false, rfl⟩
  | cons pos rest ih =>
    intro visited hres
    obtain ⟨p, hp, hplive⟩ := hres pos (List.mem_cons_self _ _)
    obtain ⟨r, hr⟩ := htotal p visited hplive
    by_cases hr1 : r.1 = true
    · exact ⟨true, by simp only [willCauseLoop, hp, Result.bind_ok, hr, if_pos hr1]⟩
    · have e1 := FindCircularByDFS_path s fuel p path visited r hr (by simpa using hr1)
      obtain ⟨b, hb⟩ := ih r.2.2 (fun q hq => hres q (List.mem_cons_of_mem _ hq))
      refine ⟨b, ?_⟩
      simp only [willCauseLoop, hp, Result.bind_ok, hr, if_neg hr1, e1]
      exact hb

theorem willCauseLoop_true {D : Type} {s : Sheet D}
    (hacyc : ∀ a, ¬ Relation.TransGen (Edge s) a a) (fuel : Nat) :
    ∀ (deps : List Position) (path visited : List Ptr),
      willCauseLoop s fuel deps path visited = .ok true →
      ∃ pos ∈ deps, ∃ p, s.GetConcreteCell pos = .ok p ∧
        ∃ g ∈ path, Relation.ReflTransGen (Edge s) p g := by
  intro deps
  induction deps with
  | nil =>
    intro path visited h
    simp [willCauseLoop] at h
  | cons pos rest ih =>
    intro path visited h
    simp only [willCauseLoop] at h
    obtain ⟨p, hp, h⟩ := Result.bind_eq_ok h
    obtain ⟨r, hr, h⟩ := Result.bind_eq_ok h
    by_cases hr1 : r.1 = true
    · obtain ⟨g, hg, hreach⟩ := FindCircularByDFS_true hacyc fuel p path visited r hr hr1
      exact ⟨pos, List.mem_cons_self _ _, p, hp, g, hg, hreach⟩
    · rw [if_neg hr1] at h
      have e1 := FindCircularByDFS_path s fuel p path visited r hr (by simpa using hr1)
      rw [e1] at h
      obtain ⟨q, hq, p', hp', g, hg, hreach⟩ := ih path r.2.2 h
      exact ⟨q, List.mem_cons_of_mem _ hq, p', hp', g, hg, hreach⟩

/-- C4. Let the precedent graph of the sheet be acyclic, with all precedent pointers
pointing to living cells, and let every prospective reference resolve to a living
cell. Then `WillCauseCircularDependency` for the cell at `this` returns, and it
returns `true` exactly when `this` is reachable from the cell of some referenced
position along zero or more precedent edges; with the answer `true`, `Cell::Set` of
the formula throws circular-dependency and leaves the sheet as it is. -/
theorem willCause_iff_reachable {D : Type} {s : Sheet D} (hnull : s.cell nullptr = none)
    (hlive : ∀ a ca b, s.cell a = some ca → b ∈ ca.precedent_cells → s.cell b ≠ none)
    (hacyc : ∀ a, ¬ Relation.TransGen (Edge s) a a) {this : Ptr} (hthis : s.cell this ≠ none)
    (ast : FormulaAST D)
    (hres : ∀ pos ∈ ast.GetReferencedCells,
      ∃ p, s.GetConcreteCell pos = .ok p ∧ s.cell p ≠ none) :
    ∃ b, Cell.WillCauseCircularDependency s this (.FormulaImpl ast none) = .ok b ∧
      (b = true ↔ ∃ pos ∈ ast.GetReferencedCells, ∃ p, s.GetConcreteCell pos = .ok p ∧
        Relation.ReflTransGen (Edge s) p this) ∧
      (b = true → ∀ (env : Env D) (nested : Sheet D → Position → String → Outcome D)
        (text : String) (rest : List Char), text.data = FORMULA_SIGN :: rest → rest ≠ [] →
        env.ParseFormulaAST (String.mk rest) = some ast →
        Cell.Set env nested s this text = .thrown .CircularDependencyException s) := by
  have hpath1 : setInsert this [] = [this] := rfl
  have htotal : ∀ p visited, s.cell p ≠ none →
      ∃ r, FindCircularByDFS s (s.heap.length + 1) p [this] visited = .ok r := by
    intro p visited hp
    apply FindCircularByDFS_total hnull hlive _ p [this] visited hp (List.nodup_singleton _)
    · intro q hq
      rw [List.mem_singleton.mp hq]; exact hthis
    · simp only [List.length_singleton]; omega
  obtain ⟨b, hb⟩ := willCauseLoop_total htotal ast.GetReferencedCells [] hres
  have hwc : Cell.WillCauseCircularDependency s this (.FormulaImpl ast none) = .ok b := by
    unfold Cell.WillCauseCircularDependency
    rw [hpath1]
    exact hb
  refine ⟨b, hwc, ?_, ?_⟩
  · constructor
    · intro hbt
      subst hbt
      obtain ⟨pos, hpos, p, hp, g, hg, hreach⟩ := willCauseLoop_true hacyc _ _ _ _ hb
      rw [List.mem_singleton.mp hg] at hreach
      exact ⟨pos, hpos, p, hp, hreach⟩
    · rintro ⟨pos, hpos, p, hp, hreach⟩
      cases b with
      | true => rfl
      | false =>
        obtain ⟨p', hp', _, _, hnr⟩ := WillCauseCircularDependency_false hwc pos hpos
        rw [hp] at hp'; cases hp'
        exact absurd hreach hnr
  · intro hbt env nested text rest hdata hrest hparse
    subst hbt
    have hlen : text.length > 1 := by
      have : text.length = text.data.length := rfl
      rw [this, hdata]
      cases rest with
      | nil => exact absurd rfl hrest
      | cons c r => simp
    have hch : Cell.chooseImpl env s this text = .thrown .CircularDependencyException := by
      unfold Cell.chooseImpl
      rw [hdata]
      simp only [true_and, hlen, if_true, hparse, hwc, Result.bind_ok]
    simp only [Cell.Set, hch]

/-- C4 (witness): in the sheet with `A1 = "1"` and `B1 = "=A1"`, the check for the cell
of `A1` and the formula `B1`. -/
theorem willCause_iff_reachable_witness :
    ∃ b, Cell.WillCauseCircularDependency Example.sheetAB 1
        (.FormulaImpl ⟨[Example.B1], "B1", .cell Example.B1 fun x => .ret x⟩ none) = .ok b ∧
      (b = true ↔ ∃ pos ∈ (⟨[Example.B1], "B1", .cell Example.B1 fun x => .ret x⟩ :
          FormulaAST Int).GetReferencedCells,
        ∃ p, Example.sheetAB.GetConcreteCell pos = .ok p ∧
          Relation.ReflTransGen (Edge Example.sheetAB) p 1) ∧
      (b = true → ∀ (env : Env Int) (nested : Sheet Int → Position → String → Outcome Int)
        (text : String) (rest : List Char), text.data = FORMULA_SIGN :: rest → rest ≠ [] →
        env.ParseFormulaAST (String.mk rest) =
          some ⟨[Example.B1], "B1", .cell Example.B1 fun x => .ret x⟩ →
        Cell.Set env nested Example.sheetAB 1 text =
          .thrown .CircularDependencyException Example.sheetAB) :=
  willCause_iff_reachable (s := Example.sheetAB) rfl
    (fun a ca b ha hb => by
      obtain ⟨cb, hcb, _⟩ := Example.reachable_sheetAB.wf.prec_live a ca b ha hb
      rw [hcb]; simp)
    Example.reachable_sheetAB.wf.acyclic (by simp [Sheet.cell, Example.sheetAB])
    ⟨[Example.B1], "B1", .cell Example.B1 fun x => .ret x⟩
    (fun pos hpos => by
      have : pos = Example.B1 := by simpa [FormulaAST.GetReferencedCells, unique] using hpos
      subst this
      exact ⟨2, rfl, by simp [Sheet.cell, Example.sheetAB]⟩)

/-! ## The outcomes of `SetCell` -/

/-- The outcomes of `SetCell` at a valid position on a sheet that satisfies the
invariant. The cell is created if needed, giving the sheet `s1`; then the call throws
and leaves `s1`, or is undefined, or returns a sheet `s4` that differs from `s1` by the
rewiring for the cell and again satisfies the invariant. -/
theorem Sheet.SetCell_cases {D : Type} (env : Env D) {s : Sheet D} (hwf : WF s)
    {pos : Position} (hv : pos.IsValid = true) (text : String) :
    ∃ s1 this c0, s.materialize pos = .ok (s1, this) ∧ WF s1 ∧ s1.cell this = some c0 ∧
      ((∃ e, Sheet.SetCell env s pos text = .thrown e s1 ∧
          Cell.chooseImpl env s1 this text = .thrown e) ∨
       (∃ f, Sheet.SetCell env s pos text = .undefined f) ∨
       (∃ impl s4 c4, Cell.chooseImpl env s1 this text = .ok impl ∧
          Sheet.SetCell env s pos text = .ok s4 ∧ WF s4 ∧ Rewired this s1 s4 ∧
          s4.cell this = some c4 ∧ c4.impl_ = impl ∧
          c4.dependent_cells = c0.dependent_cells ∧
          (∀ d ∈ c0.dependent_cells, s1.cell d ≠ none) ∧
          (∀ b, b ∈ c4.precedent_cells ↔
            ∃ q ∈ impl.GetDependencies, s1.GetConcreteCell q = .ok b))) := by
  rcases Sheet.SetCell_eq env hwf pos text with ⟨h, _⟩ | ⟨_, s1, this, c0, hm, hc0, h1⟩
  · rw [hv] at h; cases h
  · have hwf1 := hwf.materialize hv hm
    refine ⟨s1, this, c0, hm, hwf1, hc0, ?_⟩
    rcases Cell.Set_spec env (Sheet.SetCellFuel env 1) hwf1 hc0 text with
      ⟨e, hch, h2⟩ | ⟨f, _, h2⟩ | ⟨impl, s4, c4, hch, hwf4, hrw, hthis, himpl, hdep, hprec, hok, hub⟩
    · exact Or.inl ⟨e, by rw [h1, h2], hch⟩
    · exact Or.inr (Or.inl ⟨f, by rw [h1, h2]⟩)
    · by_cases hlive : ∀ d ∈ c0.dependent_cells, s1.cell d ≠ none
      · exact Or.inr (Or.inr ⟨impl, s4, c4, hch, by rw [h1, hok hlive], hwf4, hrw, hthis, himpl,
          hdep, hlive, hprec⟩)
      · have : ∃ d ∈ c0.dependent_cells, s1.cell d = none := by
          by_contra hcon
          exact hlive fun d hd hnone => hcon ⟨d, hd, hnone⟩
        obtain ⟨f, hf⟩ := hub this
        exact Or.inr (Or.inl ⟨f, by rw [h1, hf]⟩)

/-- After `SetCell` at a valid position has returned or thrown, the sheet satisfies
the invariant and the slot of the position holds a cell. -/
theorem Sheet.SetCell_slot {D : Type} {env : Env D} {s s' : Sheet D} (hwf : WF s)
    {pos : Position} (hv : pos.IsValid = true) {text : String}
    (h : Sheet.SetCell env s pos text = .ok s' ∨
      ∃ e, Sheet.SetCell env s pos text = .thrown e s') :
    WF s' ∧ slot s'.table_ pos.row.toNat pos.col.toNat ≠ nullptr := by
  obtain ⟨s1, this, c0, hm, hwf1, hc0, hcases⟩ := Sheet.SetCell_cases env hwf hv text
  obtain ⟨s1', this', hm', _, _, hslot, _⟩ := Sheet.materialize_spec hwf hv
  rw [hm] at hm'
  cases hm'
  have hthis : this ≠ nullptr := hwf1.ne_null hc0
  rcases hcases with ⟨e, h1, _⟩ | ⟨f, h1⟩ | ⟨impl, s4, c4, _, h1, hwf4, hrw, _⟩
  · rcases h with h | ⟨e', h⟩
    · rw [h1] at h; cases h
    · rw [h1] at h; cases h
      exact ⟨hwf1, by rw [hslot]; exact hthis⟩
  · rcases h with h | ⟨e', h⟩
    · rw [h1] at h; cases h
    · rw [h1] at h; cases h
  · rcases h with h | ⟨e', h⟩
    · rw [h1] at h; cases h
      exact ⟨hwf4, by rw [hrw.table_eq, hslot]; exact hthis⟩
    · rw [h1] at h; cases h

/-! ## The grid -/

theorem Sheet.growthContract {D : Type} (env : Env D) {s : Sheet D} (hwf : WF s)
    {pos : Position} (hv : pos.IsValid = true) : GrowthContract env s pos := by
  obtain ⟨s1, this, hm, hwf1, hlive, hslot, _, hcases⟩ := Sheet.materialize_spec hwf hv
  have hthis : this ≠ nullptr := by
    intro h
    rw [h] at hlive
    exact hlive hwf1.cell_null
  have hne : slot s1.table_ pos.row.toNat pos.col.toNat ≠ nullptr := by
    rw [hslot]; exact hthis
  obtain ⟨h1, h2⟩ := slot_ne_null_width hwf1.rect hne
  refine ⟨s1, this, hm, h1, hwf1.rect, fun row hrow => by rw [hwf1.rect row hrow]; exact h2,
    hslot, hthis, ?_, ?_⟩
  · intro text s' h
    obtain ⟨s1', this', c0, hm', _, _, hc⟩ := Sheet.SetCell_cases env hwf hv text
    rw [hm] at hm'
    cases hm'
    rcases hc with ⟨e, ht, _⟩ | ⟨f, hu⟩ | ⟨impl, s4, c4, _, hok, _, hrw, _⟩
    · rcases h with h | ⟨e', h⟩
      · rw [ht] at h; cases h
      · rw [ht] at h; cases h; rfl
    · rcases h with h | ⟨e', h⟩
      · rw [hu] at h; cases h
      · rw [hu] at h; cases h
    · rcases h with h | ⟨e', h⟩
      · rw [hok] at h; cases h
        exact hrw.table_eq
      · rw [hok] at h; cases h
  · intro text hvac hdata hshape
    have hg : s.GetCell pos = .ok (slot s.table_ pos.row.toNat pos.col.toNat) :=
      hwf.GetConcreteCell hv
    rw [hvac, Result.ok.injEq] at hg
    have hnew : s1.cell this = some Cell.new := by
      rcases hcases with ⟨h, _, _⟩ | ⟨_, hthis', hheap, _⟩
      · rw [← hg] at h
        exact absurd h.symm hthis
      · unfold Sheet.cell
        rw [hheap, hthis', List.getD_eq_getElem?_getD]
        simp
    rcases Sheet.SetCell_eq env hwf pos text with ⟨h, _⟩ | ⟨_, s1', this', c0, hm', _, heq⟩
    · rw [hv] at h; cases h
    · rw [hm] at hm'
      cases hm'
      have hch := Cell.chooseImpl_text env s1 this hdata hshape
      rcases Cell.Set_spec env (Sheet.SetCellFuel env 1) hwf1 hnew text with
        ⟨e, hc, _⟩ | ⟨f, hc, _⟩ | ⟨impl, s4, c4, _, _, _, _, _, _, _, hok, _⟩
      · rw [hch] at hc; cases hc
      · rw [hch] at hc; cases hc
      · refine ⟨s4, ?_⟩
        rw [heq]
        exact hok (fun d hd => by simp [Cell.new] at hd)

/-- C14. In every reachable sheet all rows have the width of the first row. At every
valid position the growth steps of `SetCell` return: the table they leave is
rectangular, has more rows than the row of the position and rows wider than its
column, it is the table of every sheet that the call returns or throws with, and the
call returns when the slot was vacant and the text is a plain text. After `SetCell` at
a valid position has returned or thrown, the table has more rows than the row of the
position and every row is wider than its column. The loop that fixes the width of new
rows has a false condition at row `0` of any table, and when it runs on a reachable
sheet it stops at the last old row: the old rows are untouched and the new rows get
the width of the table. -/
theorem reachable_rectangular {D : Type} {env : Env D} {s : Sheet D} (hr : Reachable env s) :
    (∀ row ∈ s.table_, row.length = width s.table_) ∧
    (∀ pos : Position, pos.IsValid = true → GrowthContract env s pos) ∧
    (∀ (pos : Position) (text : String) (s' : Sheet D), pos.IsValid = true →
      (Sheet.SetCell env s pos text = .ok s' ∨
        ∃ e, Sheet.SetCell env s pos text = .thrown e s') →
      pos.row.toNat < s'.table_.length ∧ ∀ row ∈ s'.table_, pos.col.toNat < row.length) ∧
    (∀ table : List (List Ptr), ¬ ((table.getD 0 []).length ≠ width table)) ∧
    (∀ pos : Position, s.table_.length ≤ pos.row.toNat → width s.table_ > pos.col.toNat →
      fixRows ((resize s.table_ (pos.row.toNat + 1) []).length - 1)
          (resize s.table_ (pos.row.toNat + 1) []) =
        s.table_ ++ List.replicate (pos.row.toNat + 1 - s.table_.length)
          (List.replicate (width s.table_) nullptr)) := by
  have hwf := hr.wf
  refine ⟨hwf.rect, fun pos hv => Sheet.growthContract env hwf hv, ?_, ?_, ?_⟩
  · intro pos text s' hv h
    obtain ⟨hwf', hslot⟩ := Sheet.SetCell_slot hwf hv h
    obtain ⟨h1, h2⟩ := slot_ne_null_width hwf'.rect hslot
    exact ⟨h1, fun row hrow => by rw [hwf'.rect row hrow]; exact h2⟩
  · intro table
    cases table with
    | nil => simp [width]
    | cons a t => simp [width]
  · intro pos hrow hcol
    have hne : s.table_ ≠ [] := by
      intro h; rw [h] at hcol; simp [width] at hcol
    have ht1 : resize s.table_ (pos.row.toNat + 1) [] =
        s.table_ ++ List.replicate (pos.row.toNat + 1 - s.table_.length) [] :=
      resize_of_le _ _ _ (by omega)
    have hfix := fixRows_spec s.table_ (width s.table_) (by omega) hne hwf.rect
      (pos.row.toNat + 1 - s.table_.length) 0
    simp only [List.replicate_zero, List.append_nil, Nat.add_zero] at hfix
    rw [ht1]
    have hlen : (s.table_ ++ List.replicate (pos.row.toNat + 1 - s.table_.length)
        ([] : List Ptr)).length - 1 =
        s.table_.length + (pos.row.toNat + 1 - s.table_.length) - 1 := by simp
    rw [hlen, hfix]

/-- C14 (witness): `SetCell(A3, "x")` on the sheet with `A1 = "1"` and `B1 = "=A1"`,
one row of two slots. The call adds two rows, the row-fixing loop gives them the width
two, and the call returns a sheet whose table has three rows of two slots. -/
theorem reachable_rectangular_witness :
    Reachable Example.env Example.sheetAB ∧
    Sheet.SetCell Example.env Example.sheetAB Example.A3 "x" = .ok Example.sheetABA3 ∧
    Example.sheetABA3.table_ = [[1, 2], [0, 0], [3, 0]] ∧
    growTable Example.sheetAB.table_ Example.A3 =
      fixRows 2 (resize Example.sheetAB.table_ 3 []) ∧
    fixRows 2 (resize Example.sheetAB.table_ 3 []) = [[1, 2], [0, 0], [0, 0]] ∧
    (∀ row ∈ Example.sheetAB.table_, row.length = width Example.sheetAB.table_) ∧
    GrowthContract Example.env Example.sheetAB Example.A3 ∧
    (Example.A3.row.toNat < Example.sheetABA3.table_.length ∧
      ∀ row ∈ Example.sheetABA3.table_, Example.A3.col.toNat < row.length) :=
  ⟨Example.reachable_sheetAB, rfl, rfl, rfl, rfl,
    (reachable_rectangular Example.reachable_sheetAB).1,
    (reachable_rectangular Example.reachable_sheetAB).2.1 Example.A3 rfl,
    (reachable_rectangular Example.reachable_sheetAB).2.2.1 Example.A3 "x" Example.sheetABA3
      rfl (Or.inl rfl)⟩

/-- C15. On a reachable sheet `GetCell` never has undefined behaviour. It throws
invalid-position exactly for an invalid position. For a valid position it returns
the null pointer when the row is at or beyond the row count (which decides alone on a
table without rows, where row `0` is not read) or the column is at or beyond the width
of row `0`; otherwise row `p.row` exists, the column is inside that row, and `GetCell`
returns the pointer stored there, which is null or points to a living cell. -/
theorem getCell_total_in_bounds {D : Type} {env : Env D} {s : Sheet D} (hr : Reachable env s)
    (pos : Position) :
    (s.GetCell pos = .thrown .InvalidPositionException ↔ pos.IsValid = false) ∧
    (pos.IsValid = true →
      (s.table_ = [] → pos.row.toNat ≥ s.table_.length) ∧
      (pos.row.toNat ≥ s.table_.length ∨ pos.col.toNat ≥ width s.table_ →
        s.GetCell pos = .ok nullptr) ∧
      (pos.row.toNat < s.table_.length → pos.col.toNat < width s.table_ →
        ∃ row p, s.table_[pos.row.toNat]? = some row ∧ row[pos.col.toNat]? = some p ∧
          s.GetCell pos = .ok p ∧ (p ≠ nullptr → s.cell p ≠ none))) := by
  have hwf := hr.wf
  constructor
  · cases hv : pos.IsValid with
    | false =>
      have : s.GetCell pos = .thrown .InvalidPositionException := Sheet.GetConcreteCell_invalid hv
      simp [this]
    | true =>
      have : s.GetCell pos = _ := hwf.GetConcreteCell hv
      simp [this]
  · intro hv
    have hg : s.GetCell pos = _ := hwf.GetConcreteCell hv
    refine ⟨fun h => by rw [h]; simp, ?_, ?_⟩
    · rintro (h | h)
      · rw [hg, slot_eq_null_of_row h]
      · rw [hg, slot_eq_null_of_col hwf.rect h]
    · intro hrow hcol
      have hr1 : s.table_[pos.row.toNat]? = some s.table_[pos.row.toNat] :=
        List.getElem?_eq_getElem hrow
      have hlen : s.table_[pos.row.toNat].length = width s.table_ :=
        hwf.rect _ (List.getElem_mem _)
      have hc1 : s.table_[pos.row.toNat][pos.col.toNat]? =
          some s.table_[pos.row.toNat][pos.col.toNat] := List.getElem?_eq_getElem (by omega)
      have hs := slot_of_getElem? hr1 hc1
      refine ⟨_, _, hr1, hc1, by rw [hg, hs], ?_⟩
      intro hp
      obtain ⟨cell, hcell⟩ := hwf.owned pos.row.toNat pos.col.toNat (by rw [hs]; exact hp)
      rw [hs] at hcell
      rw [hcell]; simp

/-- C15 (witness): `GetCell(B1)` on the sheet with `A1 = "1"` and `B1 = "=A1"`. -/
theorem getCell_total_in_bounds_witness :
    Reachable Example.env Example.sheetAB ∧ Example.sheetAB.GetCell Example.B1 = .ok 2 ∧
    (Example.sheetAB.GetCell Example.B1 = .thrown .InvalidPositionException ↔
      Example.B1.IsValid = false) ∧
    (Example.B1.IsValid = true →
      (Example.sheetAB.table_ = [] → Example.B1.row.toNat ≥ Example.sheetAB.table_.length) ∧
      (Example.B1.row.toNat ≥ Example.sheetAB.table_.length ∨
          Example.B1.col.toNat ≥ width Example.sheetAB.table_ →
        Example.sheetAB.GetCell Example.B1 = .ok nullptr) ∧
      (Example.B1.row.toNat < Example.sheetAB.table_.length →
        Example.B1.col.toNat < width Example.sheetAB.table_ →
        ∃ row p, Example.sheetAB.table_[Example.B1.row.toNat]? = some row ∧
          row[Example.B1.col.toNat]? = some p ∧
          Example.sheetAB.GetCell Example.B1 = .ok p ∧
          (p ≠ nullptr → Example.sheetAB.cell p ≠ none))) :=
  ⟨Example.reachable_sheetAB, rfl,
    getCell_total_in_bounds Example.reachable_sheetAB Example.B1⟩

/-! ## The cache -/

theorem ReachableWithReads.reachable {D : Type} {env : Env D} {s : Sheet D}
    (h : ReachableWithReads env s) : Reachable env s := by
  induction h with
  | empty => exact Reachable.empty
  | setCell pos text _ hstep ih =>
    rcases hstep with h | ⟨e, h⟩
    · exact Reachable.setCell_ok pos text ih h
    · exact Reachable.setCell_thrown pos text e ih h
  | clearCell pos _ hstep ih =>
    rcases hstep with h | ⟨e, h⟩
    · exact Reachable.clearCell_ok pos ih h
    · exact Reachable.clearCell_thrown pos e ih h
  | getValue fuel p v _ _ ih => exact ih
  | getText p c _ _ ih => exact ih

/-- Where no dependent has a cached value, the loop of `InvalidateCache` never makes
the recursive call: its result is the same whatever stands for the call. -/
theorem invalidateLoop_congr {D : Type} (recur1 recur2 : Sheet D → Ptr → Result (Sheet D))
    (s : Sheet D) (hnc : ∀ a c, s.cell a = some c → c.impl_.HasCache = false) :
    ∀ l : List Ptr, invalidateLoop recur1 l s = invalidateLoop recur2 l s := by
  intro l
  induction l with
  | nil => rfl
  | cons d rest ih =>
    simp only [invalidateLoop]
    cases hd : s.deref d with
    | thrown e => rfl
    | undefined f => rfl
    | ok c =>
      obtain ⟨_, hcell⟩ := Sheet.deref_eq_ok.mp hd
      simp only [Result.bind_ok, hnc d c hcell, Bool.false_eq_true, if_false]
      exact ih

/-- C19. In every sheet reachable by calls of `SetCell`, `ClearCell`, `GetValue` and
`GetText`, no cell has a cached value. So `InvalidateCache` never makes its recursive
call (with any depth allowed it behaves as with no recursion allowed), and whenever
it returns, it returns the sheet unchanged; it returns when every dependent of the
cell is alive. -/
theorem cache_never_populated {D : Type} {env : Env D} {s : Sheet D}
    (hr : ReachableWithReads env s) :
    (∀ a c, s.cell a = some c → c.impl_.HasCache = false) ∧
    (∀ this c, s.cell this = some c →
      (∀ fuel, Cell.InvalidateCacheFuel (fuel + 1) s this = Cell.InvalidateCacheFuel 1 s this) ∧
      Cell.InvalidateCache s this ≠ .undefined .OutOfFuel ∧
      (∀ s', Cell.InvalidateCache s this = .ok s' → s' = s) ∧
      ((∀ d ∈ c.dependent_cells, s.cell d ≠ none) → Cell.InvalidateCache s this = .ok s)) := by
  have hwf := hr.reachable.wf
  refine ⟨hwf.no_cache, ?_⟩
  intro this c hc
  have hinv := InvalidateCache_noCache hwf.cell_null hwf.no_cache hc
  have hfuel : ∀ fuel, Cell.InvalidateCacheFuel (fuel + 1) s this =
      Cell.InvalidateCacheFuel 1 s this := by
    intro fuel
    simp only [Cell.InvalidateCacheFuel]
    cases hd : s.deref this with
    | thrown e => rfl
    | undefined f => rfl
    | ok c' =>
      simp only [Result.bind_ok]
      rw [invalidateLoop_congr (Cell.InvalidateCacheFuel fuel) (Cell.InvalidateCacheFuel 0) s
        hwf.no_cache]
      rfl
  have hcases : Cell.InvalidateCache s this = .ok s ∨
      ∃ d ∈ c.dependent_cells, s.cell d = none := by
    by_cases hlive : ∀ d ∈ c.dependent_cells, s.cell d ≠ none
    · exact Or.inl (hinv.1 hlive)
    · right
      by_contra hcon
      exact hlive fun d hd hnone => hcon ⟨d, hd, hnone⟩
  refine ⟨hfuel, ?_, ?_, hinv.1⟩
  · rcases hcases with h | h
    · rw [h]; simp
    · -- a destroyed dependent: the fault is raised by the dereference, not by the fuel
      intro hoof
      have h1 : Cell.InvalidateCacheFuel 1 s this = .undefined .OutOfFuel := by
        rw [← hfuel s.heap.length]; exact hoof
      have hderef : s.deref this = .ok c := hwf.deref_ok_iff.mpr hc
      simp only [Cell.InvalidateCacheFuel, hderef, Result.bind_ok] at h1
      have hloop : ∀ l : List Ptr,
          invalidateLoop (Cell.InvalidateCacheFuel 0) l s ≠ .undefined .OutOfFuel := by
        intro l
        induction l with
        | nil => simp [invalidateLoop]
        | cons d rest ih =>
          simp only [invalidateLoop]
          cases hd : s.deref d with
          | thrown e => simp [Result.bind]
          | undefined f =>
            simp only [Result.bind]
            intro hf
            simp only [Result.undefined.injEq] at hf
            subst hf
            unfold Sheet.deref at hd
            split at hd
            · cases hd
            · split at hd <;> cases hd
          | ok c' =>
            obtain ⟨_, hcell⟩ := Sheet.deref_eq_ok.mp hd
            simp only [Result.bind_ok, hwf.no_cache d c' hcell, Bool.false_eq_true, if_false]
            exact ih
      split at h1
      · cases h1
      · exact hloop _ h1
  · intro s' hs'
    rcases hcases with h | h
    · rw [h] at hs'; cases hs'; rfl
    · obtain ⟨f, hf⟩ := hinv.2 h
      rw [hf] at hs'; cases hs'

/-- C19 (witness): the sheet with `A1 = "1"` and `B1 = "=A1"`, reached with a read of
the value of `B1` in between. -/
theorem cache_never_populated_witness :
    ReachableWithReads Example.env Example.sheetAB ∧
    (∀ a c, Example.sheetAB.cell a = some c → c.impl_.HasCache = false) ∧
    (∀ this c, Example.sheetAB.cell this = some c →
      (∀ fuel, Cell.InvalidateCacheFuel (fuel + 1) Example.sheetAB this =
        Cell.InvalidateCacheFuel 1 Example.sheetAB this) ∧
      Cell.InvalidateCache Example.sheetAB this ≠ .undefined .OutOfFuel ∧
      (∀ s', Cell.InvalidateCache Example.sheetAB this = .ok s' → s' = Example.sheetAB) ∧
      ((∀ d ∈ c.dependent_cells, Example.sheetAB.cell d ≠ none) →
        Cell.InvalidateCache Example.sheetAB this = .ok Example.sheetAB)) :=
  have h : ReachableWithReads Example.env Example.sheetAB :=
    ReachableWithReads.getValue 2 2 (.number 1)
      (ReachableWithReads.setCell Example.B1 "=A1"
        (ReachableWithReads.setCell Example.A1 "1" ReachableWithReads.empty (Or.inl rfl))
        (Or.inl (rfl : Sheet.SetCell Example.env Example.sheetA Example.B1 "=A1" =
          .ok Example.sheetAB)))
      Example.getValue_B1
  ⟨h, cache_never_populated h⟩

/-! ## Defects that follow from `Cell::Clear` and `ClearCell` -/

/-- C16 (the code at the failing input). After `SetCell(A1, "1")`, `SetCell(B1, "=A1")`,
`SetCell(C1, "=B1")` and `ClearCell(B1)` the cell of `B1` is empty and references no
cell, but its stored precedent set still holds the cell of `A1`; `SetCell(A1, "=B1")`
is then rejected as circular. -/
theorem clear_keeps_stale_precedents :
    Sheet.SetCell Example.env Example.sheetAB Example.C1 "=B1" = .ok Example.sheetABC ∧
    Sheet.ClearCell Example.sheetABC Example.B1 = .ok Example.sheetStale ∧
    Reachable Example.env Example.sheetStale ∧
    Example.sheetStale.GetCell Example.B1 = .ok 2 ∧
    (Example.sheetStale.cell 2).map (·.GetReferencedCells) = some [] ∧
    (Example.sheetStale.cell 2).map (·.precedent_cells) = some [1] ∧
    Example.sheetStale.GetCell Example.A1 = .ok 1 ∧
    Sheet.SetCell Example.env Example.sheetStale Example.A1 "=B1" =
      .thrown .CircularDependencyException Example.sheetStale :=
  ⟨rfl, rfl,
    Reachable.clearCell_ok Example.B1
      (Reachable.setCell_ok Example.C1 "=B1" Example.reachable_sheetAB rfl) rfl,
    rfl, rfl, rfl, rfl, rfl⟩

/-- C11 (the code at the failing input). After `SetCell(A1, "1")`, `SetCell(B1, "=A1")`
and `ClearCell(B1)` the sheet is reachable and `A1` is a valid position, but
`SetCell(A1, "")` does not succeed: `InvalidateCache` dereferences the destroyed cell
of `B1`, which is still a dependent of the cell of `A1`. -/
theorem setCell_empty_use_after_free :
    Reachable Example.env Example.sheetDangling ∧ Example.A1.IsValid = true ∧
    Example.sheetDangling.GetCell Example.A1 = .ok 1 ∧
    (Example.sheetDangling.cell 1).map (·.dependent_cells) = some [2] ∧
    Example.sheetDangling.cell 2 = none ∧
    Sheet.SetCell Example.env Example.sheetDangling Example.A1 "" =
      .undefined .UseAfterFree :=
  ⟨Example.reachable_sheetDangling, rfl, rfl, rfl, rfl, rfl⟩

/-! ## The formula: referenced cells and operand lookup -/

theorem mem_unique_cons (p : Position) :
    ∀ (l : List Position) (a : Position), p ∈ unique (a :: l) ↔ p ∈ a :: l := by
  intro l
  induction l with
  | nil => intro a; simp [unique]
  | cons b rest ih =>
    intro a
    simp only [unique]
    by_cases hab : a = b
    · subst hab
      rw [if_pos rfl, ih a]
      simp
    · rw [if_neg hab, List.mem_cons, ih b]
      simp

theorem mem_unique (p : Position) (l : List Position) : p ∈ unique l ↔ p ∈ l := by
  cases l with
  | nil => simp [unique]
  | cons a l => exact mem_unique_cons p l a

theorem unique_head (l : List Position) (a : Position) : (unique (a :: l)).head? = some a := by
  induction l generalizing a with
  | nil => simp [unique]
  | cons b rest ih =>
    simp only [unique]
    by_cases hab : a = b
    · subst hab
      rw [if_pos rfl]; exact ih a
    · rw [if_neg hab]; rfl

theorem unique_chain (l : List Position) : (unique l).Chain' (· ≠ ·) := by
  cases l with
  | nil => simp [unique]
  | cons a l =>
    induction l generalizing a with
    | nil => simp [unique]
    | cons b rest ih =>
      simp only [unique]
      by_cases hab : a = b
      · subst hab
        rw [if_pos rfl]; exact ih a
      · rw [if_neg hab, List.chain'_cons']
        refine ⟨?_, ih b⟩
        intro y hy
        rw [unique_head] at hy
        simp only [Option.mem_def, Option.some.injEq] at hy
        subst hy
        exact hab

theorem unique_nodup_of_pairwise {le : Position → Position → Prop}
    (hanti : ∀ a b, le a b → le b a → a = b) (l : List Position) (hl : l.Pairwise le) :
    (unique l).Nodup := by
  cases l with
  | nil => simp [unique]
  | cons a l =>
    induction l generalizing a with
    | nil => simp [unique]
    | cons b rest ih =>
      simp only [unique]
      obtain ⟨ha, hrest⟩ := List.pairwise_cons.mp hl
      by_cases hab : a = b
      · subst hab
        rw [if_pos rfl]; exact ih a hrest
      · rw [if_neg hab, List.nodup_cons]
        refine ⟨?_, ih b hrest⟩
        intro hmem
        rw [mem_unique_cons] at hmem
        rcases List.mem_cons.mp hmem with h | h
        · exact hab h
        · have h1 : le b a := (List.pairwise_cons.mp hrest).1 a h
          have h2 : le a b := ha b (List.mem_cons_self _ _)
          exact hab (hanti a b h2 h1)

/-- What `std::unique` does achieve in `GetReferencedCells`. The list of an empty or
text cell is empty. For a formula cell the list is the sequence of the AST with every
run of equal neighbours cut down to one position: it has the same elements, no two
neighbours in it are equal, and it is free of duplicates whenever the sequence of the
AST is sorted by an antisymmetric order. -/
theorem Cell.GetReferencedCells_unique {D : Type} (c : Cell D) :
    (c.impl_ = .EmptyImpl → c.GetReferencedCells = []) ∧
    (∀ text_, c.impl_ = .TextImpl text_ → c.GetReferencedCells = []) ∧
    (∀ formula_ cache_, c.impl_ = .FormulaImpl formula_ cache_ →
      (∀ p, p ∈ c.GetReferencedCells ↔ p ∈ formula_.cells) ∧
      c.GetReferencedCells.Chain' (· ≠ ·) ∧
      ∀ le : Position → Position → Prop, (∀ a b, le a b → le b a → a = b) →
        formula_.cells.Pairwise le → c.GetReferencedCells.Nodup) := by
  refine ⟨?_, ?_, ?_⟩
  · intro h
    simp only [Cell.GetReferencedCells, h, Impl.GetDependencies]
  · intro t h
    simp only [Cell.GetReferencedCells, h, Impl.GetDependencies]
  · intro f cache h
    simp only [Cell.GetReferencedCells, h, Impl.GetDependencies, FormulaAST.GetReferencedCells]
    exact ⟨fun p => mem_unique p f.cells, unique_chain f.cells,
      fun le hanti hl => unique_nodup_of_pairwise hanti f.cells hl⟩

theorem Formula.Evaluate_of_asks {D : Type} {lookup : Position → Result (FValue D)}
    {exec : Exec D} {pos : Position} {e : FormulaError} (h : Exec.Asks lookup exec pos)
    (he : lookup pos = .ok (.error e)) : Formula.Evaluate lookup exec = .ok (.error e) := by
  induction h with
  | here pos k => simp only [Formula.Evaluate, he, Result.bind_ok]
  | later first k x pos hfirst _ ih =>
    simp only [Formula.Evaluate, hfirst, Result.bind_ok]
    exact ih he

/-- C12. The lookup callback of `Formula::Evaluate` throws the error `Ref` for an invalid
position, returns `0` for a position without a cell, returns the number of a cell
whose value is a number, returns the parsed number of a text that the numeric parse
consumes in full and throws the error `Value` for any other text (also for the empty
text, on which `std::stod` throws), and throws the error of a cell whose value is an
error. When the run of a formula reaches a call of the callback that throws an error,
`Evaluate` returns that error. -/
theorem lookup_coercion {D : Type} (env : Env D) (GetValue : Ptr → Result (Value D))
    (s : Sheet D) (pos : Position) : LookupContract env GetValue s pos := by
  refine ⟨?_, ?_, ?_, ?_⟩
  · intro hv
    simp [Formula.lookup, hv]
  · intro hv hg
    simp [Formula.lookup, hv, hg]
  · intro p hv hg hp
    refine ⟨?_, ?_, ?_, ?_, ?_⟩
    · intro x hx
      simp [Formula.lookup, hv, hg, hp, hx]
    · intro str x hx hstod
      simp [Formula.lookup, hv, hg, hp, hx, hstod]
    · intro str hx hstod
      rcases hstod with h | ⟨x, n, h, hn⟩
      · simp [Formula.lookup, hv, hg, hp, hx, h]
      · simp [Formula.lookup, hv, hg, hp, hx, h, hn]
    · intro hstod hx
      simp [Formula.lookup, hv, hg, hp, hx, hstod]
    · intro e hx
      simp [Formula.lookup, hv, hg, hp, hx]
  · intro exec e hasks he
    exact Formula.Evaluate_of_asks hasks he

/-- C12 (witness): the callback at `A1` on the sheet where `A1` holds the text `'`,
whose value is the empty text: the lookup throws the error `Value`, and so does the
formula `A1`. -/
theorem lookup_coercion_witness :
    Formula.lookup Example.env (Cell.GetValue Example.env Example.sheetQuote 1)
      Example.sheetQuote Example.A1 = .ok (.error ⟨.Value⟩) ∧
    Formula.Evaluate (Formula.lookup Example.env (Cell.GetValue Example.env Example.sheetQuote 1)
      Example.sheetQuote) (.cell Example.A1 fun x => .ret x) = .ok (.error ⟨.Value⟩) ∧
    LookupContract Example.env (Cell.GetValue Example.env Example.sheetQuote 1)
      Example.sheetQuote Example.A1 :=
  ⟨rfl,
    (lookup_coercion Example.env (Cell.GetValue Example.env Example.sheetQuote 1)
      Example.sheetQuote Example.A1).2.2.2 _ _ (Exec.Asks.here _ _) rfl,
    lookup_coercion Example.env (Cell.GetValue Example.env Example.sheetQuote 1)
      Example.sheetQuote Example.A1⟩

/-! ## Termination of the cycle search on arbitrary graphs -/

theorem forChildrenLog_erase
    {visit : Ptr → List Ptr → List Ptr → Result (Bool × List Ptr × List Ptr)}
    {visitL : Ptr → List Ptr → List Ptr → List Ptr →
      Result (Bool × List Ptr × List Ptr × List Ptr)}
    (hvisit : ∀ p path visited log,
      visit p path visited = (visitL p path visited log).bind fun r => .ok (dropLog r)) :
    ∀ (children path visited log : List Ptr),
      forChildren visit children path visited =
        (forChildrenLog visitL children path visited log).bind fun r => .ok (dropLog r) := by
  intro children
  induction children with
  | nil => intro path visited log; rfl
  | cons child rest ih =>
    intro path visited log
    simp only [forChildren, forChildrenLog]
    rw [hvisit child path visited log]
    cases visitL child path visited log with
    | ok r =>
      simp only [Result.bind_ok]
      by_cases hr : r.1 = true
      · have hd : (dropLog r).1 = true := hr
        rw [if_pos hr, if_pos hd]; rfl
      · have hd : ¬ (dropLog r).1 = true := hr
        rw [if_neg hr, if_neg hd]
        exact ih _ _ _
    | thrown e => rfl
    | undefined u => rfl

theorem FindCircularByDFSLog_erase {D : Type} (s : Sheet D) :
    ∀ (fuel : Nat) (p : Ptr) (path visited log : List Ptr),
      FindCircularByDFS s fuel p path visited =
        (FindCircularByDFSLog s fuel p path visited log).bind fun r => .ok (dropLog r) := by
  intro fuel
  induction fuel with
  | zero => intro p path visited log; rfl
  | succ fuel ih =>
    intro p path visited log
    simp only [FindCircularByDFS, FindCircularByDFSLog]
    by_cases hp : p ∈ path
    · rw [if_pos hp, if_pos hp]; rfl
    · rw [if_neg hp, if_neg hp]
      by_cases hv : p ∈ visited
      · rw [if_pos hv, if_pos hv]; rfl
      · rw [if_neg hv, if_neg hv]
        cases s.deref p with
        | ok c =>
          simp only [Result.bind_ok]
          rw [forChildrenLog_erase ih c.precedent_cells _ _ (p :: log)]
          cases forChildrenLog (FindCircularByDFSLog s fuel) c.precedent_cells
              (setInsert p path) (setInsert p visited) (p :: log) with
          | ok r =>
            simp only [Result.bind_ok]
            by_cases hr : r.1 = true
            · have hd : (dropLog r).1 = true := hr
              rw [if_pos hr, if_pos hd]; rfl
            · have hd : ¬ (dropLog r).1 = true := hr
              rw [if_neg hr, if_neg hd]; rfl
          | thrown e => rfl
          | undefined u => rfl
        | thrown e => rfl
        | undefined u => rfl

theorem willCauseLoopLog_erase {D : Type} (s : Sheet D) (fuel : Nat) :
    ∀ (deps : List Position) (path visited log : List Ptr),
      willCauseLoop s fuel deps path visited =
        (willCauseLoopLog s fuel deps path visited log).bind fun r => .ok r.1 := by
  intro deps
  induction deps with
  | nil => intro path visited log; rfl
  | cons pos rest ih =>
    intro path visited log
    simp only [willCauseLoop, willCauseLoopLog]
    cases s.GetConcreteCell pos with
    | ok q =>
      simp only [Result.bind_ok]
      rw [FindCircularByDFSLog_erase s fuel q path visited log]
      cases FindCircularByDFSLog s fuel q path visited log with
      | ok r =>
        simp only [Result.bind_ok]
        by_cases hr : r.1 = true
        · have hd : (dropLog r).1 = true := hr
          rw [if_pos hr, if_pos hd]; rfl
        · have hd : ¬ (dropLog r).1 = true := hr
          rw [if_neg hr, if_neg hd]
          exact ih _ _ _
      | thrown e => rfl
      | undefined u => rfl
    | thrown e => rfl
    | undefined u => rfl

theorem LogSpec.of_same (visited log : List Ptr) : LogSpec visited log visited log :=
  ⟨fun _ h => h, [], rfl, List.nodup_nil, fun _ h => by simp at h⟩

theorem LogSpec.then {v0 l0 v1 l1 v2 l2 : List Ptr} (h1 : LogSpec v0 l0 v1 l1)
    (h2 : LogSpec v1 l1 v2 l2) : LogSpec v0 l0 v2 l2 := by
  obtain ⟨hm1, n1, he1, hn1, hx1⟩ := h1
  obtain ⟨hm2, n2, he2, hn2, hx2⟩ := h2
  refine ⟨fun v hv => hm2 v (hm1 v hv), n2 ++ n1, ?_, ?_, ?_⟩
  · rw [he2, he1, List.append_assoc]
  · rw [List.nodup_append]
    refine ⟨hn2, hn1, ?_⟩
    intro x hx2' hx1'
    exact (hx2 x hx2').1 ((hx1 x hx1').2)
  · intro x hx
    rcases List.mem_append.mp hx with h | h
    · exact ⟨fun hv => (hx2 x h).1 (hm1 x hv), (hx2 x h).2⟩
    · exact ⟨(hx1 x h).1, hm2 x (hx1 x h).2⟩

theorem forChildrenLog_spec
    {visitL : Ptr → List Ptr → List Ptr → List Ptr →
      Result (Bool × List Ptr × List Ptr × List Ptr)}
    (hvisit : ∀ p path visited log r, visitL p path visited log = .ok r →
      LogSpec visited log r.2.2.1 r.2.2.2) :
    ∀ (children path visited log : List Ptr) (r : Bool × List Ptr × List Ptr × List Ptr),
      forChildrenLog visitL children path visited log = .ok r →
      LogSpec visited log r.2.2.1 r.2.2.2 := by
  intro children
  induction children with
  | nil =>
    intro path visited log r h
    simp only [forChildrenLog, Result.ok.injEq] at h
    subst h
    exact LogSpec.of_same _ _
  | cons child rest ih =>
    intro path visited log r h
    simp only [forChildrenLog] at h
    obtain ⟨r1, h1, h2⟩ := Result.bind_eq_ok h
    have hs1 := hvisit _ _ _ _ _ h1
    by_cases hr : r1.1 = true
    · rw [if_pos hr, Result.ok.injEq] at h2
      subst h2
      exact hs1
    · rw [if_neg hr] at h2
      exact hs1.then (ih _ _ _ _ h2)

theorem FindCircularByDFSLog_spec {D : Type} (s : Sheet D) :
    ∀ (fuel : Nat) (p : Ptr) (path visited log : List Ptr)
      (r : Bool × List Ptr × List Ptr × List Ptr),
      FindCircularByDFSLog s fuel p path visited log = .ok r →
      LogSpec visited log r.2.2.1 r.2.2.2 := by
  intro fuel
  induction fuel with
  | zero =>
    intro p path visited log r h
    simp [FindCircularByDFSLog] at h
  | succ fuel ih =>
    intro p path visited log r h
    simp only [FindCircularByDFSLog] at h
    by_cases hp : p ∈ path
    · rw [if_pos hp, Result.ok.injEq] at h
      subst h
      exact LogSpec.of_same _ _
    · rw [if_neg hp] at h
      by_cases hv : p ∈ visited
      · rw [if_pos hv, Result.ok.injEq] at h
        subst h
        exact LogSpec.of_same _ _
      · rw [if_neg hv] at h
        obtain ⟨c, _, h1⟩ := Result.bind_eq_ok h
        obtain ⟨r1, h2, h3⟩ := Result.bind_eq_ok h1
        have hs := forChildrenLog_spec ih _ _ _ _ _ h2
        have hstep : LogSpec visited log (setInsert p visited) (p :: log) := by
          refine ⟨fun v hv' => mem_setInsert.mpr (Or.inr hv'), [p], rfl,
            List.nodup_singleton p, ?_⟩
          intro x hx
          rw [List.mem_singleton] at hx
          subst hx
          exact ⟨hv, mem_setInsert.mpr (Or.inl rfl)⟩
        have hall := hstep.then hs
        by_cases hr : r1.1 = true
        · rw [if_pos hr, Result.ok.injEq] at h3
          subst h3
          exact hall
        · rw [if_neg hr, Result.ok.injEq] at h3
          subst h3
          exact hall

theorem willCauseLoopLog_spec {D : Type} (s : Sheet D) (fuel : Nat) :
    ∀ (deps : List Position) (path visited log : List Ptr) (r : Bool × List Ptr),
      willCauseLoopLog s fuel deps path visited log = .ok r →
      ∃ visitedOut, LogSpec visited log visitedOut r.2 := by
  intro deps
  induction deps with
  | nil =>
    intro path visited log r h
    simp only [willCauseLoopLog, Result.ok.injEq] at h
    subst h
    exact ⟨visited, LogSpec.of_same _ _⟩
  | cons pos rest ih =>
    intro path visited log r h
    simp only [willCauseLoopLog] at h
    obtain ⟨q, _, h1⟩ := Result.bind_eq_ok h
    obtain ⟨r1, h2, h3⟩ := Result.bind_eq_ok h1
    have hs := FindCircularByDFSLog_spec s _ _ _ _ _ _ h2
    by_cases hr : r1.1 = true
    · rw [if_pos hr, Result.ok.injEq] at h3
      subst h3
      exact ⟨_, hs⟩
    · rw [if_neg hr] at h3
      obtain ⟨vo, hvo⟩ := ih _ _ _ _ h3
      exact ⟨vo, hs.then hvo⟩

theorem FindCircularByDFS_visited_mono {D : Type} (s : Sheet D) {fuel : Nat} {p : Ptr}
    {path visited : List Ptr} {r : Bool × List Ptr × List Ptr}
    (h : FindCircularByDFS s fuel p path visited = .ok r) : ∀ v ∈ visited, v ∈ r.2.2 := by
  rw [FindCircularByDFSLog_erase s fuel p path visited []] at h
  obtain ⟨rl, hl, hd⟩ := Result.bind_eq_ok h
  rw [Result.ok.injEq] at hd
  subst hd
  exact (FindCircularByDFSLog_spec s _ _ _ _ _ _ hl).1

theorem forChildren_total_of_measure
    {visit : Ptr → List Ptr → List Ptr → Result (Bool × List Ptr × List Ptr)}
    (P : List Ptr → Prop) (ok : Ptr → Prop)
    (hmono : ∀ p path visited r, visit p path visited = .ok r → P visited → P r.2.2)
    (htotal : ∀ p path visited, ok p → P visited → ∃ r, visit p path visited = .ok r) :
    ∀ (children path visited : List Ptr), (∀ w ∈ children, ok w) → P visited →
      ∃ r, forChildren visit children path visited = .ok r := by
  intro children
  induction children with
  | nil => intro path visited _ _; exact ⟨_, rfl⟩
  | cons child rest ih =>
    intro path visited hch hP
    obtain ⟨r1, h1⟩ := htotal child path visited (hch child (List.mem_cons_self _ _)) hP
    simp only [forChildren, h1, Result.bind_ok]
    by_cases hr : r1.1 = true
    · rw [if_pos hr]; exact ⟨_, rfl⟩
    · rw [if_neg hr]
      exact ih _ _ (fun w hw => hch w (List.mem_cons_of_mem _ hw)) (hmono _ _ _ _ h1 hP)

theorem unvisited_card_mono {n : Nat} {visited visited' : List Ptr}
    (h : ∀ v ∈ visited, v ∈ visited') :
    (Finset.range n \ visited'.toFinset).card ≤ (Finset.range n \ visited.toFinset).card := by
  apply Finset.card_le_card
  intro x hx
  rw [Finset.mem_sdiff] at hx ⊢
  refine ⟨hx.1, fun hm => hx.2 ?_⟩
  rw [List.mem_toFinset] at hm ⊢
  exact h x hm

theorem unvisited_card_insert {n : Nat} {visited : List Ptr} {p : Ptr} (hp : p < n)
    (hv : p ∉ visited) :
    (Finset.range n \ (setInsert p visited).toFinset).card <
      (Finset.range n \ visited.toFinset).card := by
  apply Finset.card_lt_card
  rw [Finset.ssubset_iff_of_subset]
  · refine ⟨p, ?_, ?_⟩
    · rw [Finset.mem_sdiff, List.mem_toFinset]
      exact ⟨Finset.mem_range.mpr hp, hv⟩
    · rw [Finset.mem_sdiff, List.mem_toFinset]
      exact fun h => h.2 (mem_setInsert.mpr (Or.inl rfl))
  · intro x hx
    rw [Finset.mem_sdiff] at hx ⊢
    refine ⟨hx.1, fun hm => hx.2 ?_⟩
    rw [List.mem_toFinset] at hm ⊢
    exact mem_setInsert.mpr (Or.inr hm)

theorem FindCircularByDFS_total_of_measure {D : Type} {s : Sheet D}
    (hlive : ∀ a ca b, s.deref a = .ok ca → b ∈ ca.precedent_cells → ∃ cb, s.deref b = .ok cb) :
    ∀ (fuel : Nat) (p : Ptr) (path visited : List Ptr), (∃ c, s.deref p = .ok c) →
      (Finset.range s.heap.length \ visited.toFinset).card < fuel →
      ∃ r, FindCircularByDFS s fuel p path visited = .ok r := by
  intro fuel
  induction fuel with
  | zero => intro p path visited _ h; omega
  | succ fuel ih =>
    intro p path visited hp hm
    obtain ⟨c, hc⟩ := hp
    simp only [FindCircularByDFS]
    by_cases hpp : p ∈ path
    · rw [if_pos hpp]; exact ⟨_, rfl⟩
    · rw [if_neg hpp]
      by_cases hv : p ∈ visited
      · rw [if_pos hv]; exact ⟨_, rfl⟩
      · rw [if_neg hv, hc, Result.bind_ok]
        have hlt : p < s.heap.length := Sheet.lt_of_cell (Sheet.deref_eq_ok.mp hc).2
        have hm' : (Finset.range s.heap.length \ (setInsert p visited).toFinset).card < fuel := by
          have := unvisited_card_insert hlt hv
          omega
        obtain ⟨r, hr⟩ := forChildren_total_of_measure
          (fun visited => (Finset.range s.heap.length \ visited.toFinset).card < fuel)
          (fun w => ∃ cw, s.deref w = .ok cw)
          (fun q path visited r h hP =>
            lt_of_le_of_lt (unvisited_card_mono (FindCircularByDFS_visited_mono s h)) hP)
          (fun q path visited hq hP => ih q path visited hq hP)
          c.precedent_cells (setInsert p path) (setInsert p visited)
          (fun w hw => hlive p c w hc hw) hm'
        rw [hr, Result.bind_ok]
        by_cases hr1 : r.1 = true
        · rw [if_pos hr1]; exact ⟨_, rfl⟩
        · rw [if_neg hr1]; exact ⟨_, rfl⟩

theorem unvisited_card_le (n : Nat) (visited : List Ptr) :
    (Finset.range n \ visited.toFinset).card ≤ n := by
  have := Finset.card_le_card (Finset.sdiff_subset (s := Finset.range n) (t := visited.toFinset))
  rwa [Finset.card_range] at this

theorem willCauseLoop_total_of_live {D : Type} {s : Sheet D} {fuel : Nat}
    (hlive : ∀ a ca b, s.deref a = .ok ca → b ∈ ca.precedent_cells → ∃ cb, s.deref b = .ok cb)
    (hfuel : s.heap.length < fuel) :
    ∀ (deps : List Position) (path visited : List Ptr),
      (∀ pos ∈ deps, ∃ q c, s.GetConcreteCell pos = .ok q ∧ s.deref q = .ok c) →
      ∃ b, willCauseLoop s fuel deps path visited = .ok b := by
  intro deps
  induction deps with
  | nil => intro path visited _; exact ⟨false, rfl⟩
  | cons pos rest ih =>
    intro path visited hres
    obtain ⟨q, c, hq, hc⟩ := hres pos (List.mem_cons_self _ _)
    obtain ⟨r, hr⟩ := FindCircularByDFS_total_of_measure hlive fuel q path visited ⟨c, hc⟩
      (lt_of_le_of_lt (unvisited_card_le _ _) hfuel)
    simp only [willCauseLoop, hq, hr, Result.bind_ok]
    by_cases hr1 : r.1 = true
    · rw [if_pos hr1]; exact ⟨_, rfl⟩
    · rw [if_neg hr1]
      exact ih _ _ (fun pos' h => hres pos' (List.mem_cons_of_mem _ h))

/-- C17. On any heap of cells whose precedent sets hold pointers to cells, with or
without cycles, `FindCircularByDFS` entered at any cell with any `path` and `visited`
returns a result for every recursion bound above the number of addresses. The cells
whose precedents it goes through are pairwise different, were not in `visited` at entry
and are in `visited` at exit; a false return leaves `path` as it was at entry, and
`visited` only grows. A whole `WillCauseCircularDependency` check, whose references
resolve to cells, returns a result and goes through the precedents of no cell twice. -/
theorem findCircular_terminates {D : Type} (s : Sheet D)
    (hlive : ∀ a ca b, s.deref a = .ok ca → b ∈ ca.precedent_cells → ∃ cb, s.deref b = .ok cb) :
    (∀ (p : Ptr) (path visited : List Ptr) (fuel : Nat), (∃ c, s.deref p = .ok c) →
      s.heap.length < fuel →
      ∃ r log, FindCircularByDFS s fuel p path visited = .ok r ∧
        FindCircularByDFSLog s fuel p path visited [] = .ok (r.1, r.2.1, r.2.2, log) ∧
        log.Nodup ∧ (∀ x ∈ log, x ∉ visited ∧ x ∈ r.2.2) ∧
        (r.1 = false → r.2.1 = path) ∧ (∀ v ∈ visited, v ∈ r.2.2)) ∧
    (∀ (this : Ptr) (impl_temp : Impl D),
      (∀ pos ∈ impl_temp.GetDependencies,
        ∃ q c, s.GetConcreteCell pos = .ok q ∧ s.deref q = .ok c) →
      ∃ b log, Cell.WillCauseCircularDependency s this impl_temp = .ok b ∧
        willCauseLoopLog s (s.heap.length + 1) impl_temp.GetDependencies
          (setInsert this []) [] [] = .ok (b, log) ∧
        log.Nodup) := by
  refine ⟨?_, ?_⟩
  · intro p path visited fuel hp hfuel
    obtain ⟨r, hr⟩ := FindCircularByDFS_total_of_measure hlive fuel p path visited hp
      (lt_of_le_of_lt (unvisited_card_le _ _) hfuel)
    have he := FindCircularByDFSLog_erase s fuel p path visited []
    rw [hr] at he
    obtain ⟨rl, hl, hd⟩ := Result.bind_eq_ok he.symm
    rw [Result.ok.injEq] at hd
    subst hd
    obtain ⟨hmono, new, hnew, hnd, hx⟩ := FindCircularByDFSLog_spec s _ _ _ _ _ _ hl
    rw [List.append_nil] at hnew
    refine ⟨dropLog rl, rl.2.2.2, hr, hl, ?_, ?_, ?_, hmono⟩
    · rw [hnew]; exact hnd
    · rw [hnew]; exact hx
    · exact FindCircularByDFS_path s _ _ _ _ _ hr
  · intro this impl_temp hres
    obtain ⟨b, hb⟩ := willCauseLoop_total_of_live hlive (Nat.lt_succ_self s.heap.length)
      impl_temp.GetDependencies (setInsert this []) [] hres
    have he := willCauseLoopLog_erase s (s.heap.length + 1) impl_temp.GetDependencies
      (setInsert this []) [] []
    rw [hb] at he
    obtain ⟨rl, hl, hd⟩ := Result.bind_eq_ok he.symm
    rw [Result.ok.injEq] at hd
    subst hd
    obtain ⟨vo, _, new, hnew, hnd, _⟩ := willCauseLoopLog_spec s _ _ _ _ _ _ hl
    rw [List.append_nil] at hnew
    refine ⟨rl.1, rl.2, hb, hl, ?_⟩
    rw [hnew]; exact hnd

theorem Example.sheetCycle_live (a : Ptr) (ca : Cell Int) (b : Ptr)
    (ha : Example.sheetCycle.deref a = .ok ca) (hb : b ∈ ca.precedent_cells) :
    ∃ cb, Example.sheetCycle.deref b = .ok cb := by
  obtain ⟨hne, hcell⟩ := Sheet.deref_eq_ok.mp ha
  have hlt : a < 4 := Sheet.lt_of_cell hcell
  have h0 : a ≠ 0 := hne
  interval_cases a
  · exact absurd rfl h0
  · simp only [Sheet.cell, Example.sheetCycle, List.getD_cons_succ, List.getD_cons_zero,
      Option.some.injEq] at hcell
    subst hcell
    simp only [List.mem_singleton] at hb
    subst hb
    exact ⟨_, rfl⟩
  · simp only [Sheet.cell, Example.sheetCycle, List.getD_cons_succ, List.getD_cons_zero,
      Option.some.injEq] at hcell
    subst hcell
    simp only [List.mem_singleton] at hb
    subst hb
    exact ⟨_, rfl⟩
  · simp only [Sheet.cell, Example.sheetCycle, List.getD_cons_succ, List.getD_cons_zero,
      Option.some.injEq] at hcell
    subst hcell
    simp only [List.mem_singleton] at hb
    subst hb
    exact ⟨_, rfl⟩

/-- C17 (witness): on a heap where the cells at `1` and `2` are precedents of each
other, the search entered at the cell at `3`, which has `1` as its precedent, returns
true after going through the precedents of `3`, `1` and `2` once each. -/
theorem findCircular_terminates_witness :
    FindCircularByDFSLog Example.sheetCycle 5 3 [] [] [] = .ok (true, [2, 1, 3], [2, 1, 3], [2, 1, 3]) ∧
    ∃ r log, FindCircularByDFS Example.sheetCycle 5 3 [] [] = .ok r ∧
      FindCircularByDFSLog Example.sheetCycle 5 3 [] [] [] = .ok (r.1, r.2.1, r.2.2, log) ∧
      log.Nodup ∧ (∀ x ∈ log, x ∉ ([] : List Ptr) ∧ x ∈ r.2.2) ∧
      (r.1 = false → r.2.1 = []) ∧ (∀ v ∈ ([] : List Ptr), v ∈ r.2.2) :=
  ⟨rfl, (findCircular_terminates Example.sheetCycle Example.sheetCycle_live).1 3 [] [] 5
    ⟨_, rfl⟩ (by decide)⟩

/-! ## The frame of `SetCell` -/

theorem Sheet.textAt_congr {D : Type} {s s' : Sheet D} (hwf : WF s) (hwf' : WF s')
    (q : Position) (hg : s'.GetCell q = s.GetCell q)
    (hcell : ∀ p c, s.GetCell q = .ok p → s.cell p = some c →
      ∃ c', s'.cell p = some c' ∧ c'.impl_ = c.impl_) :
    s'.textAt q = s.textAt q := by
  unfold Sheet.textAt
  rw [hg]
  cases hgq : s.GetCell q with
  | thrown e => rfl
  | undefined f => rfl
  | ok p =>
    simp only [Result.bind_ok]
    by_cases hp : p = nullptr
    · rw [if_pos hp, if_pos hp]
    · rw [if_neg hp, if_neg hp]
      have hq : q.IsValid = true := by
        cases hqv : q.IsValid with
        | true => rfl
        | false =>
          have : s.GetCell q = .thrown .InvalidPositionException :=
            Sheet.GetConcreteCell_invalid hqv
          rw [this] at hgq
          cases hgq
      have hslot : s.GetCell q = .ok (slot s.table_ q.row.toNat q.col.toNat) :=
        hwf.GetConcreteCell hq
      rw [hgq, Result.ok.injEq] at hslot
      obtain ⟨c, hc⟩ := hwf.owned q.row.toNat q.col.toNat (by rw [← hslot]; exact hp)
      rw [← hslot] at hc
      obtain ⟨c', hc', himpl⟩ := hcell p c hgq hc
      rw [hwf.deref_ok_iff.mpr hc, hwf'.deref_ok_iff.mpr hc', Result.bind_ok, Result.bind_ok]
      simp only [Cell.GetText, himpl]

/-- C18. On a reachable sheet, a `SetCell(pos, text)` at a valid position that returns or
throws leaves `GetCell` and the text at every other position as they were, a vacant
slot counting as the empty text; so the only slot that can go from vacant to occupied
is the slot of `pos`. After a return every position that the new content references is
another position, which had a cell before the call; after an exception a slot of `pos`
that was vacant holds a new empty cell. -/
theorem setCell_frame {D : Type} (env : Env D) {s s' : Sheet D} (hr : Reachable env s)
    {pos : Position} (hv : pos.IsValid = true) (text : String)
    (h : Sheet.SetCell env s pos text = .ok s' ∨
      ∃ e, Sheet.SetCell env s pos text = .thrown e s') :
    SetCellFrame env s pos text s' := by
  have hwf := hr.wf
  obtain ⟨s1, this, c0, hm, hwf1, hc0, hcases⟩ := Sheet.SetCell_cases env hwf hv text
  obtain ⟨f1, f2, f3, f4, f5, f6⟩ := Sheet.materialize_frame hwf hv hm
  have hthis : slot s1.table_ pos.row.toNat pos.col.toNat = this := by
    obtain ⟨s1', this', hm', _, _, hslot, _⟩ := Sheet.materialize_spec hwf hv
    rw [hm] at hm'
    cases hm'
    exact hslot
  have hg1 : s1.GetCell pos = .ok this := by
    have := hwf1.GetConcreteCell hv
    rw [hthis] at this
    exact this
  have hne : this ≠ nullptr := hwf1.ne_null hc0
  have ht1 : ∀ q, q ≠ pos → s1.textAt q = s.textAt q := fun q hq =>
    Sheet.textAt_congr hwf hwf1 q (f3 q hq) (fun p c _ hc => ⟨c, f1 p c hc, rfl⟩)
  have hother : ∀ q p, q ≠ pos → s1.GetCell q = .ok p → p ≠ nullptr → p ≠ this := by
    intro q p hq hgq hp hpt
    have hqv : q.IsValid = true := by
      cases hqv : q.IsValid with
      | true => rfl
      | false =>
        have : s1.GetCell q = .thrown .InvalidPositionException :=
          Sheet.GetConcreteCell_invalid hqv
        rw [this] at hgq
        cases hgq
    have hslot : s1.GetCell q = .ok (slot s1.table_ q.row.toNat q.col.toNat) :=
      hwf1.GetConcreteCell hqv
    rw [hgq, Result.ok.injEq] at hslot
    have hu := hwf1.unique q.row.toNat q.col.toNat pos.row.toNat pos.col.toNat
      (by rw [← hslot]; exact hp) (by rw [← hslot, hthis]; exact hpt)
    exact hq (Position.toNat_inj hqv hv hu.1 hu.2)
  have hvac : ∀ (t : Sheet D), (∀ q, q ≠ pos → t.GetCell q = s.GetCell q) →
      ∀ q p, s.GetCell q = .ok nullptr → t.GetCell q = .ok p → p ≠ nullptr → q = pos := by
    intro t ht q p hsq htq hp
    by_contra hq
    rw [ht q hq, hsq, Result.ok.injEq] at htq
    exact hp htq.symm
  rcases hcases with ⟨e, hthrown, _⟩ | ⟨f, hundef⟩ | ⟨impl, s4, c4, hch, hok, hwf4, hrew, hc4,
    himpl, _, _, _⟩
  · have hs' : s' = s1 := by
      rcases h with h | ⟨e', h⟩
      · rw [hthrown] at h; cases h
      · rw [hthrown] at h; cases h; rfl
    subst hs'
    refine ⟨fun q hq => ⟨f3 q hq, ht1 q hq⟩, hvac s' f3, ?_, ?_⟩
    · intro hok
      rw [hthrown] at hok
      cases hok
    · intro _ hnull
      obtain ⟨p, hp, hpn, _, hnew⟩ := f6 hnull
      exact ⟨p, hp, hpn, hnew⟩
  · rcases h with h | ⟨e', h⟩
    · rw [hundef] at h; cases h
    · rw [hundef] at h; cases h
  · have hs' : s' = s4 := by
      rcases h with h | ⟨e', h⟩
      · rw [hok] at h; cases h; rfl
      · rw [hok] at h; cases h
    subst hs'
    have hg4 : ∀ q, s'.GetCell q = s1.GetCell q := fun q =>
      Sheet.GetConcreteCell_congr hrew.table_eq q
    have hframe : ∀ q, q ≠ pos → s'.GetCell q = s.GetCell q := fun q hq => by
      rw [hg4 q, f3 q hq]
    refine ⟨fun q hq => ⟨hframe q hq, ?_⟩, hvac s' hframe, ?_, ?_⟩
    · rw [← ht1 q hq]
      apply Sheet.textAt_congr hwf1 hwf4 q (hg4 q)
      intro p c hgq hc
      obtain ⟨c', hc', hsame, _⟩ := hrew.live p c hc
      exact ⟨c', hc', (hsame (hother q p hq hgq (hwf1.ne_null hc))).1⟩
    · intro _
      refine ⟨this, c4, by rw [hg4 pos]; exact hg1, hc4, ?_⟩
      intro q hq
      have hq' : q ∈ impl.GetDependencies := by
        rw [← himpl]; exact hq
      obtain ⟨p, hp, hplive, hpthis, _⟩ := (Cell.chooseImpl_ok hch).2 q hq'
      have hqpos : q ≠ pos := by
        intro heq
        rw [heq] at hp
        have : s1.GetCell pos = .ok p := hp
        rw [hg1, Result.ok.injEq] at this
        exact hpthis this.symm
      have hpn : p ≠ nullptr := by
        intro hpn
        rw [hpn] at hplive
        exact hplive hwf1.cell_null
      refine ⟨hqpos, p, ?_, hpn⟩
      rw [← f3 q hqpos]
      exact hp
    · rintro ⟨e, he⟩
      rw [hok] at he
      cases he

/-- C18 (witness): `SetCell(B1, "=A1")` on the sheet where `A1` holds `"1"`. -/
theorem setCell_frame_witness :
    Reachable Example.env Example.sheetA ∧
    Sheet.SetCell Example.env Example.sheetA Example.B1 "=A1" = .ok Example.sheetAB ∧
    SetCellFrame Example.env Example.sheetA Example.B1 "=A1" Example.sheetAB :=
  ⟨Example.reachable_sheetA, rfl,
    setCell_frame Example.env Example.reachable_sheetA
      (show Example.B1.IsValid = true from rfl) "=A1" (Or.inl rfl)⟩

/-! ## Formula cells read what they are hooked to -/

theorem Cell.chooseImpl_parsed {D : Type} {env : Env D} {s : Sheet D} {this : Ptr}
    {text : String} {impl : Impl D} (h : Cell.chooseImpl env s this text = .ok impl)
    {formula_ : FormulaAST D} {cache_ : Option (FValue D)}
    (himpl : impl = .FormulaImpl formula_ cache_) :
    ∃ src, env.ParseFormulaAST src = some formula_ := by
  unfold Cell.chooseImpl at h
  split at h
  · cases h; cases himpl
  · split at h
    · split at h
      · cases h
      · rename_i ast hast
        obtain ⟨b, _, h⟩ := Result.bind_eq_ok h
        cases b with
        | true => simp at h
        | false =>
          simp only [Bool.false_eq_true, if_false, Result.ok.injEq] at h
          subst h
          cases himpl
          exact ⟨_, hast⟩
    · cases h; cases himpl

theorem RefsOk.of_empty {D : Type} : RefsOk (Sheet.empty : Sheet D) := by
  refine ⟨?_, ?_⟩
  · intro a c f cache hc _
    rw [Sheet.cell_empty] at hc
    cases hc
  · intro a c f cache hc _
    rw [Sheet.cell_empty] at hc
    cases hc

theorem RefsOk.grow {D : Type} {s s1 : Sheet D} (hwf : WF s) (hro : RefsOk s)
    {pos : Position} {this : Ptr} (hv : pos.IsValid = true)
    (hm : s.materialize pos = .ok (s1, this)) : RefsOk s1 := by
  obtain ⟨s1', this', hm', hwf1, hlive, hslot, hother, hcases⟩ := Sheet.materialize_spec hwf hv
  rw [hm] at hm'
  cases hm'
  have hcell : ∀ a c (f : FormulaAST D) cache, s1.cell a = some c →
      c.impl_ = .FormulaImpl f cache → s.cell a = some c := by
    intro a c f cache hc himpl
    rcases hcases with ⟨_, hheap, _⟩ | ⟨_, hthis, hheap, _⟩
    · unfold Sheet.cell at hc ⊢
      rw [hheap] at hc
      exact hc
    · unfold Sheet.cell at hc ⊢
      rw [hheap, List.getD_eq_getElem?_getD] at hc
      rw [List.getD_eq_getElem?_getD]
      by_cases ha : a < s.heap.length
      · rw [List.getElem?_append_left ha] at hc
        exact hc
      · by_cases ha' : a = s.heap.length
        · subst ha'
          simp only [List.getElem?_concat_length, Option.getD_some, Option.some.injEq] at hc
          subst hc
          simp [Cell.new] at himpl
        · have hgt : s.heap.length + 1 ≤ a :=
            Nat.lt_of_le_of_ne (Nat.le_of_not_lt ha) (Ne.symm ha')
          rw [List.getElem?_eq_none (by simp; exact hgt)] at hc
          simp at hc
  have hslots : ∀ r c, slot s.table_ r c ≠ nullptr → slot s1.table_ r c = slot s.table_ r c := by
    intro r c hne
    by_cases hrc : r = pos.row.toNat ∧ c = pos.col.toNat
    · obtain ⟨hr1, hc1⟩ := hrc
      subst hr1 hc1
      rcases hcases with ⟨h, _, _⟩ | ⟨h, _, _, _⟩
      · rw [hslot, h]
      · exact absurd h hne
    · exact hother r c hrc
  refine ⟨?_, ?_⟩
  · intro a c f cache hc himpl
    exact hro.reads a c f cache (hcell a c f cache hc himpl) himpl
  · intro a c f cache hc himpl pos' hpos'
    have hc' := hcell a c f cache hc himpl
    obtain ⟨hv', hmem⟩ := hro.hooked a c f cache hc' himpl pos' hpos'
    obtain ⟨cb, hcb, _⟩ := hwf.prec_live a c _ hc' hmem
    rw [hslots _ _ (hwf.ne_null hcb)]
    exact ⟨hv', hmem⟩

theorem RefsOk.step_setCell {D : Type} {env : Env D}
    (hparse : ∀ src ast, env.ParseFormulaAST src = some ast → ast.exec.ReadsOnly ast.cells)
    {s s' : Sheet D} (hwf : WF s) (hro : RefsOk s) {pos : Position} {text : String}
    (h : Sheet.SetCell env s pos text = .ok s') : RefsOk s' := by
  have hv : pos.IsValid = true := by
    rcases Sheet.SetCell_eq env hwf pos text with ⟨_, h1⟩ | ⟨hv, _⟩
    · rw [h1] at h; cases h
    · exact hv
  obtain ⟨s1, this, c0, hm, hwf1, hc0, hcases⟩ := Sheet.SetCell_cases env hwf hv text
  have hro1 := hro.grow hwf hv hm
  rcases hcases with ⟨e, h1, _⟩ | ⟨f, h1⟩ | ⟨impl, s4, c4, hch, h1, hwf4, hrw, hc4, himpl, _, _,
    hprec⟩
  · rw [h1] at h; cases h
  · rw [h1] at h; cases h
  · rw [h1] at h
    cases h
    have hdeps := (Cell.chooseImpl_ok hch).2
    refine ⟨?_, ?_⟩
    · intro a c f cache hc hf
      by_cases ha : a = this
      · subst ha
        rw [hc4] at hc
        cases hc
        obtain ⟨src, hsrc⟩ := Cell.chooseImpl_parsed hch (himpl.symm.trans hf)
        exact hparse src f hsrc
      · obtain ⟨c1, hc1, hsame, _⟩ := hrw.live_inv hc
        exact hro1.reads a c1 f cache hc1 (by rw [← (hsame ha).1]; exact hf)
    · intro a c f cache hc hf pos' hpos'
      rw [hrw.table_eq]
      by_cases ha : a = this
      · subst ha
        rw [hc4] at hc
        cases hc
        have hmem : pos' ∈ impl.GetDependencies := by
          rw [← himpl, hf]
          exact (mem_unique pos' f.cells).mpr hpos'
        obtain ⟨p, hp, _⟩ := hdeps pos' hmem
        have hv' : pos'.IsValid = true := by
          cases hq : pos'.IsValid with
          | true => rfl
          | false => rw [Sheet.GetConcreteCell_invalid hq] at hp; cases hp
        have hg := hwf1.GetConcreteCell (s := s1) hv'
        refine ⟨hv', (hprec _).mpr ⟨pos', hmem, hg⟩⟩
      · obtain ⟨c1, hc1, hsame, _⟩ := hrw.live_inv hc
        obtain ⟨hv', hmem⟩ := hro1.hooked a c1 f cache hc1
          (by rw [← (hsame ha).1]; exact hf) pos' hpos'
        exact ⟨hv', by rw [(hsame ha).2]; exact hmem⟩

theorem RefsOk.step_setCell_thrown {D : Type} {env : Env D} {s s' : Sheet D} (hwf : WF s)
    (hro : RefsOk s) {pos : Position} {text : String} {e : Exception}
    (h : Sheet.SetCell env s pos text = .thrown e s') : RefsOk s' := by
  rcases Sheet.SetCell_thrown hwf h with ⟨_, _, rfl⟩ | ⟨hv, this, hm, _⟩
  · exact hro
  · exact hro.grow hwf hv hm

theorem RefsOk.step_clearCell {D : Type} {s s' : Sheet D} (hwf : WF s) (hro : RefsOk s)
    {pos : Position} (h : s.ClearCell pos = .ok s') : RefsOk s' := by
  rcases Sheet.ClearCell_spec hwf pos with ⟨_, h1⟩ | ⟨_, _, h1⟩ | ⟨_, c, _, hc, _, h1⟩ |
      ⟨_, c, hp, hc, hdep, h1⟩
  · rw [h1] at h; cases h
  · rw [h1] at h; cases h; exact hro
  · rw [h1] at h
    cases h
    have hlt := Sheet.lt_of_cell hc
    have hcell : ∀ a, (Sheet.mk s.table_ (s.heap.set (slot s.table_ pos.row.toNat pos.col.toNat)
        (some { c with impl_ := .EmptyImpl }))).cell a =
        if a = slot s.table_ pos.row.toNat pos.col.toNat
        then some { c with impl_ := .EmptyImpl } else s.cell a :=
      fun a => Sheet.cell_set s _ a _ hlt
    have hback : ∀ a c' (f : FormulaAST D) cache,
        (Sheet.mk s.table_ (s.heap.set (slot s.table_ pos.row.toNat pos.col.toNat)
          (some { c with impl_ := .EmptyImpl }))).cell a = some c' →
        c'.impl_ = .FormulaImpl f cache → s.cell a = some c' := by
      intro a c' f cache hc' hf
      rw [hcell] at hc'
      by_cases ha : a = slot s.table_ pos.row.toNat pos.col.toNat
      · rw [if_pos ha] at hc'
        cases hc'
        cases hf
      · rw [if_neg ha] at hc'
        exact hc'
    exact ⟨fun a c' f cache hc' hf => hro.reads a c' f cache (hback a c' f cache hc' hf) hf,
      fun a c' f cache hc' hf => hro.hooked a c' f cache (hback a c' f cache hc' hf) hf⟩
  · rw [h1] at h
    cases h
    have hlt := Sheet.lt_of_cell hc
    obtain ⟨hr, hcol⟩ := slot_ne_null_bounds hp
    have hcell : ∀ a, (Sheet.mk (setSlot s.table_ pos.row.toNat pos.col.toNat nullptr)
        (s.heap.set (slot s.table_ pos.row.toNat pos.col.toNat) none)).cell a =
        if a = slot s.table_ pos.row.toNat pos.col.toNat then none else s.cell a :=
      fun a => Sheet.cell_set ⟨setSlot s.table_ pos.row.toNat pos.col.toNat nullptr, s.heap⟩
        _ a _ hlt
    have hslot : ∀ r cc, slot (setSlot s.table_ pos.row.toNat pos.col.toNat nullptr) r cc =
        if r = pos.row.toNat ∧ cc = pos.col.toNat then nullptr else slot s.table_ r cc :=
      fun r cc => setSlot_slot _ hr hcol r cc
    have hback : ∀ a c',
        (Sheet.mk (setSlot s.table_ pos.row.toNat pos.col.toNat nullptr)
          (s.heap.set (slot s.table_ pos.row.toNat pos.col.toNat) none)).cell a = some c' →
        s.cell a = some c' := by
      intro a c' hc'
      rw [hcell] at hc'
      by_cases ha : a = slot s.table_ pos.row.toNat pos.col.toNat
      · rw [if_pos ha] at hc'; cases hc'
      · rw [if_neg ha] at hc'; exact hc'
    refine ⟨fun a c' f cache hc' hf => hro.reads a c' f cache (hback a c' hc') hf, ?_⟩
    intro a c' f cache hc' hf pos' hpos'
    have hc'' := hback a c' hc'
    obtain ⟨hv', hmem⟩ := hro.hooked a c' f cache hc'' hf pos' hpos'
    refine ⟨hv', ?_⟩
    show slot (setSlot s.table_ pos.row.toNat pos.col.toNat nullptr) _ _ ∈ _
    rw [hslot]
    by_cases hrc : pos'.row.toNat = pos.row.toNat ∧ pos'.col.toNat = pos.col.toNat
    · exfalso
      rw [hrc.1, hrc.2] at hmem
      obtain ⟨cb, hcb, hdepb⟩ := hwf.prec_live a c' _ hc'' hmem
      rw [hc] at hcb
      cases hcb
      rw [hdep] at hdepb
      simp at hdepb
    · rw [if_neg hrc]
      exact hmem

theorem Reachable.refsOk {D : Type} {env : Env D}
    (hparse : ∀ src ast, env.ParseFormulaAST src = some ast → ast.exec.ReadsOnly ast.cells)
    {s : Sheet D} (h : Reachable env s) : RefsOk s := by
  induction h with
  | empty => exact RefsOk.of_empty
  | setCell_ok pos text hprev hstep ih => exact ih.step_setCell hparse hprev.wf hstep
  | setCell_thrown pos text e hprev hstep ih => exact ih.step_setCell_thrown hprev.wf hstep
  | clearCell_ok pos hprev hstep ih => exact ih.step_clearCell hprev.wf hstep
  | clearCell_thrown pos e hprev hstep ih =>
    obtain ⟨_, _, rfl⟩ := Sheet.ClearCell_thrown hprev.wf hstep
    exact ih

/-! ## `GetValue` against the value in the words of the spec -/

theorem Formula.lookup_sound {D : Type} (env : Env D) {s : Sheet D} (hwf : WF s)
    {g : Ptr → Result (Value D)} {value : Ptr → Value D}
    (hg : ∀ q v, g q = .ok v → value q = v) {pos : Position} {o : FValue D}
    (h : Formula.lookup env g s pos = .ok o) : Spec.operand env s value pos = o := by
  unfold Formula.lookup at h
  unfold Spec.operand
  cases hv : pos.IsValid with
  | false =>
    simp only [hv, Bool.not_false, if_true, Result.ok.injEq] at h
    simp only [if_true]
    exact h
  | true =>
    simp only [hv, Bool.not_true, Bool.false_eq_true, if_false] at h
    simp only [Bool.true_eq_false, if_false]
    have hgc : s.GetCell pos = .ok (slot s.table_ pos.row.toNat pos.col.toNat) :=
      hwf.GetConcreteCell hv
    rw [hgc, Result.bind_ok] at h
    by_cases hp : slot s.table_ pos.row.toNat pos.col.toNat = nullptr
    · rw [if_pos hp, Result.ok.injEq] at h
      rw [if_pos hp]
      exact h
    · rw [if_neg hp] at h
      rw [if_neg hp]
      obtain ⟨v, hgv, h⟩ := Result.bind_eq_ok h
      rw [hg _ _ hgv]
      cases v with
      | number x =>
        simp only [Result.ok.injEq] at h
        exact h
      | text str =>
        simp only at h ⊢
        cases hst : env.stod str with
        | none =>
          rw [hst] at h
          simp only [Result.ok.injEq] at h
          exact h
        | some xn =>
          obtain ⟨x, n⟩ := xn
          rw [hst] at h
          simp only at h ⊢
          by_cases hn : n = str.length
          · rw [if_neg (fun hne => hne hn), Result.ok.injEq] at h
            rw [if_pos hn]
            exact h
          · rw [if_pos hn, Result.ok.injEq] at h
            rw [if_neg hn]
            exact h
      | error e =>
        simp only [Result.ok.injEq] at h
        exact h

theorem Formula.Evaluate_sound {D : Type} {lookup : Position → Result (FValue D)}
    {operand : Position → FValue D} (hl : ∀ pos o, lookup pos = .ok o → operand pos = o) :
    ∀ (e : Exec D) (fv : FValue D), Formula.Evaluate lookup e = .ok fv →
      Spec.evaluate operand e = fv := by
  intro e
  induction e with
  | ret x =>
    intro fv h
    simp only [Formula.Evaluate, Result.ok.injEq] at h
    simp only [Spec.evaluate]
    exact h
  | raise err =>
    intro fv h
    simp only [Formula.Evaluate, Result.ok.injEq] at h
    simp only [Spec.evaluate]
    exact h
  | cell pos k ih =>
    intro fv h
    simp only [Formula.Evaluate] at h
    obtain ⟨o, ho, h⟩ := Result.bind_eq_ok h
    simp only [Spec.evaluate, hl pos o ho]
    cases o with
    | number x => exact ih x fv h
    | error err =>
      simp only [Result.ok.injEq] at h
      exact h

theorem Cell.GetValue_sound {D : Type} (env : Env D) {s : Sheet D} (hwf : WF s)
    {value : Ptr → Value D} (hval : Spec.IsValuation env s value) :
    ∀ (fuel : Nat) (p : Ptr) (v : Value D), Cell.GetValue env s fuel p = .ok v →
      value p = v := by
  intro fuel
  induction fuel with
  | zero =>
    intro p v h
    simp [Cell.GetValue] at h
  | succ fuel ih =>
    intro p v h
    simp only [Cell.GetValue] at h
    obtain ⟨c, hc, h⟩ := Result.bind_eq_ok h
    obtain ⟨h1, h2, h3⟩ := hval p c (Sheet.deref_eq_ok.mp hc).2
    cases himpl : c.impl_ with
    | EmptyImpl =>
      rw [himpl] at h
      simp only [Result.ok.injEq] at h
      rw [h1 himpl, h]
    | TextImpl t =>
      rw [himpl] at h
      simp only [Result.ok.injEq] at h
      rw [h2 t himpl, ← h, TextImpl.GetValue_eq]
      rfl
    | FormulaImpl f cache =>
      rw [himpl] at h
      simp only at h
      obtain ⟨fv, hfv, h⟩ := Result.bind_eq_ok h
      simp only [Result.ok.injEq] at h
      have hs := Formula.Evaluate_sound
        (fun pos o ho => Formula.lookup_sound env hwf (fun q v hq => ih q v hq) ho) f.exec fv hfv
      obtain ⟨hn, he⟩ := h3 f cache himpl
      cases fv with
      | number x => rw [hn x hs, ← h]; rfl
      | error e => rw [he e hs, ← h]; rfl

theorem Formula.lookup_mono {D : Type} (env : Env D) (s : Sheet D)
    {g1 g2 : Ptr → Result (Value D)} (hg : ∀ q v, g1 q = .ok v → g2 q = .ok v)
    {pos : Position} {o : FValue D} (h : Formula.lookup env g1 s pos = .ok o) :
    Formula.lookup env g2 s pos = .ok o := by
  unfold Formula.lookup at h ⊢
  by_cases hv : (!pos.IsValid) = true
  · rw [if_pos hv] at h ⊢
    exact h
  · rw [if_neg hv] at h ⊢
    obtain ⟨p, hp, h⟩ := Result.bind_eq_ok h
    rw [hp, Result.bind_ok]
    by_cases hnull : p = nullptr
    · rw [if_pos hnull] at h ⊢
      exact h
    · rw [if_neg hnull] at h ⊢
      obtain ⟨v, hgv, h⟩ := Result.bind_eq_ok h
      rw [hg _ _ hgv, Result.bind_ok]
      exact h

theorem Formula.Evaluate_mono {D : Type} {l1 l2 : Position → Result (FValue D)}
    (hl : ∀ pos o, l1 pos = .ok o → l2 pos = .ok o) :
    ∀ (e : Exec D) (fv : FValue D), Formula.Evaluate l1 e = .ok fv →
      Formula.Evaluate l2 e = .ok fv := by
  intro e
  induction e with
  | ret x => intro fv h; exact h
  | raise err => intro fv h; exact h
  | cell pos k ih =>
    intro fv h
    simp only [Formula.Evaluate] at h ⊢
    obtain ⟨o, ho, h⟩ := Result.bind_eq_ok h
    rw [hl pos o ho, Result.bind_ok]
    cases o with
    | number x => exact ih x fv h
    | error err => exact h

theorem Cell.GetValue_mono {D : Type} (env : Env D) (s : Sheet D) :
    ∀ (fuel : Nat) (p : Ptr) (v : Value D), Cell.GetValue env s fuel p = .ok v →
      Cell.GetValue env s (fuel + 1) p = .ok v := by
  intro fuel
  induction fuel with
  | zero =>
    intro p v h
    simp [Cell.GetValue] at h
  | succ fuel ih =>
    intro p v h
    rw [Cell.GetValue] at h ⊢
    obtain ⟨c, hc, h⟩ := Result.bind_eq_ok h
    rw [hc, Result.bind_ok]
    cases himpl : c.impl_ with
    | EmptyImpl => rw [himpl] at h; exact h
    | TextImpl t => rw [himpl] at h; exact h
    | FormulaImpl f cache =>
      rw [himpl] at h
      simp only at h ⊢
      obtain ⟨fv, hfv, h⟩ := Result.bind_eq_ok h
      rw [Formula.Evaluate_mono (fun pos o ho => Formula.lookup_mono env s ih ho) f.exec fv hfv,
        Result.bind_ok]
      exact h

theorem Cell.GetValue_mono_le {D : Type} (env : Env D) (s : Sheet D) {fuel fuel' : Nat}
    (hle : fuel ≤ fuel') {p : Ptr} {v : Value D} (h : Cell.GetValue env s fuel p = .ok v) :
    Cell.GetValue env s fuel' p = .ok v := by
  induction hle with
  | refl => exact h
  | step _ ih => exact Cell.GetValue_mono env s _ p v ih

theorem Formula.Evaluate_total {D : Type} {lookup : Position → Result (FValue D)}
    (cells : List Position) (hl : ∀ pos ∈ cells, ∃ o, lookup pos = .ok o) :
    ∀ e : Exec D, e.ReadsOnly cells → ∃ fv, Formula.Evaluate lookup e = .ok fv := by
  intro e
  induction e with
  | ret x => intro _; exact ⟨.number x, by simp only [Formula.Evaluate]⟩
  | raise err => intro _; exact ⟨.error err, by simp only [Formula.Evaluate]⟩
  | cell pos k ih =>
    intro hr
    simp only [Exec.ReadsOnly] at hr
    obtain ⟨o, ho⟩ := hl pos hr.1
    simp only [Formula.Evaluate, ho, Result.bind_ok]
    cases o with
    | number x => exact ih x (hr.2 x)
    | error err => exact ⟨_, rfl⟩

theorem Formula.lookup_total {D : Type} (env : Env D) {s : Sheet D} (hwf : WF s)
    {g : Ptr → Result (Value D)} {pos : Position} (hv : pos.IsValid = true)
    (hg : slot s.table_ pos.row.toNat pos.col.toNat ≠ nullptr →
      ∃ v, g (slot s.table_ pos.row.toNat pos.col.toNat) = .ok v) :
    ∃ o, Formula.lookup env g s pos = .ok o := by
  unfold Formula.lookup
  simp only [hv, Bool.not_true, Bool.false_eq_true, if_false]
  have hgc : s.GetCell pos = .ok (slot s.table_ pos.row.toNat pos.col.toNat) :=
    hwf.GetConcreteCell hv
  rw [hgc, Result.bind_ok]
  by_cases hp : slot s.table_ pos.row.toNat pos.col.toNat = nullptr
  · rw [if_pos hp]; exact ⟨_, rfl⟩
  · rw [if_neg hp]
    obtain ⟨v, hgv⟩ := hg hp
    rw [hgv, Result.bind_ok]
    cases v with
    | number x => exact ⟨_, rfl⟩
    | text str =>
      simp only
      cases env.stod str with
      | none => exact ⟨_, rfl⟩
      | some xn =>
        obtain ⟨x, n⟩ := xn
        simp only
        by_cases hn : n ≠ str.length
        · rw [if_pos hn]; exact ⟨_, rfl⟩
        · rw [if_neg hn]; exact ⟨_, rfl⟩
    | error e => exact ⟨_, rfl⟩

/-- On a sheet that satisfies the invariants, `GetValue` of a cell returns when the
bound on the nesting covers the cells that are not on the chain of cells being
evaluated: the chain never repeats a cell, because the precedent graph has no cycle. -/
theorem Cell.GetValue_total {D : Type} (env : Env D) {s : Sheet D} (hwf : WF s)
    (hro : RefsOk s) :
    ∀ (fuel : Nat) (p : Ptr) (chain : List Ptr), chain.Nodup →
      (∀ q ∈ chain, q < s.heap.length) →
      (∀ q ∈ chain, Relation.TransGen (Edge s) q p) → (∃ c, s.cell p = some c) →
      s.heap.length < fuel + chain.length → ∃ v, Cell.GetValue env s fuel p = .ok v := by
  intro fuel
  induction fuel with
  | zero =>
    intro p chain hnd hlt _ _ hlen
    have := length_le_of_nodup_lt hnd hlt
    omega
  | succ fuel ih =>
    intro p chain hnd hlt hreach hp hlen
    obtain ⟨c, hc⟩ := hp
    rw [Cell.GetValue, hwf.deref_ok_iff.mpr hc, Result.bind_ok]
    cases himpl : c.impl_ with
    | EmptyImpl => exact ⟨_, rfl⟩
    | TextImpl t => exact ⟨_, rfl⟩
    | FormulaImpl f cache =>
      simp only
      have hpchain : p ∉ chain := fun hmem => hwf.acyclic p (hreach p hmem)
      have hlook : ∀ pos ∈ f.cells,
          ∃ o, Formula.lookup env (Cell.GetValue env s fuel) s pos = .ok o := by
        intro pos hpos
        obtain ⟨hv, hmem⟩ := hro.hooked p c f cache hc himpl pos hpos
        apply Formula.lookup_total env hwf hv
        intro _
        obtain ⟨cb, hcb, _⟩ := hwf.prec_live p c _ hc hmem
        have hedge : Edge s p (slot s.table_ pos.row.toNat pos.col.toNat) := ⟨c, hc, hmem⟩
        apply ih _ (p :: chain) (List.nodup_cons.mpr ⟨hpchain, hnd⟩)
        · intro q hq
          rcases List.mem_cons.mp hq with h | h
          · rw [h]; exact Sheet.lt_of_cell hc
          · exact hlt q h
        · intro q hq
          rcases List.mem_cons.mp hq with h | h
          · rw [h]; exact Relation.TransGen.single hedge
          · exact Relation.TransGen.tail (hreach q h) hedge
        · exact ⟨cb, hcb⟩
        · simp only [List.length_cons]
          omega
      obtain ⟨fv, hfv⟩ := Formula.Evaluate_total f.cells hlook f.exec
        (hro.reads p c f cache hc himpl)
      rw [hfv, Result.bind_ok]
      exact ⟨_, rfl⟩

theorem CacheCoherent.of_invariants {D : Type} (env : Env D) {s : Sheet D} (hwf : WF s)
    (hro : RefsOk s) : CacheCoherent env s := by
  have htotal : ∀ p c, s.cell p = some c →
      ∃ v, Cell.GetValue env s (s.heap.length + 1) p = .ok v := fun p c hc =>
    Cell.GetValue_total env hwf hro _ p [] List.nodup_nil (fun q hq => by simp at hq)
      (fun q hq => by simp at hq) ⟨c, hc⟩ (by simp)
  obtain ⟨value, hvalue⟩ : ∃ value : Ptr → Value D, ∀ p v,
      Cell.GetValue env s (s.heap.length + 1) p = .ok v → value p = v :=
    ⟨fun p => match Cell.GetValue env s (s.heap.length + 1) p with
      | .ok v => v
      | _ => .number env.zero, fun p v hv => by simp only [hv]⟩
  have hval : Spec.IsValuation env s value := by
    intro p c hc
    obtain ⟨v, hv⟩ := htotal p c hc
    rw [hvalue p v hv]
    rw [Cell.GetValue, hwf.deref_ok_iff.mpr hc, Result.bind_ok] at hv
    refine ⟨?_, ?_, ?_⟩
    · intro himpl
      rw [himpl] at hv
      simp only [Result.ok.injEq] at hv
      exact hv.symm
    · intro t himpl
      rw [himpl] at hv
      simp only [Result.ok.injEq] at hv
      rw [← hv, TextImpl.GetValue_eq]
      rfl
    · intro f cache himpl
      rw [himpl] at hv
      simp only at hv
      obtain ⟨fv, hfv, hv⟩ := Result.bind_eq_ok hv
      simp only [Result.ok.injEq] at hv
      have hstep : ∀ q w, Cell.GetValue env s s.heap.length q = .ok w → value q = w :=
        fun q w hq => hvalue q w (Cell.GetValue_mono env s _ q w hq)
      have hs := Formula.Evaluate_sound
        (fun pos o ho => Formula.lookup_sound env hwf hstep ho) f.exec fv hfv
      rw [hs]
      constructor
      · intro x hx
        rw [hx] at hv
        exact hv.symm
      · intro e he
        rw [he] at hv
        exact hv.symm
  refine ⟨value, hval, ?_, ?_⟩
  · intro value' hval' p c hc
    obtain ⟨v, hv⟩ := htotal p c hc
    rw [hvalue p v hv]
    exact Cell.GetValue_sound env hwf hval' _ p v hv
  · intro p c hc fuel hfuel
    obtain ⟨v, hv⟩ := htotal p c hc
    rw [hvalue p v hv]
    exact Cell.GetValue_mono_le env s hfuel hv

/-- C6. Let every AST that the parser returns ask only for the positions it reports.
Then in every reachable sheet, and so in the sheet that any returning `SetCell` leaves,
the values of the cells in the words of the spec (zero for an empty cell, the
displayed text of a text cell, and for a formula cell the result of its AST on the
operands taken from the sheet as it is) are determined on every cell, and `GetValue` of
every cell returns exactly that value, with every bound on the nesting above the
number of addresses. No value returned by `GetValue` depends on what a cache slot
holds: it is the same on the sheet with all caches emptied. -/
theorem getValue_formula_eq_evaluate {D : Type} {env : Env D}
    (hparse : ∀ src ast, env.ParseFormulaAST src = some ast → ast.exec.ReadsOnly ast.cells)
    {s : Sheet D} (hr : Reachable env s) :
    CacheCoherent env s ∧
    (∀ (pos : Position) (text : String) (s' : Sheet D),
      Sheet.SetCell env s pos text = .ok s' → CacheCoherent env s') ∧
    ∀ fuel q, Cell.GetValue env s.wipeCaches fuel q = Cell.GetValue env s fuel q := by
  refine ⟨CacheCoherent.of_invariants env hr.wf (hr.refsOk hparse), ?_,
    Cell.GetValue_wipeCaches env s⟩
  intro pos text s' h
  have hr' : Reachable env s' := Reachable.setCell_ok pos text hr h
  exact CacheCoherent.of_invariants env hr'.wf (hr'.refsOk hparse)

theorem Example.parse_readsOnly (src : String) (ast : FormulaAST Int)
    (h : Example.env.ParseFormulaAST src = some ast) : ast.exec.ReadsOnly ast.cells := by
  have h' : Example.parse src = some ast := h
  unfold Example.parse at h'
  split at h'
  · obtain ⟨p, _, hp⟩ := Option.map_eq_some'.mp h'
    subst hp
    simp [Exec.ReadsOnly]
  · obtain ⟨p, _, h'⟩ := Option.bind_eq_some.mp h'
    obtain ⟨q, _, hq⟩ := Option.map_eq_some'.mp h'
    subst hq
    simp [Exec.ReadsOnly]
  · cases h'

/-- C6 (witness): in the sheet with `A1 = "1"` and `B1 = "=A1"` the value of `B1` is the
number `1`; `SetCell(A1, "2")` returns, and in the sheet it leaves the value of `B1` is
the number `2`. Both sheets are coherent. -/
theorem getValue_formula_eq_evaluate_witness :
    Reachable Example.env Example.sheetAB ∧
    Cell.GetValue Example.env Example.sheetAB 3 2 = .ok (.number 1) ∧
    Sheet.SetCell Example.env Example.sheetAB Example.A1 "2" = .ok Example.sheetAB2 ∧
    Cell.GetValue Example.env Example.sheetAB2 3 2 = .ok (.number 2) ∧
    CacheCoherent Example.env Example.sheetAB ∧
    CacheCoherent Example.env Example.sheetAB2 ∧
    ∀ fuel q, Cell.GetValue Example.env Example.sheetAB.wipeCaches fuel q =
      Cell.GetValue Example.env Example.sheetAB fuel q :=
  ⟨Example.reachable_sheetAB,
    Cell.GetValue_mono Example.env Example.sheetAB 2 2 _ Example.getValue_B1, rfl,
    Cell.GetValue_mono Example.env Example.sheetAB2 2 2 _ Example.getValue_B1_after,
    (getValue_formula_eq_evaluate Example.parse_readsOnly Example.reachable_sheetAB).1,
    (getValue_formula_eq_evaluate Example.parse_readsOnly Example.reachable_sheetAB).2.1
      Example.A1 "2" Example.sheetAB2 rfl,
    (getValue_formula_eq_evaluate Example.parse_readsOnly Example.reachable_sheetAB).2.2⟩

end Spreadsheet
